import Mathlib

/-!
Shallow embedding of `src/pythonmodules/intervalgraph.py` (the graph / poset /
pattern-graph engine of the NetworkPerturbations repository), together with
proofs settling the specification claims about it.

Python strings are modelled as `List Char`; a Python `set` owned by a graph is
modelled as a duplicate-free `List` (iteration order over a Python set is
arbitrary, and every algorithm below is insensitive to it); a Python
`frozenset` used as a dictionary key (the antichains of the pattern-graph
construction) is modelled as a `Finset`, whose structural equality is exactly
the canonical by-elements equality of frozensets.  Python dicts keyed by
vertices are modelled as total functions kept at a default value (`[]`)
outside the key set, together with the graph's vertex list; a dict access on
a missing key, which raises `KeyError` in Python, is modelled by an
`Option`/`Except` result where a claim depends on it.
-/

namespace IntervalGraph

/-- Python strings (only used as labels and network-spec text). -/
abbrev Chars := List Char

/-- Shorthand to write `Chars` literals. -/
def str (s : String) : Chars := s.data

variable {V : Type} [DecidableEq V]

/-- Python `set.add`: insert without duplication. -/
def sAdd (l : List V) (x : V) : List V := if x ∈ l then l else x :: l

/-- Embedding of the Python `Graph` class (`intervalgraph.py`, lines 10-16):
`vertices_` is the vertex set, `adjacency_lists_` the successor map,
`vertex_labels_` / `edge_labels_` the label dicts. -/
structure Graph (V : Type) [DecidableEq V] where
  vertices : List V
  adj : V → List V
  vlabel : V → Chars
  elabel : V → V → Chars

/-- `Graph.__init__`: the empty graph. -/
def Graph.empty (V : Type) [DecidableEq V] : Graph V :=
  ⟨[], fun _ => [], fun _ => [], fun _ _ => []⟩

/-- `Graph.add_vertex` (lines 17-23): a no-op when the vertex is present,
otherwise the vertex is added with the given label, an empty adjacency set
and an empty edge-label dict. -/
def Graph.add_vertex (g : Graph V) (v : V) (label : Chars) : Graph V :=
  if v ∈ g.vertices then g
  else
    { vertices := v :: g.vertices
      adj := Function.update g.adj v []
      vlabel := Function.update g.vlabel v label
      elabel := Function.update g.elabel v (fun _ => []) }

/-- `Graph.add_edge` (lines 24-29): both endpoints are added (with label `''`)
if absent, then `v` is inserted into `u`'s adjacency set and the edge label
is written (last write wins). -/
def Graph.add_edge (g : Graph V) (u v : V) (label : Chars) : Graph V :=
  let g1 := (g.add_vertex u []).add_vertex v []
  { g1 with
      adj := Function.update g1.adj u (sAdd (g1.adj u) v)
      elabel := Function.update g1.elabel u (Function.update (g1.elabel u) v label) }

/-- The mutation performed by `Graph.remove_edge` (lines 30-33) once the
dict access `adjacency_lists_[u]` has succeeded: `discard(v)` and
`edge_labels_[u].pop(v, None)` (removing the key is modelled by resetting the
label function to the default `[]`). -/
def Graph.removeEdgeCore (g : Graph V) (u v : V) : Graph V :=
  { g with
      adj := Function.update g.adj u ((g.adj u).erase v)
      elabel := Function.update g.elabel u (Function.update (g.elabel u) v []) }

/-- `Graph.remove_edge` (lines 30-33).  `self.adjacency_lists_[u]` is a dict
access whose keys are exactly the vertices of the graph, so it raises
`KeyError` (modelled by `none`) whenever `u` is not a vertex. -/
def Graph.remove_edge (g : Graph V) (u v : V) : Option (Graph V) :=
  if u ∈ g.vertices then some (g.removeEdgeCore u v) else none

/-- `Graph.edges` (lines 53-55): all ordered pairs `(u, v)` with `v`
adjacent to `u`, enumerated the way the Python list comprehension does. -/
def Graph.edgeList (g : Graph V) : List (V × V) :=
  g.vertices.flatMap fun u => ((g.adj u).map fun v => (u, v))

/-- `Graph.transpose` (lines 62-67): add every vertex with its label, then
every edge reversed with its label. -/
def Graph.transpose (g : Graph V) : Graph V :=
  let g1 := g.vertices.foldl (fun h v => h.add_vertex v (g.vlabel v)) (Graph.empty V)
  g.edgeList.foldl (fun h e => h.add_edge e.2 e.1 (g.elabel e.1 e.2)) g1

/-- One test-and-add step of the triple loop of `Graph.transitive_closure`
(lines 68-76): `if w in G.adjacencies(u) and v in G.adjacencies(w):
G.add_edge(u,v)`, the `add_edge` using the default label `''`. -/
def Graph.closureStep (w u v : V) (G : Graph V) : Graph V :=
  if w ∈ G.adj u ∧ v ∈ G.adj w then G.add_edge u v [] else G

/-- The innermost loop of `transitive_closure`: `for v in self.vertices()`. -/
def passV (w u : V) (vs : List V) (G : Graph V) : Graph V :=
  vs.foldl (fun G v => Graph.closureStep w u v G) G

/-- The middle loop of `transitive_closure`: `for u in self.vertices()`. -/
def passU (w : V) (us vs : List V) (G : Graph V) : Graph V :=
  us.foldl (fun G u => passV w u vs G) G

/-- `Graph.transitive_closure` (lines 68-76): the triple loop over the
vertices of `self`, mutating the clone `G` (which starts as a copy of `g`). -/
def Graph.transitive_closure (g : Graph V) : Graph V :=
  g.vertices.foldl (fun G w => passU w g.vertices g.vertices G) g

/-- `Graph.transitive_reduction` (lines 77-84): compute the transitive
closure, then for every edge `(u,v)` of the closure remove from a copy of
`self` every edge `(u,w)` with `w` a closure-successor of `v`.  Every `u`
occurring here is a vertex of the clone, so the Python `remove_edge` dict
accesses always succeed and `removeEdgeCore` is the faithful model. -/
def Graph.transitive_reduction (g : Graph V) : Graph V :=
  g.transitive_closure.edgeList.foldl
    (fun G e => (g.transitive_closure.adj e.2).foldl
      (fun G w => G.removeEdgeCore e.1 w) G) g

/-- Well-formedness invariant maintained by every `Graph` the Python code
ever constructs: vertex and adjacency sets are duplicate-free, the adjacency
dict has exactly the vertices as keys (`adj u = []` off the vertex set) and
all successors are vertices. -/
structure WF (g : Graph V) : Prop where
  nodupV : g.vertices.Nodup
  nodupA : ∀ u, (g.adj u).Nodup
  adj_subset : ∀ u v, v ∈ g.adj u → v ∈ g.vertices
  adj_empty : ∀ u, u ∉ g.vertices → g.adj u = []
  elabel_empty : ∀ u v, v ∉ g.adj u → g.elabel u v = []

theorem WF.empty : WF (Graph.empty V) :=
  ⟨List.nodup_nil, fun _ => List.nodup_nil, fun _ _ h => by simp [Graph.empty] at h,
   fun _ _ => rfl, fun _ _ _ => rfl⟩

@[simp] theorem Graph.mem_add_vertex_vertices (g : Graph V) (v : V) (l : Chars) (x : V) :
    x ∈ (g.add_vertex v l).vertices ↔ x = v ∨ x ∈ g.vertices := by
  unfold Graph.add_vertex
  split
  · constructor
    · exact fun h => Or.inr h
    · rintro (rfl | h) <;> simp_all
  · simp

theorem Graph.add_vertex_adj (g : Graph V) (v : V) (l : Chars) (u : V) :
    (g.add_vertex v l).adj u = if v ∈ g.vertices then g.adj u
      else if u = v then [] else g.adj u := by
  unfold Graph.add_vertex
  split <;> simp_all [Function.update]

theorem Graph.add_vertex_adj_of_mem (g : Graph V) {v : V} (l : Chars) (hv : v ∈ g.vertices)
    (u : V) : (g.add_vertex v l).adj u = g.adj u := by
  simp [Graph.add_vertex_adj, hv]

theorem WF.add_vertex {g : Graph V} (h : WF g) (v : V) (l : Chars) :
    WF (g.add_vertex v l) := by
  unfold Graph.add_vertex
  split
  · exact h
  · refine ⟨List.nodup_cons.2 ⟨by assumption, h.nodupV⟩, ?_, ?_, ?_, ?_⟩
    · intro u
      rcases eq_or_ne u v with rfl | hne
      · simp [Function.update]
      · simp [Function.update, hne, h.nodupA u]
    · intro u x hx
      rcases eq_or_ne u v with rfl | hne
      · simp [Function.update] at hx
      · simp only [Function.update, dif_neg hne] at hx
        exact List.mem_cons_of_mem _ (h.adj_subset u x hx)
    · intro u hu
      simp only [List.mem_cons, not_or] at hu
      simp only [Function.update, dif_neg hu.1]
      exact h.adj_empty u hu.2
    · intro u x hx
      rcases eq_or_ne u v with rfl | hne
      · simp [Function.update]
      · simp only [Function.update, dif_neg hne] at hx ⊢
        exact h.elabel_empty u x hx

@[simp] theorem Graph.mem_add_edge_vertices (g : Graph V) (u v : V) (l : Chars) (x : V) :
    x ∈ (g.add_edge u v l).vertices ↔ x = v ∨ x = u ∨ x ∈ g.vertices := by
  unfold Graph.add_edge
  simp

theorem Graph.add_edge_adj (g : Graph V) (u v : V) (l : Chars) (x : V) :
    (g.add_edge u v l).adj x =
      if x = u then sAdd (((g.add_vertex u []).add_vertex v []).adj u) v
      else ((g.add_vertex u []).add_vertex v []).adj x := by
  unfold Graph.add_edge
  simp only [Function.update]
  split <;> simp_all

theorem Graph.add_edge_adj_of_mem {g : Graph V} {u v : V} (l : Chars)
    (hu : u ∈ g.vertices) (hv : v ∈ g.vertices) (x : V) :
    (g.add_edge u v l).adj x = if x = u then sAdd (g.adj u) v else g.adj x := by
  rw [Graph.add_edge_adj]
  have h1 : ∀ y, ((g.add_vertex u []).add_vertex v []).adj y = g.adj y := by
    intro y
    rw [Graph.add_vertex_adj_of_mem _ _ (by simp [hv]),
      Graph.add_vertex_adj_of_mem _ _ hu]
  rw [h1, h1]

theorem mem_sAdd {l : List V} {x y : V} : y ∈ sAdd l x ↔ y = x ∨ y ∈ l := by
  unfold sAdd
  split
  · constructor
    · exact fun h => Or.inr h
    · rintro (rfl | h) <;> simp_all
  · simp

theorem sAdd_nodup {l : List V} (h : l.Nodup) (x : V) : (sAdd l x).Nodup := by
  unfold sAdd
  split
  · exact h
  · exact List.nodup_cons.2 ⟨by assumption, h⟩

theorem Graph.mem_add_edge_adj {g : Graph V} {u v : V} (l : Chars) (x y : V) :
    y ∈ (g.add_edge u v l).adj x ↔
      (x = u ∧ y = v) ∨ y ∈ ((g.add_vertex u []).add_vertex v []).adj x := by
  rw [Graph.add_edge_adj]
  split
  · subst x; rw [mem_sAdd]; tauto
  · tauto

theorem WF.add_edge {g : Graph V} (h : WF g) (u v : V) (l : Chars) :
    WF (g.add_edge u v l) := by
  have h2 := (h.add_vertex u []).add_vertex v []
  refine ⟨?_, ?_, ?_, ?_, ?_⟩
  · unfold Graph.add_edge
    exact h2.nodupV
  · intro x
    rw [Graph.add_edge_adj]
    split
    · exact sAdd_nodup (h2.nodupA u) v
    · exact h2.nodupA x
  · intro x y hy
    rw [Graph.mem_add_edge_adj] at hy
    rw [Graph.mem_add_edge_vertices]
    rcases hy with ⟨rfl, rfl⟩ | hy
    · exact Or.inl rfl
    · have := h2.adj_subset x y hy
      simp only [Graph.mem_add_vertex_vertices] at this
      tauto
  · intro x hx
    rw [Graph.mem_add_edge_vertices] at hx
    push_neg at hx
    rw [Graph.add_edge_adj, if_neg hx.2.1]
    apply h2.adj_empty
    simp only [Graph.mem_add_vertex_vertices]
    tauto
  · intro x y hy
    have hrfl : (g.add_edge u v l).elabel =
        Function.update (((g.add_vertex u []).add_vertex v []).elabel) u
          (Function.update ((((g.add_vertex u []).add_vertex v []).elabel) u) v l) := rfl
    rw [hrfl]
    rw [Graph.add_edge_adj] at hy
    rcases eq_or_ne x u with rfl | hne
    · rw [if_pos rfl, mem_sAdd] at hy
      push_neg at hy
      rw [Function.update_same, Function.update_noteq hy.1]
      exact h2.elabel_empty x y hy.2
    · rw [if_neg hne] at hy
      rw [Function.update_noteq hne]
      exact h2.elabel_empty x y hy

@[simp] theorem Graph.removeEdgeCore_vertices (g : Graph V) (u v : V) :
    (g.removeEdgeCore u v).vertices = g.vertices := rfl

theorem Graph.removeEdgeCore_adj (g : Graph V) (u v x : V) :
    (g.removeEdgeCore u v).adj x = if x = u then (g.adj u).erase v else g.adj x := by
  unfold Graph.removeEdgeCore
  simp only [Function.update]
  split <;> simp_all

theorem WF.removeEdgeCore {g : Graph V} (h : WF g) (u v : V) :
    WF (g.removeEdgeCore u v) := by
  refine ⟨h.nodupV, ?_, ?_, ?_, ?_⟩
  · intro x
    rw [Graph.removeEdgeCore_adj]
    split
    · exact (h.nodupA u).erase v
    · exact h.nodupA x
  · intro x y hy
    rw [Graph.removeEdgeCore_adj] at hy
    split at hy
    · exact h.adj_subset u y (List.mem_of_mem_erase hy)
    · exact h.adj_subset x y hy
  · intro x hx
    rw [Graph.removeEdgeCore_adj]
    split
    · rw [h.adj_empty _ (by simp_all [Graph.removeEdgeCore])]; rfl
    · exact h.adj_empty x (by simp_all [Graph.removeEdgeCore])
  · intro x y hy
    rw [Graph.removeEdgeCore_adj] at hy
    have hrfl : (g.removeEdgeCore u v).elabel =
        Function.update g.elabel u (Function.update (g.elabel u) v []) := rfl
    rw [hrfl]
    rcases eq_or_ne x u with rfl | hne
    · rw [Function.update_same]
      rcases eq_or_ne y v with rfl | hyv
      · simp
      · rw [if_pos rfl] at hy
        rw [Function.update_noteq hyv]
        apply h.elabel_empty
        intro hc
        exact hy (((h.nodupA x).mem_erase_iff).2 ⟨hyv, hc⟩)
    · rw [Function.update_noteq hne]
      rw [if_neg hne] at hy
      exact h.elabel_empty x y hy

theorem Graph.add_vertex_vlabel (g : Graph V) (v : V) (l : Chars) (x : V) :
    (g.add_vertex v l).vlabel x =
      if v ∈ g.vertices then g.vlabel x else if x = v then l else g.vlabel x := by
  unfold Graph.add_vertex
  split <;> simp_all [Function.update]

theorem Graph.add_vertex_vlabel_of_mem (g : Graph V) {v : V} (l : Chars) {x : V}
    (hx : x ∈ g.vertices) : (g.add_vertex v l).vlabel x = g.vlabel x := by
  rw [Graph.add_vertex_vlabel]
  split
  · rfl
  · split
    · simp_all
    · rfl

theorem Graph.add_edge_vlabel_of_mem (g : Graph V) {u v : V} (l : Chars) {x : V}
    (hx : x ∈ g.vertices) : (g.add_edge u v l).vlabel x = g.vlabel x := by
  unfold Graph.add_edge
  show ((g.add_vertex u []).add_vertex v []).vlabel x = g.vlabel x
  rw [Graph.add_vertex_vlabel_of_mem _ _ (by simp [hx]), Graph.add_vertex_vlabel_of_mem _ _ hx]

theorem Graph.add_vertex_elabel_of_mem (g : Graph V) {v : V} (l : Chars) {x : V}
    (hx : x ∈ g.vertices) (y : V) : (g.add_vertex v l).elabel x y = g.elabel x y := by
  unfold Graph.add_vertex
  split
  · rfl
  · have : x ≠ v := fun h => by subst h; contradiction
    simp [Function.update, this]

theorem Graph.add_edge_elabel_self (g : Graph V) (u v : V) (l : Chars) :
    (g.add_edge u v l).elabel u v = l := by
  unfold Graph.add_edge
  simp [Function.update]

theorem Graph.add_edge_elabel (g : Graph V) (u v : V) (l : Chars) :
    (g.add_edge u v l).elabel =
      Function.update (((g.add_vertex u []).add_vertex v []).elabel) u
        (Function.update ((((g.add_vertex u []).add_vertex v []).elabel) u) v l) := rfl

theorem Graph.add_edge_elabel_of_mem (g : Graph V) {u v : V} (l : Chars) {x : V}
    (hx : x ∈ g.vertices) (y : V) :
    (g.add_edge u v l).elabel x y =
      if x = u ∧ y = v then l else g.elabel x y := by
  have h1 : ∀ z, ((g.add_vertex u []).add_vertex v []).elabel x z = g.elabel x z := by
    intro z
    rw [Graph.add_vertex_elabel_of_mem _ _ (by simp [hx]), Graph.add_vertex_elabel_of_mem _ _ hx]
  rw [Graph.add_edge_elabel]
  rcases eq_or_ne x u with rfl | hne
  · simp only [Function.update_same]
    rcases eq_or_ne y v with rfl | hy
    · simp [Function.update]
    · rw [Function.update_noteq hy, h1 y]
      simp [hy]
  · rw [Function.update_noteq hne]
    rw [h1 y]
    simp [hne]

theorem Graph.add_edge_vertices_of_mem {g : Graph V} {u v : V} (l : Chars)
    (hu : u ∈ g.vertices) (hv : v ∈ g.vertices) :
    (g.add_edge u v l).vertices = g.vertices := by
  unfold Graph.add_edge Graph.add_vertex
  simp [hu, hv]

/-! ### Reachability -/

/-- `v` is a direct successor of `u`. -/
def Edge (g : Graph V) (u v : V) : Prop := v ∈ g.adj u

instance (g : Graph V) (u v : V) : Decidable (Edge g u v) := by
  unfold Edge; infer_instance

/-- A directed path of length ≥ 1 (the reachability relation of the graph). -/
def Reach (g : Graph V) : V → V → Prop := Relation.TransGen (Edge g)

theorem Reach.single {g : Graph V} {u v : V} (h : Edge g u v) : Reach g u v :=
  Relation.TransGen.single h

theorem Reach.trans {g : Graph V} {u v w : V} (h : Reach g u v) (h' : Reach g v w) :
    Reach g u w := Relation.TransGen.trans h h'

theorem Reach.tail {g : Graph V} {u v w : V} (h : Reach g u v) (h' : Edge g v w) :
    Reach g u w := Relation.TransGen.tail h h'

theorem edge_src_mem {G : Graph V} (hG : WF G) {a b : V} (h : Edge G a b) :
    a ∈ G.vertices := by
  by_contra hc
  have hb : b ∈ G.adj a := h
  rw [hG.adj_empty a hc] at hb
  simp at hb

theorem Reach.src_mem {g : Graph V} (hg : WF g) {u v : V} (h : Reach g u v) :
    u ∈ g.vertices := by
  induction h with
  | single h => exact edge_src_mem hg h
  | tail _ _ ih => exact ih

theorem Reach.dest_mem {g : Graph V} (hg : WF g) {u v : V} (h : Reach g u v) :
    v ∈ g.vertices := by
  induction h with
  | single h => exact hg.adj_subset _ _ h
  | tail _ h _ => exact hg.adj_subset _ _ h

/-- A directed path of length ≥ 1 whose intermediate vertices all lie in `S`
(the endpoints are unconstrained); the decomposition workhorse of the
Floyd–Warshall correctness proof for `transitive_closure`. -/
inductive WalkIn (g : Graph V) (S : List V) : V → V → Prop
  | single {u v} : Edge g u v → WalkIn g S u v
  | tail {u w v} : WalkIn g S u w → w ∈ S → Edge g w v → WalkIn g S u v

theorem WalkIn.mono {g : Graph V} {S S' : List V} (hS : ∀ x ∈ S, x ∈ S')
    {u v : V} (h : WalkIn g S u v) : WalkIn g S' u v := by
  induction h with
  | single h => exact .single h
  | tail _ hw he ih => exact .tail ih (hS _ hw) he

theorem WalkIn.reach {g : Graph V} {S : List V} {u v : V} (h : WalkIn g S u v) :
    Reach g u v := by
  induction h with
  | single h => exact Reach.single h
  | tail _ _ he ih => exact ih.tail he

theorem WalkIn.comp {g : Graph V} {S : List V} {u w v : V} (h : WalkIn g S u w)
    (hw : w ∈ S) (h' : WalkIn g S w v) : WalkIn g S u v := by
  induction h' with
  | single h' => exact .tail h hw h'
  | tail _ hx he ih => exact .tail ih hx he

theorem WalkIn.decompose {g : Graph V} {w : V} {S : List V} {u v : V}
    (h : WalkIn g (w :: S) u v) :
    WalkIn g S u v ∨ (WalkIn g S u w ∧ WalkIn g S w v) := by
  induction h with
  | single h => exact Or.inl (.single h)
  | tail _ hx he ih =>
      rename_i a b c _
      rcases List.mem_cons.1 hx with rfl | hxS
      · rcases ih with hw | ⟨hw, _⟩
        · exact Or.inr ⟨hw, .single he⟩
        · exact Or.inr ⟨hw, .single he⟩
      · rcases ih with hw | ⟨h1, h2⟩
        · exact Or.inl (.tail hw hxS he)
        · exact Or.inr ⟨h1, .tail h2 hxS he⟩

theorem reach_iff_walkIn {g : Graph V} (hg : WF g) {u v : V} :
    Reach g u v ↔ WalkIn g g.vertices u v := by
  constructor
  · intro h
    induction h with
    | single h => exact .single h
    | tail hr he ih => exact .tail ih (Reach.dest_mem hg hr) he
  · exact WalkIn.reach

/-! ### Correctness of `transitive_closure` (Floyd–Warshall triple loop) -/

theorem Graph.add_vertex_adj_of_src_mem (g : Graph V) (v : V) (l : Chars) {x : V}
    (hx : x ∈ g.vertices) : (g.add_vertex v l).adj x = g.adj x := by
  rw [Graph.add_vertex_adj]
  split
  · rfl
  · split
    · simp_all
    · rfl

theorem add_edge_edge_mono {G : Graph V} (hG : WF G) {u v a b : V} (l : Chars)
    (h : Edge G a b) : Edge (G.add_edge u v l) a b := by
  have ha : a ∈ G.vertices := edge_src_mem hG h
  show b ∈ _
  rw [Graph.mem_add_edge_adj]
  right
  rw [Graph.add_vertex_adj_of_src_mem _ _ _ (by simp [ha]),
    Graph.add_vertex_adj_of_src_mem _ _ _ ha]
  exact h

theorem closureStep_edge_mono {G : Graph V} (hG : WF G) {w u v a b : V}
    (h : Edge G a b) : Edge (Graph.closureStep w u v G) a b := by
  unfold Graph.closureStep
  split
  · exact add_edge_edge_mono hG [] h
  · exact h

theorem Graph.add_vertex_of_mem {g : Graph V} {v : V} (l : Chars)
    (hv : v ∈ g.vertices) : g.add_vertex v l = g := by
  unfold Graph.add_vertex
  exact if_pos hv

theorem Graph.add_edge_vlabel_of_mems {g : Graph V} {u v : V} (l : Chars)
    (hu : u ∈ g.vertices) (hv : v ∈ g.vertices) :
    (g.add_edge u v l).vlabel = g.vlabel := by
  unfold Graph.add_edge Graph.add_vertex
  simp [hu, hv]

theorem Graph.add_edge_elabel_of_mems {g : Graph V} {u v : V} (l : Chars)
    (hu : u ∈ g.vertices) (hv : v ∈ g.vertices) (x y : V) :
    (g.add_edge u v l).elabel x y = if x = u ∧ y = v then l else g.elabel x y := by
  rw [Graph.add_edge_elabel, Graph.add_vertex_of_mem _ hu, Graph.add_vertex_of_mem _ hv]
  rcases eq_or_ne x u with rfl | hne
  · rw [Function.update_same]
    rcases eq_or_ne y v with rfl | hy
    · simp
    · rw [Function.update_noteq hy]
      simp [hy]
  · rw [Function.update_noteq hne]
    simp [hne]

theorem mem_add_edge_adj_of_mem {G : Graph V} {u v : V} (l : Chars)
    (hu : u ∈ G.vertices) (hv : v ∈ G.vertices) {x y : V} :
    Edge (G.add_edge u v l) x y ↔ (x = u ∧ y = v) ∨ Edge G x y := by
  show y ∈ _ ↔ _
  rw [Graph.add_edge_adj_of_mem l hu hv]
  rcases eq_or_ne x u with rfl | hne
  · rw [if_pos rfl, mem_sAdd]
    constructor
    · rintro (rfl | h)
      · exact Or.inl ⟨rfl, rfl⟩
      · exact Or.inr h
    · rintro (⟨-, rfl⟩ | h)
      · exact Or.inl rfl
      · exact Or.inr h
  · rw [if_neg hne]
    constructor
    · exact fun h => Or.inr h
    · rintro (⟨rfl, -⟩ | h)
      · exact absurd rfl hne
      · exact h

/-- Invariant facts about the working copy `G` that hold at every moment of
the `transitive_closure` triple loop over the original graph `g`. -/
structure PassInv (g G : Graph V) : Prop where
  wf : WF G
  vert : G.vertices = g.vertices
  vlab : G.vlabel = g.vlabel
  sound : ∀ a b, Edge G a b → Reach g a b
  super : ∀ a b, Edge g a b → Edge G a b
  labKeep : ∀ a b, G.elabel a b = g.elabel a b ∨ G.elabel a b = []

theorem closureStep_inv {g G : Graph V} (h : PassInv g G) {w u v : V}
    (hu : u ∈ g.vertices) (hv : v ∈ g.vertices) :
    PassInv g (Graph.closureStep w u v G) := by
  unfold Graph.closureStep
  split
  · rename_i hcond
    have hu' : u ∈ G.vertices := h.vert ▸ hu
    have hv' : v ∈ G.vertices := h.vert ▸ hv
    refine ⟨h.wf.add_edge u v [], ?_, ?_, ?_, ?_, ?_⟩
    · rw [Graph.add_edge_vertices_of_mem _ hu' hv', h.vert]
    · rw [Graph.add_edge_vlabel_of_mems _ hu' hv', h.vlab]
    · intro a b hab
      rw [mem_add_edge_adj_of_mem _ hu' hv'] at hab
      rcases hab with ⟨rfl, rfl⟩ | hab
      · exact (h.sound a w hcond.1).trans (h.sound w b hcond.2)
      · exact h.sound a b hab
    · intro a b hab
      exact add_edge_edge_mono h.wf [] (h.super a b hab)
    · intro a b
      rw [Graph.add_edge_elabel_of_mems _ hu' hv']
      split
      · exact Or.inr rfl
      · exact h.labKeep a b
  · exact h

theorem closureStep_elabel_stable {g G : Graph V} (h : PassInv g G) {w u v : V}
    (hu : u ∈ g.vertices) (hv : v ∈ g.vertices) {a b : V}
    (hab : G.elabel a b = []) : (Graph.closureStep w u v G).elabel a b = [] := by
  unfold Graph.closureStep
  split
  · rw [Graph.add_edge_elabel_of_mems _ (h.vert ▸ hu) (h.vert ▸ hv)]
    split
    · rfl
    · exact hab
  · exact hab

theorem passV_inv {g G : Graph V} (h : PassInv g G) (w : V) {u : V} {vs : List V}
    (hu : u ∈ g.vertices) (hvs : ∀ x ∈ vs, x ∈ g.vertices) :
    PassInv g (passV w u vs G) := by
  induction vs generalizing G with
  | nil => exact h
  | cons x xs ih =>
      exact ih (closureStep_inv h hu (hvs x (by simp))) (fun y hy => hvs y (by simp [hy]))

theorem passV_edge_mono {g G : Graph V} (h : PassInv g G) (w : V) {u : V} {vs : List V}
    (hu : u ∈ g.vertices) (hvs : ∀ x ∈ vs, x ∈ g.vertices) {a b : V}
    (hab : Edge G a b) : Edge (passV w u vs G) a b := by
  induction vs generalizing G with
  | nil => exact hab
  | cons x xs ih =>
      exact ih (closureStep_inv h hu (hvs x (by simp)))
        (fun y hy => hvs y (by simp [hy])) (closureStep_edge_mono h.wf hab)

theorem passV_elabel_stable {g G : Graph V} (h : PassInv g G) (w : V) {u : V} {vs : List V}
    (hu : u ∈ g.vertices) (hvs : ∀ x ∈ vs, x ∈ g.vertices) {a b : V}
    (hab : G.elabel a b = []) : (passV w u vs G).elabel a b = [] := by
  induction vs generalizing G with
  | nil => exact hab
  | cons x xs ih =>
      exact ih (closureStep_inv h hu (hvs x (by simp)))
        (fun y hy => hvs y (by simp [hy]))
        (closureStep_elabel_stable h hu (hvs x (by simp)) hab)

theorem passV_trigger {g G : Graph V} (h : PassInv g G) {w u v : V} {vs : List V}
    (hu : u ∈ g.vertices) (hvs : ∀ x ∈ vs, x ∈ g.vertices) (hv : v ∈ vs)
    (h1 : Edge G u w) (h2 : Edge G w v) :
    Edge (passV w u vs G) u v ∧ (passV w u vs G).elabel u v = [] := by
  induction vs generalizing G with
  | nil => simp at hv
  | cons x xs ih =>
      have hx : x ∈ g.vertices := hvs x (by simp)
      have hxs : ∀ y ∈ xs, y ∈ g.vertices := fun y hy => hvs y (by simp [hy])
      rcases List.mem_cons.1 hv with rfl | hvxs
      · have hstep : Graph.closureStep w u v G = G.add_edge u v [] := by
          unfold Graph.closureStep
          rw [if_pos ⟨h1, h2⟩]
        have h0 : PassInv g (Graph.closureStep w u v G) := closureStep_inv h hu hx
        have h' : PassInv g (G.add_edge u v []) := by rwa [hstep] at h0
        have he : Edge (G.add_edge u v []) u v := by
          rw [mem_add_edge_adj_of_mem _ (h.vert ▸ hu) (h.vert ▸ hx)]
          exact Or.inl ⟨rfl, rfl⟩
        have hl : (G.add_edge u v []).elabel u v = [] := by
          rw [Graph.add_edge_elabel_of_mems _ (h.vert ▸ hu) (h.vert ▸ hx)]
          simp
        show Edge (passV w u xs (Graph.closureStep w u v G)) u v ∧
          (passV w u xs (Graph.closureStep w u v G)).elabel u v = []
        rw [hstep]
        exact ⟨passV_edge_mono h' w hu hxs he, passV_elabel_stable h' w hu hxs hl⟩
      · have h' : PassInv g (Graph.closureStep w u x G) := closureStep_inv h hu hx
        exact ih h' hxs hvxs (closureStep_edge_mono h.wf h1) (closureStep_edge_mono h.wf h2)

theorem passU_inv {g G : Graph V} (h : PassInv g G) (w : V) {us vs : List V}
    (hus : ∀ x ∈ us, x ∈ g.vertices) (hvs : ∀ x ∈ vs, x ∈ g.vertices) :
    PassInv g (passU w us vs G) := by
  induction us generalizing G with
  | nil => exact h
  | cons x xs ih =>
      exact ih (passV_inv h w (hus x (by simp)) hvs) (fun y hy => hus y (by simp [hy]))

theorem passU_edge_mono {g G : Graph V} (h : PassInv g G) (w : V) {us vs : List V}
    (hus : ∀ x ∈ us, x ∈ g.vertices) (hvs : ∀ x ∈ vs, x ∈ g.vertices) {a b : V}
    (hab : Edge G a b) : Edge (passU w us vs G) a b := by
  induction us generalizing G with
  | nil => exact hab
  | cons x xs ih =>
      exact ih (passV_inv h w (hus x (by simp)) hvs) (fun y hy => hus y (by simp [hy]))
        (passV_edge_mono h w (hus x (by simp)) hvs hab)

theorem passU_elabel_stable {g G : Graph V} (h : PassInv g G) (w : V) {us vs : List V}
    (hus : ∀ x ∈ us, x ∈ g.vertices) (hvs : ∀ x ∈ vs, x ∈ g.vertices) {a b : V}
    (hab : G.elabel a b = []) : (passU w us vs G).elabel a b = [] := by
  induction us generalizing G with
  | nil => exact hab
  | cons x xs ih =>
      exact ih (passV_inv h w (hus x (by simp)) hvs) (fun y hy => hus y (by simp [hy]))
        (passV_elabel_stable h w (hus x (by simp)) hvs hab)

theorem passU_trigger {g G : Graph V} (h : PassInv g G) {w u v : V} {us vs : List V}
    (hus : ∀ x ∈ us, x ∈ g.vertices) (hvs : ∀ x ∈ vs, x ∈ g.vertices)
    (hu : u ∈ us) (hv : v ∈ vs) (h1 : Edge G u w) (h2 : Edge G w v) :
    Edge (passU w us vs G) u v ∧ (passU w us vs G).elabel u v = [] := by
  induction us generalizing G with
  | nil => simp at hu
  | cons x xs ih =>
      have hx : x ∈ g.vertices := hus x (by simp)
      have hxs : ∀ y ∈ xs, y ∈ g.vertices := fun y hy => hus y (by simp [hy])
      rcases List.mem_cons.1 hu with rfl | huxs
      · have ht := passV_trigger h (hus u (by simp)) hvs hv h1 h2
        have h' := passV_inv h w (hus u (by simp)) hvs
        exact ⟨passU_edge_mono h' w hxs hvs ht.1, passU_elabel_stable h' w hxs hvs ht.2⟩
      · have h' := passV_inv h w hx hvs
        exact ih h' hxs huxs (passV_edge_mono h w hx hvs h1) (passV_edge_mono h w hx hvs h2)

/-- Invariant of the outer loop of `transitive_closure`: `G` is the working
copy and `P` the list of already-processed outer-loop vertices. -/
structure ClosInv (g G : Graph V) (P : List V) : Prop where
  inv : PassInv g G
  complete : ∀ u v, WalkIn g P u v → Edge G u v
  labDone : ∀ u v, (∃ w ∈ P, WalkIn g P u w ∧ WalkIn g P w v) → G.elabel u v = []

theorem closInv_init {g : Graph V} (hg : WF g) : ClosInv g g [] := by
  refine ⟨⟨hg, rfl, rfl, fun u v h => Reach.single h, fun _ _ h => h, fun u v => Or.inl rfl⟩,
    ?_, ?_⟩
  · intro u v h
    cases h with
    | single h => exact h
    | tail _ hw _ => simp at hw
  · rintro u v ⟨w, hw, -⟩
    simp at hw

theorem pass_closInv {g : Graph V} (hg : WF g) {G : Graph V} {P : List V} {w : V}
    (h : ClosInv g G P) (hw : w ∈ g.vertices) :
    ClosInv g (passU w g.vertices g.vertices G) (w :: P) := by
  have hall : ∀ x ∈ g.vertices, x ∈ g.vertices := fun x hx => hx
  refine ⟨passU_inv h.inv w hall hall, ?_, ?_⟩
  · intro a b hab
    rcases hab.decompose with hP | ⟨h1, h2⟩
    · exact passU_edge_mono h.inv w hall hall (h.complete a b hP)
    · have ha : a ∈ g.vertices := Reach.src_mem hg h1.reach
      have hb : b ∈ g.vertices := Reach.dest_mem hg h2.reach
      exact (passU_trigger h.inv hall hall ha hb
        (h.complete a w h1) (h.complete w b h2)).1
  · rintro a b ⟨w', hw', walk1, walk2⟩
    have caseB : WalkIn g P a w → WalkIn g P w b →
        (passU w g.vertices g.vertices G).elabel a b = [] := by
      intro W1 W2
      have ha : a ∈ g.vertices := Reach.src_mem hg W1.reach
      have hb : b ∈ g.vertices := Reach.dest_mem hg W2.reach
      exact (passU_trigger h.inv hall hall ha hb
        (h.complete a w W1) (h.complete w b W2)).2
    rcases List.mem_cons.1 hw' with rfl | hw'P
    · have W1 : WalkIn g P a w' := by
        rcases walk1.decompose with hP | ⟨h1, -⟩
        · exact hP
        · exact h1
      have W2 : WalkIn g P w' b := by
        rcases walk2.decompose with hP | ⟨-, h2⟩
        · exact hP
        · exact h2
      exact caseB W1 W2
    · rcases walk1.decompose with d1 | ⟨e1, e2⟩
      · rcases walk2.decompose with d2 | ⟨f1, f2⟩
        · have ha : a ∈ g.vertices := Reach.src_mem hg d1.reach
          exact passU_elabel_stable h.inv w hall hall
            (h.labDone a b ⟨w', hw'P, d1, d2⟩)
        · exact caseB (d1.comp hw'P f1) f2
      · rcases walk2.decompose with d2 | ⟨f1, f2⟩
        · exact caseB e1 (e2.comp hw'P d2)
        · exact caseB e1 f2

theorem fold_closInv {g : Graph V} (hg : WF g) {G : Graph V} {P ws : List V}
    (h : ClosInv g G P) (hws : ∀ x ∈ ws, x ∈ g.vertices) :
    ClosInv g (ws.foldl (fun G w => passU w g.vertices g.vertices G) G)
      (ws.reverse ++ P) := by
  induction ws generalizing G P with
  | nil => exact h
  | cons x xs ih =>
      have := ih (pass_closInv hg h (hws x (by simp))) (fun y hy => hws y (by simp [hy]))
      simpa using this

theorem closure_closInv {g : Graph V} (hg : WF g) :
    ClosInv g g.transitive_closure (g.vertices.reverse ++ []) :=
  fold_closInv hg (closInv_init hg) (fun _ hx => hx)

theorem closure_wf {g : Graph V} (hg : WF g) : WF g.transitive_closure :=
  (closure_closInv hg).inv.wf

theorem closure_vertices {g : Graph V} (hg : WF g) :
    g.transitive_closure.vertices = g.vertices :=
  (closure_closInv hg).inv.vert

theorem closure_vlabel {g : Graph V} (hg : WF g) :
    g.transitive_closure.vlabel = g.vlabel :=
  (closure_closInv hg).inv.vlab

/-- The triple loop of `transitive_closure` computes exactly the reachability
relation (paths of length ≥ 1) of the original graph. -/
theorem closure_edge_iff {g : Graph V} (hg : WF g) {u v : V} :
    Edge g.transitive_closure u v ↔ Reach g u v := by
  constructor
  · exact (closure_closInv hg).inv.sound u v
  · intro h
    apply (closure_closInv hg).complete
    exact ((reach_iff_walkIn hg).1 h).mono (by simp)

/-- Whenever there is a path of length ≥ 2 from `u` to `v`, the triple loop
executes `add_edge(u,v)` at least once, overwriting the edge label with the
default `''`. -/
theorem closure_elabel_nil {g : Graph V} (hg : WF g) {u v : V}
    (h : ∃ w, Reach g u w ∧ Reach g w v) :
    g.transitive_closure.elabel u v = [] := by
  rcases h with ⟨w, h1, h2⟩
  apply (closure_closInv hg).labDone
  refine ⟨w, by simp [Reach.dest_mem hg h1], ?_, ?_⟩
  · exact ((reach_iff_walkIn hg).1 h1).mono (by simp)
  · exact ((reach_iff_walkIn hg).1 h2).mono (by simp)

/-! ### `transitive_reduction` and claim C3 -/

theorem mem_edgeList {g : Graph V} {u v : V} :
    (u, v) ∈ g.edgeList ↔ u ∈ g.vertices ∧ Edge g u v := by
  unfold Graph.edgeList
  simp only [List.mem_flatMap, List.mem_map, Prod.mk.injEq]
  constructor
  · rintro ⟨a, ha, b, hb, rfl, rfl⟩
    exact ⟨ha, hb⟩
  · rintro ⟨hu, hv⟩
    exact ⟨u, hu, v, hv, rfl, rfl⟩

theorem removeEdgeCore_edge_iff {G : Graph V} (hG : WF G) {u v x y : V} :
    Edge (G.removeEdgeCore u v) x y ↔ Edge G x y ∧ ¬(x = u ∧ y = v) := by
  show y ∈ _ ↔ _
  rw [Graph.removeEdgeCore_adj]
  rcases eq_or_ne x u with rfl | hne
  · rw [if_pos rfl, (hG.nodupA x).mem_erase_iff]
    constructor
    · rintro ⟨hyv, hy⟩
      exact ⟨hy, fun h => hyv h.2⟩
    · rintro ⟨hy, h⟩
      exact ⟨fun hyv => h ⟨rfl, hyv⟩, hy⟩
  · rw [if_neg hne]
    constructor
    · exact fun h => ⟨h, fun hc => hne hc.1⟩
    · exact fun h => h.1

theorem Graph.removeEdgeCore_vlabel (g : Graph V) (u v : V) :
    (g.removeEdgeCore u v).vlabel = g.vlabel := rfl

theorem remFold_wf {G : Graph V} (hG : WF G) (a : V) (ws : List V) :
    WF (ws.foldl (fun G w => G.removeEdgeCore a w) G) := by
  induction ws generalizing G with
  | nil => exact hG
  | cons w ws ih => exact ih (hG.removeEdgeCore a w)

theorem remFold_edge {G : Graph V} (hG : WF G) (a : V) (ws : List V) {x y : V} :
    Edge (ws.foldl (fun G w => G.removeEdgeCore a w) G) x y ↔
      Edge G x y ∧ ¬(x = a ∧ y ∈ ws) := by
  induction ws generalizing G with
  | nil => simp
  | cons w ws ih =>
      rw [List.foldl_cons, ih (hG.removeEdgeCore a w), removeEdgeCore_edge_iff hG]
      simp only [List.mem_cons]
      tauto

theorem remFold_vertices (G : Graph V) (a : V) (ws : List V) :
    (ws.foldl (fun G w => G.removeEdgeCore a w) G).vertices = G.vertices := by
  induction ws generalizing G with
  | nil => rfl
  | cons w ws ih =>
      rw [List.foldl_cons, ih]
      rfl

theorem remFold_vlabel (G : Graph V) (a : V) (ws : List V) :
    (ws.foldl (fun G w => G.removeEdgeCore a w) G).vlabel = G.vlabel := by
  induction ws generalizing G with
  | nil => rfl
  | cons w ws ih =>
      rw [List.foldl_cons, ih]
      rfl

theorem redFold_wf {G : Graph V} (hG : WF G) (TC : Graph V) (es : List (V × V)) :
    WF (es.foldl (fun G e => (TC.adj e.2).foldl (fun G w => G.removeEdgeCore e.1 w) G) G) := by
  induction es generalizing G with
  | nil => exact hG
  | cons e es ih => exact ih (remFold_wf hG e.1 (TC.adj e.2))

theorem redFold_edge {G : Graph V} (hG : WF G) (TC : Graph V) (es : List (V × V)) {x y : V} :
    Edge (es.foldl (fun G e => (TC.adj e.2).foldl (fun G w => G.removeEdgeCore e.1 w) G) G) x y
      ↔ Edge G x y ∧ ¬ ∃ e ∈ es, x = e.1 ∧ y ∈ TC.adj e.2 := by
  induction es generalizing G with
  | nil => simp
  | cons e es ih =>
      rw [List.foldl_cons, ih (remFold_wf hG e.1 (TC.adj e.2)),
        remFold_edge hG e.1 (TC.adj e.2)]
      simp only [List.mem_cons]
      constructor
      · rintro ⟨⟨h1, h2⟩, h3⟩
        refine ⟨h1, ?_⟩
        rintro ⟨f, hf | hf, hfx, hfy⟩
        · exact h2 (by rw [hf] at hfx hfy; exact ⟨hfx, hfy⟩)
        · exact h3 ⟨f, hf, hfx, hfy⟩
      · rintro ⟨h1, h2⟩
        refine ⟨⟨h1, ?_⟩, ?_⟩
        · rintro ⟨hx, hy⟩
          exact h2 ⟨e, Or.inl rfl, hx, hy⟩
        · rintro ⟨f, hf, hfx, hfy⟩
          exact h2 ⟨f, Or.inr hf, hfx, hfy⟩

theorem reduction_wf {g : Graph V} (hg : WF g) : WF g.transitive_reduction :=
  redFold_wf hg _ _

theorem redFold_vertices (TC G : Graph V) (es : List (V × V)) :
    (es.foldl (fun G e => (TC.adj e.2).foldl (fun G w => G.removeEdgeCore e.1 w) G)
      G).vertices = G.vertices := by
  induction es generalizing G with
  | nil => rfl
  | cons e es ih => rw [List.foldl_cons, ih, remFold_vertices]

theorem reduction_vertices (g : Graph V) :
    g.transitive_reduction.vertices = g.vertices := by
  unfold Graph.transitive_reduction
  exact redFold_vertices _ _ _

/-- The edges of `transitive_reduction` are exactly the edges of `g` that are
not shortcuts of a length-≥-2 path. -/
theorem reduction_edge_iff {g : Graph V} (hg : WF g) {x y : V} :
    Edge g.transitive_reduction x y ↔
      Edge g x y ∧ ¬ ∃ b, Reach g x b ∧ Reach g b y := by
  unfold Graph.transitive_reduction
  rw [redFold_edge hg]
  constructor
  · rintro ⟨h1, h2⟩
    refine ⟨h1, ?_⟩
    rintro ⟨b, hb1, hb2⟩
    apply h2
    refine ⟨(x, b), ?_, rfl, ?_⟩
    · rw [mem_edgeList, closure_vertices hg]
      exact ⟨Reach.src_mem hg hb1, (closure_edge_iff hg).2 hb1⟩
    · exact (closure_edge_iff hg).2 hb2
  · rintro ⟨h1, h2⟩
    refine ⟨h1, ?_⟩
    rintro ⟨e, he, rfl, hy⟩
    rw [mem_edgeList] at he
    exact h2 ⟨e.2, (closure_edge_iff hg).1 he.2, (closure_edge_iff hg).1 hy⟩

/-- The acyclicity test definable from the code itself: no vertex reaches
itself through the transitive closure.  Decidable on concrete graphs. -/
def Acyclic (g : Graph V) : Prop := ∀ v ∈ g.vertices, ¬ Edge g.transitive_closure v v

instance (g : Graph V) : Decidable (Acyclic g) := by
  unfold Acyclic; infer_instance

theorem Acyclic.irrefl {g : Graph V} (hg : WF g) (ha : Acyclic g) (v : V) :
    ¬ Reach g v v := fun h =>
  ha v (Reach.src_mem hg h) ((closure_edge_iff hg).2 h)

/-- The set of vertices strictly between `u` and `v` (the induction measure
for the transitive-reduction correctness proof). -/
def Btw (g : Graph V) (u v : V) : Set V := {x | Reach g u x ∧ Reach g x v}

theorem btw_finite (g : Graph V) (hg : WF g) (u v : V) : (Btw g u v).Finite := by
  apply Set.Finite.subset (g.vertices.finite_toSet)
  rintro x ⟨h1, -⟩
  exact Reach.dest_mem hg h1

theorem btw_lt_left {g : Graph V} (hg : WF g) (hirr : ∀ x, ¬ Reach g x x)
    {u v z : V} (h1 : Reach g u z) (h2 : Reach g z v) :
    (Btw g u z).ncard < (Btw g u v).ncard := by
  apply Set.ncard_lt_ncard
  · constructor
    · rintro x ⟨hx1, hx2⟩
      exact ⟨hx1, hx2.trans h2⟩
    · intro hsub
      have hz : z ∈ Btw g u v := ⟨h1, h2⟩
      have := hsub hz
      exact hirr z this.2
  · exact btw_finite g hg u v

theorem btw_lt_right {g : Graph V} (hg : WF g) (hirr : ∀ x, ¬ Reach g x x)
    {u v z : V} (h1 : Reach g u z) (h2 : Reach g z v) :
    (Btw g z v).ncard < (Btw g u v).ncard := by
  apply Set.ncard_lt_ncard
  · constructor
    · rintro x ⟨hx1, hx2⟩
      exact ⟨h1.trans hx1, hx2⟩
    · intro hsub
      have hz : z ∈ Btw g u v := ⟨h1, h2⟩
      have := hsub hz
      exact hirr z this.1
  · exact btw_finite g hg u v

theorem Reach.head_cases {g : Graph V} {u v : V} (h : Reach g u v) :
    Edge g u v ∨ ∃ x, Edge g u x ∧ Reach g x v := by
  induction h using Relation.TransGen.head_induction_on with
  | base h => exact Or.inl h
  | ih h' h _ => exact Or.inr ⟨_, h', h⟩

theorem reach_reduction {g : Graph V} (hg : WF g) (ha : Acyclic g) {u v : V}
    (h : Reach g u v) : Reach g.transitive_reduction u v := by
  have hirr := Acyclic.irrefl hg ha
  have main : ∀ n u v, (Btw g u v).ncard < n → Reach g u v →
      Reach g.transitive_reduction u v := by
    intro n
    induction n with
    | zero => omega
    | succ n ih =>
        intro u v hlt hr
        have step : ∀ a b, Edge g a b → (Btw g a b).ncard ≤ n →
            Reach g.transitive_reduction a b := by
          intro a b hab hm
          by_cases hred : Edge g.transitive_reduction a b
          · exact Reach.single hred
          · have hbet : ∃ z, Reach g a z ∧ Reach g z b := by
              by_contra hno
              exact hred ((reduction_edge_iff hg).2 ⟨hab, hno⟩)
            obtain ⟨z, hz1, hz2⟩ := hbet
            have l1 := btw_lt_left hg hirr hz1 hz2
            have l2 := btw_lt_right hg hirr hz1 hz2
            exact (ih a z (by omega) hz1).trans (ih z b (by omega) hz2)
        rcases hr.head_cases with hd | ⟨x, hux, hxv⟩
        · exact step u v hd (by omega)
        · have hreach_ux : Reach g u x := Reach.single hux
          have l1 := btw_lt_left hg hirr hreach_ux hxv
          have l2 := btw_lt_right hg hirr hreach_ux hxv
          exact (step u x hux (by omega)).trans (ih x v (by omega) hxv)
  exact main ((Btw g u v).ncard + 1) u v (by omega) h

theorem reduction_reach_iff {g : Graph V} (hg : WF g) (ha : Acyclic g) {u v : V} :
    Reach g.transitive_reduction u v ↔ Reach g u v := by
  constructor
  · intro h
    refine Relation.TransGen.mono ?_ h
    intro a b hab
    exact ((reduction_edge_iff hg).1 hab).1
  · exact reach_reduction hg ha

/-! ### Generic vertex-fold and edge-fold lemmas

Several source functions (`transpose`, `IntervalGraph`, the network-spec
codec) build a graph by first adding a batch of labelled vertices and then a
batch of labelled edges; these lemmas characterise such folds once. -/

section Folds

variable {A : Type} (vid : A → V) (vlab : A → Chars)

/-- A loop `for a in l: G.add_vertex(vid a, vlab a)`. -/
def vFold (l : List A) (h0 : Graph V) : Graph V :=
  l.foldl (fun h a => h.add_vertex (vid a) (vlab a)) h0

theorem vFold_wf {h0 : Graph V} (h : WF h0) (l : List A) : WF (vFold vid vlab l h0) := by
  induction l generalizing h0 with
  | nil => exact h
  | cons a l ih => exact ih (h.add_vertex _ _)

theorem vFold_mem_vertices (l : List A) (h0 : Graph V) (x : V) :
    x ∈ (vFold vid vlab l h0).vertices ↔ (∃ a ∈ l, vid a = x) ∨ x ∈ h0.vertices := by
  induction l generalizing h0 with
  | nil => simp [vFold]
  | cons a l ih =>
      show x ∈ (vFold vid vlab l (h0.add_vertex (vid a) (vlab a))).vertices ↔ _
      rw [ih]
      simp only [Graph.mem_add_vertex_vertices, List.mem_cons]
      constructor
      · rintro (⟨b, hb, rfl⟩ | (rfl | hx))
        · exact Or.inl ⟨b, Or.inr hb, rfl⟩
        · exact Or.inl ⟨a, Or.inl rfl, rfl⟩
        · exact Or.inr hx
      · rintro (⟨b, hb | hb, rfl⟩ | hx)
        · exact Or.inr (Or.inl (by rw [hb]))
        · exact Or.inl ⟨b, hb, rfl⟩
        · exact Or.inr (Or.inr hx)

theorem vFold_adj {h0 : Graph V} (h : WF h0) (l : List A) :
    (vFold vid vlab l h0).adj = h0.adj := by
  induction l generalizing h0 with
  | nil => rfl
  | cons a l ih =>
      show (vFold vid vlab l (h0.add_vertex (vid a) (vlab a))).adj = _
      rw [ih (h.add_vertex _ _)]
      unfold Graph.add_vertex
      split
      · rfl
      · show Function.update h0.adj (vid a) [] = h0.adj
        rw [show ([] : List V) = h0.adj (vid a) from (h.adj_empty _ (by assumption)).symm]
        exact Function.update_eq_self _ _

theorem vFold_elabel {h0 : Graph V} (l : List A)
    (h : ∀ x y, h0.elabel x y = []) (x y : V) :
    (vFold vid vlab l h0).elabel x y = [] := by
  induction l generalizing h0 with
  | nil => exact h x y
  | cons a l ih =>
      show (vFold vid vlab l (h0.add_vertex (vid a) (vlab a))).elabel x y = []
      apply ih
      intro x y
      unfold Graph.add_vertex
      split
      · exact h x y
      · show Function.update h0.elabel (vid a) (fun _ => []) x y = []
        rcases eq_or_ne x (vid a) with rfl | hne
        · simp
        · rw [Function.update_noteq hne]
          exact h x y

theorem vFold_vlabel_of_mem {h0 : Graph V} (l : List A) {x : V} (hx : x ∈ h0.vertices) :
    (vFold vid vlab l h0).vlabel x = h0.vlabel x := by
  induction l generalizing h0 with
  | nil => rfl
  | cons a l ih =>
      show (vFold vid vlab l (h0.add_vertex (vid a) (vlab a))).vlabel x = _
      rw [ih (by simp [hx]), Graph.add_vertex_vlabel]
      split
      · rfl
      · split
        · rename_i hnv hxv
          exact absurd (hxv ▸ hx) hnv
        · rfl

theorem vFold_vlabel_first {h0 : Graph V} {l : List A} (hn : (l.map vid).Nodup)
    {a : A} (ha : a ∈ l) (hnot : vid a ∉ h0.vertices) :
    (vFold vid vlab l h0).vlabel (vid a) = vlab a := by
  induction l generalizing h0 with
  | nil => simp at ha
  | cons b l ih =>
      rw [List.map_cons, List.nodup_cons] at hn
      rcases List.mem_cons.1 ha with rfl | hal
      · show (vFold vid vlab l (h0.add_vertex (vid a) (vlab a))).vlabel (vid a) = _
        rw [vFold_vlabel_of_mem vid vlab l (by simp), Graph.add_vertex_vlabel,
          if_neg hnot, if_pos rfl]
      · have hne : vid a ≠ vid b := by
          intro h
          exact hn.1 (h ▸ List.mem_map_of_mem vid hal)
        apply ih hn.2 hal
        simp only [Graph.mem_add_vertex_vertices, not_or]
        exact ⟨hne, hnot⟩

variable (esrc edst : A → V) (elb : A → Chars)

/-- A loop `for a in l: G.add_edge(esrc a, edst a, elab a)`. -/
def eFold (l : List A) (h0 : Graph V) : Graph V :=
  l.foldl (fun h a => h.add_edge (esrc a) (edst a) (elb a)) h0

theorem eFold_wf {h0 : Graph V} (h : WF h0) (l : List A) : WF (eFold esrc edst elb l h0) := by
  induction l generalizing h0 with
  | nil => exact h
  | cons a l ih => exact ih (h.add_edge _ _ _)

theorem eFold_vertices {h0 : Graph V} (l : List A)
    (hl : ∀ a ∈ l, esrc a ∈ h0.vertices ∧ edst a ∈ h0.vertices) :
    (eFold esrc edst elb l h0).vertices = h0.vertices := by
  induction l generalizing h0 with
  | nil => rfl
  | cons a l ih =>
      have hv := Graph.add_edge_vertices_of_mem (g := h0) (elb a)
        (hl a (by simp)).1 (hl a (by simp)).2
      show (eFold esrc edst elb l (h0.add_edge (esrc a) (edst a) (elb a))).vertices = _
      rw [ih (by intro b hb; rw [hv]; exact hl b (by simp [hb])), hv]

theorem eFold_vlabel {h0 : Graph V} (l : List A)
    (hl : ∀ a ∈ l, esrc a ∈ h0.vertices ∧ edst a ∈ h0.vertices) :
    (eFold esrc edst elb l h0).vlabel = h0.vlabel := by
  induction l generalizing h0 with
  | nil => rfl
  | cons a l ih =>
      show (eFold esrc edst elb l (h0.add_edge (esrc a) (edst a) (elb a))).vlabel = _
      rw [ih, Graph.add_edge_vlabel_of_mems _ (hl a (by simp)).1 (hl a (by simp)).2]
      intro b hb
      rw [Graph.add_edge_vertices_of_mem _ (hl a (by simp)).1 (hl a (by simp)).2]
      exact hl b (by simp [hb])

theorem eFold_edge_iff {h0 : Graph V} (l : List A)
    (hl : ∀ a ∈ l, esrc a ∈ h0.vertices ∧ edst a ∈ h0.vertices) (x y : V) :
    Edge (eFold esrc edst elb l h0) x y ↔
      (∃ a ∈ l, esrc a = x ∧ edst a = y) ∨ Edge h0 x y := by
  induction l generalizing h0 with
  | nil => simp [eFold]
  | cons a l ih =>
      have hv := Graph.add_edge_vertices_of_mem (g := h0) (elb a)
        (hl a (by simp)).1 (hl a (by simp)).2
      show Edge (eFold esrc edst elb l (h0.add_edge (esrc a) (edst a) (elb a))) x y ↔ _
      rw [ih (by intro b hb; rw [hv]; exact hl b (by simp [hb])),
        mem_add_edge_adj_of_mem _ (hl a (by simp)).1 (hl a (by simp)).2]
      simp only [List.mem_cons]
      constructor
      · rintro (⟨b, hb, rfl, rfl⟩ | (⟨rfl, rfl⟩ | he))
        · exact Or.inl ⟨b, Or.inr hb, rfl, rfl⟩
        · exact Or.inl ⟨a, Or.inl rfl, rfl, rfl⟩
        · exact Or.inr he
      · rintro (⟨b, hb | hb, rfl, rfl⟩ | he)
        · exact Or.inr (Or.inl (by rw [hb] at *; exact ⟨rfl, rfl⟩))
        · exact Or.inl ⟨b, hb, rfl, rfl⟩
        · exact Or.inr (Or.inr he)

theorem eFold_elabel_stable {h0 : Graph V} (l : List A)
    (hl : ∀ a ∈ l, esrc a ∈ h0.vertices ∧ edst a ∈ h0.vertices) {x y : V} {c : Chars}
    (hc : ∀ b ∈ l, (esrc b = x ∧ edst b = y) → elb b = c)
    (h0c : h0.elabel x y = c) :
    (eFold esrc edst elb l h0).elabel x y = c := by
  induction l generalizing h0 with
  | nil => exact h0c
  | cons a l ih =>
      have hv := Graph.add_edge_vertices_of_mem (g := h0) (elb a)
        (hl a (by simp)).1 (hl a (by simp)).2
      show (eFold esrc edst elb l (h0.add_edge (esrc a) (edst a) (elb a))).elabel x y = c
      apply ih
      · intro b hb
        rw [hv]
        exact hl b (by simp [hb])
      · exact fun b hb => hc b (by simp [hb])
      · rw [Graph.add_edge_elabel_of_mems _ (hl a (by simp)).1 (hl a (by simp)).2]
        split
        · rename_i hxy
          exact hc a (by simp) ⟨hxy.1.symm, hxy.2.symm⟩
        · exact h0c

theorem eFold_elabel_result {h0 : Graph V} (l : List A)
    (hl : ∀ a ∈ l, esrc a ∈ h0.vertices ∧ edst a ∈ h0.vertices) {a : A} {x y : V}
    (ha : a ∈ l) (hax : esrc a = x) (hay : edst a = y)
    (hsame : ∀ b ∈ l, (esrc b = x ∧ edst b = y) → elb b = elb a) :
    (eFold esrc edst elb l h0).elabel x y = elb a := by
  induction l generalizing h0 with
  | nil => simp at ha
  | cons b l ih =>
      have hv := Graph.add_edge_vertices_of_mem (g := h0) (elb b)
        (hl b (by simp)).1 (hl b (by simp)).2
      by_cases hbmap : esrc b = x ∧ edst b = y
      · show (eFold esrc edst elb l (h0.add_edge (esrc b) (edst b) (elb b))).elabel x y = _
        apply eFold_elabel_stable
        · intro d hd
          rw [hv]
          exact hl d (by simp [hd])
        · exact fun d hd => hsame d (by simp [hd])
        · rw [Graph.add_edge_elabel_of_mems _ (hl b (by simp)).1 (hl b (by simp)).2,
            if_pos ⟨hbmap.1.symm, hbmap.2.symm⟩]
          exact hsame b (by simp) hbmap
      · have hal : a ∈ l := by
          rcases List.mem_cons.1 ha with rfl | h
          · exact absurd ⟨hax, hay⟩ hbmap
          · exact h
        apply ih
        · intro d hd
          rw [hv]
          exact hl d (by simp [hd])
        · exact hal
        · exact fun d hd => hsame d (by simp [hd])

end Folds

/-! ### `transpose` characterisation -/

theorem transpose_spec {g : Graph V} (hg : WF g) :
    WF g.transpose ∧
    (∀ x, x ∈ g.transpose.vertices ↔ x ∈ g.vertices) ∧
    (∀ x y, Edge g.transpose x y ↔ Edge g y x) ∧
    (∀ x, x ∈ g.vertices → g.transpose.vlabel x = g.vlabel x) := by
  have hG1wf : WF (vFold id g.vlabel g.vertices (Graph.empty V)) :=
    vFold_wf _ _ WF.empty _
  have hG1mem : ∀ x, x ∈ (vFold id g.vlabel g.vertices (Graph.empty V)).vertices ↔
      x ∈ g.vertices := by
    intro x
    rw [vFold_mem_vertices]
    simp [Graph.empty]
  have hG1adj : (vFold id g.vlabel g.vertices (Graph.empty V)).adj =
      (Graph.empty V).adj := vFold_adj _ _ WF.empty _
  have hend : ∀ e ∈ g.edgeList,
      e.2 ∈ (vFold id g.vlabel g.vertices (Graph.empty V)).vertices ∧
      e.1 ∈ (vFold id g.vlabel g.vertices (Graph.empty V)).vertices := by
    rintro ⟨u, v⟩ he
    rw [mem_edgeList] at he
    rw [hG1mem, hG1mem]
    exact ⟨hg.adj_subset u v he.2, he.1⟩
  have hT : g.transpose =
      eFold Prod.snd Prod.fst (fun e => g.elabel e.1 e.2) g.edgeList
        (vFold id g.vlabel g.vertices (Graph.empty V)) := rfl
  refine ⟨?_, ?_, ?_, ?_⟩
  · rw [hT]
    exact eFold_wf _ _ _ hG1wf _
  · intro x
    rw [hT, eFold_vertices _ _ _ _ hend, hG1mem]
  · intro x y
    rw [hT, eFold_edge_iff _ _ _ _ hend]
    constructor
    · rintro (⟨⟨a, b⟩, hab, rfl, rfl⟩ | he)
      · rw [mem_edgeList] at hab
        exact hab.2
      · rw [show Edge _ x y = (y ∈ _) from rfl, hG1adj] at he
        simp [Graph.empty] at he
    · intro he
      refine Or.inl ⟨(y, x), ?_, rfl, rfl⟩
      rw [mem_edgeList]
      exact ⟨edge_src_mem hg he, he⟩
  · intro x hx
    rw [hT, show (eFold Prod.snd Prod.fst (fun e => g.elabel e.1 e.2) g.edgeList
        (vFold id g.vlabel g.vertices (Graph.empty V))).vlabel =
        (vFold id g.vlabel g.vertices (Graph.empty V)).vlabel from
      eFold_vlabel _ _ _ _ hend]
    exact vFold_vlabel_first id g.vlabel (by simpa using hg.nodupV) hx
      (by simp [Graph.empty])

theorem transpose_wf {g : Graph V} (hg : WF g) : WF g.transpose := (transpose_spec hg).1

theorem transpose_edge_iff {g : Graph V} (hg : WF g) {x y : V} :
    Edge g.transpose x y ↔ Edge g y x := (transpose_spec hg).2.2.1 x y

theorem transpose_mem_vertices {g : Graph V} (hg : WF g) {x : V} :
    x ∈ g.transpose.vertices ↔ x ∈ g.vertices := (transpose_spec hg).2.1 x

/-! ### Sample graphs for witnesses -/

/-- A two-edge chain `0 → 1 → 2` with labelled edges. -/
def gChain : Graph ℕ :=
  ((Graph.empty ℕ).add_edge 0 1 (str "a")).add_edge 1 2 (str "a")

theorem gChain_wf : WF gChain :=
  (WF.empty.add_edge 0 1 (str "a")).add_edge 1 2 (str "a")

/-- A labelled triangle `0 → 1 → 2` plus shortcut `0 → 2` labelled `"r"`. -/
def gTri : Graph ℕ :=
  (((Graph.empty ℕ).add_edge 0 1 (str "p")).add_edge 1 2 (str "q")).add_edge 0 2 (str "r")

theorem gTri_wf : WF gTri :=
  ((WF.empty.add_edge 0 1 (str "p")).add_edge 1 2 (str "q")).add_edge 0 2 (str "r")

/-- C3: for every acyclic digraph `G` (well-formed, acyclic in the sense the
code itself can check: no self-loop in its transitive closure),
`G.transitive_reduction().transitive_closure()` has the same vertex set and
the same adjacency as `G.transitive_closure()`. -/
theorem C3_reduction_closure_eq_closure (g : Graph V) (hg : WF g) (ha : Acyclic g) :
    (g.transitive_reduction.transitive_closure).vertices =
        g.transitive_closure.vertices ∧
      ∀ u v, Edge g.transitive_reduction.transitive_closure u v ↔
        Edge g.transitive_closure u v := by
  constructor
  · rw [closure_vertices (reduction_wf hg), reduction_vertices, closure_vertices hg]
  · intro u v
    rw [closure_edge_iff (reduction_wf hg), closure_edge_iff hg,
      reduction_reach_iff hg ha]

set_option maxRecDepth 8000 in
/-- Witness for C3 at the concrete chain `0 → 1 → 2`. -/
theorem C3_witness :
    (gChain.transitive_reduction.transitive_closure).vertices =
        gChain.transitive_closure.vertices ∧
      ∀ u v, Edge gChain.transitive_reduction.transitive_closure u v ↔
        Edge gChain.transitive_closure u v :=
  C3_reduction_closure_eq_closure gChain gChain_wf (by decide)

/-- C8 counterexample: `remove_edge(0, 1)` on the empty graph, whose edge
`0 → 1` is certainly absent, raises `KeyError` (the dict access
`adjacency_lists_[0]` fails) instead of being a no-op, refuting the claim
for pairs whose source is not a vertex. -/
theorem C8_counterexample :
    (Graph.empty ℕ).remove_edge 0 1 = none ∧ ¬ Edge (Graph.empty ℕ) 0 1 :=
  ⟨rfl, by decide⟩

/-- C8 (amended): for every well-formed graph `G` and every pair `(u, v)`
such that `u` is a vertex of `G` and the edge `u → v` is absent,
`remove_edge(u, v)` does not fail and returns the graph unchanged. -/
theorem C8_remove_edge_noop (g : Graph V) (hg : WF g) (u v : V)
    (hu : u ∈ g.vertices) (he : ¬ Edge g u v) :
    g.remove_edge u v = some g := by
  unfold Graph.remove_edge
  rw [if_pos hu]
  congr 1
  unfold Graph.removeEdgeCore
  have hadj : (g.adj u).erase v = g.adj u := List.erase_of_not_mem he
  have hel : Function.update (g.elabel u) v [] = g.elabel u := by
    rw [show ([] : Chars) = g.elabel u v from (hg.elabel_empty u v he).symm]
    exact Function.update_eq_self _ _
  rw [hadj, hel, Function.update_eq_self, Function.update_eq_self]

/-- A single labelled vertex `0`. -/
def gV : Graph ℕ := (Graph.empty ℕ).add_vertex 0 (str "X")

theorem gV_wf : WF gV := WF.empty.add_vertex 0 (str "X")

/-- Witness for the amended C8 at a concrete graph and absent edge. -/
theorem C8_witness : gV.remove_edge 0 5 = some gV :=
  C8_remove_edge_noop gV gV_wf 0 5 (by decide) (by decide)

/-- C10: for every well-formed graph `G` and pair `(u, v)` joined by a
directed path of length ≥ 2 (that is, through some intermediate `w`),
the closure contains the edge `u → v` and its label is the empty string —
the `add_edge(u,v)` of the triple loop overwrites any original label. -/
theorem C10_closure_label_overwritten (g : Graph V) (hg : WF g) (u v : V)
    (h : ∃ w, Reach g u w ∧ Reach g w v) :
    Edge g.transitive_closure u v ∧ g.transitive_closure.elabel u v = [] := by
  obtain ⟨w, h1, h2⟩ := h
  exact ⟨(closure_edge_iff hg).2 (h1.trans h2), closure_elabel_nil hg ⟨w, h1, h2⟩⟩

/-- Witness for C10 at the triangle: the original edge `0 → 2` carries the
non-empty label `"r"`, yet the closure's edge `0 → 2` carries `''`. -/
theorem C10_witness :
    (Edge gTri.transitive_closure 0 2 ∧ gTri.transitive_closure.elabel 0 2 = []) ∧
      gTri.elabel 0 2 = str "r" :=
  ⟨C10_closure_label_overwritten gTri gTri_wf 0 2
      ⟨1, Reach.single (by decide), Reach.single (by decide)⟩,
    by decide⟩

/-! ### The `Poset` class (`intervalgraph.py`, lines 97-125) -/

/-- Embedding of the Python `Poset` class: the four derived graphs stored by
`__init__` (lines 98-104) plus the vertex set (a Python `set`, here a
`Finset` since only membership and iteration-free queries are performed). -/
structure Poset (V : Type) [DecidableEq V] where
  vertices_ : Finset V
  descendants_ : Graph V
  ancestors_ : Graph V
  children_ : Graph V
  parents_ : Graph V

/-- `Poset.__init__` (lines 98-104). -/
def Poset.ofGraph (g : Graph V) : Poset V :=
  { vertices_ := g.vertices.toFinset
    descendants_ := g.transitive_closure
    ancestors_ := g.transitive_closure.transpose
    children_ := g.transitive_reduction
    parents_ := g.transitive_reduction.transpose }

/-- `Poset.vertices` (lines 105-107). -/
def Poset.vertices (p : Poset V) : Finset V := p.vertices_

/-- `Poset.parents` (lines 108-110). -/
def Poset.parents (p : Poset V) (v : V) : List V := p.parents_.adj v

/-- `Poset.children` (lines 111-113). -/
def Poset.children (p : Poset V) (v : V) : List V := p.children_.adj v

/-- `Poset.ancestors` (lines 114-116). -/
def Poset.ancestors (p : Poset V) (v : V) : List V := p.ancestors_.adj v

/-- `Poset.descendants` (lines 117-119). -/
def Poset.descendants (p : Poset V) (v : V) : List V := p.descendants_.adj v

/-- `Poset.less` (lines 120-122). -/
def Poset.less (p : Poset V) (u v : V) : Prop := u ∈ p.ancestors v

instance (p : Poset V) (u v : V) : Decidable (p.less u v) := by
  unfold Poset.less; infer_instance

/-- `Poset.maximal` (lines 123-125): the elements of `subset` not strictly
below any element of `subset`, as a `frozenset`. -/
def Poset.maximal (p : Poset V) (subset : Finset V) : Finset V :=
  subset.filter (fun u => ¬ ∃ v ∈ subset, p.less u v)

theorem Poset.maximal_subset (p : Poset V) (S : Finset V) : p.maximal S ⊆ S :=
  Finset.filter_subset _ _

/-- `maximal S` is always an antichain. -/
theorem Poset.maximal_antichain (p : Poset V) (S : Finset V) {a b : V}
    (ha : a ∈ p.maximal S) (hb : b ∈ p.maximal S) : ¬ p.less a b := by
  rw [Poset.maximal, Finset.mem_filter] at ha hb
  exact fun h => ha.2 ⟨b, hb.1, h⟩

/-! Characterisation of `Poset.ofGraph` over a well-formed acyclic graph. -/

theorem poset_less_iff {g : Graph V} (hg : WF g) {u v : V} :
    (Poset.ofGraph g).less u v ↔ Reach g u v := by
  show u ∈ (g.transitive_closure.transpose).adj v ↔ _
  rw [show (u ∈ (g.transitive_closure.transpose).adj v) = Edge g.transitive_closure.transpose v u
      from rfl, transpose_edge_iff (closure_wf hg), closure_edge_iff hg]

theorem poset_mem_vertices {g : Graph V} {x : V} :
    x ∈ (Poset.ofGraph g).vertices ↔ x ∈ g.vertices := by
  show x ∈ g.vertices.toFinset ↔ _
  exact List.mem_toFinset

/-- `parents v` of the derived poset are exactly the edges of the transitive
reduction into `v`: the covering predecessors. -/
theorem poset_parents_iff {g : Graph V} (hg : WF g) {u v : V} :
    u ∈ (Poset.ofGraph g).parents v ↔
      Edge g u v ∧ ¬ ∃ b, Reach g u b ∧ Reach g b v := by
  show u ∈ (g.transitive_reduction.transpose).adj v ↔ _
  rw [show (u ∈ (g.transitive_reduction.transpose).adj v) =
      Edge g.transitive_reduction.transpose v u from rfl,
    transpose_edge_iff (reduction_wf hg), reduction_edge_iff hg]

theorem poset_parents_less {g : Graph V} (hg : WF g) {u v : V}
    (h : u ∈ (Poset.ofGraph g).parents v) : Reach g u v :=
  Reach.single ((poset_parents_iff hg).1 h).1

theorem poset_parents_mem {g : Graph V} (hg : WF g) {u v : V}
    (h : u ∈ (Poset.ofGraph g).parents v) : u ∈ g.vertices :=
  edge_src_mem hg ((poset_parents_iff hg).1 h).1

/-- Covering lemma: in the acyclic case every strict predecessor of `v` lies
below (or equals) some parent of `v`. -/
theorem poset_cover {g : Graph V} (hg : WF g) (ha : Acyclic g) {x v : V}
    (h : Reach g x v) :
    ∃ u ∈ (Poset.ofGraph g).parents v, x = u ∨ Reach g x u := by
  have hirr := Acyclic.irrefl hg ha
  have main : ∀ n x, (Btw g x v).ncard < n → Reach g x v →
      ∃ u ∈ (Poset.ofGraph g).parents v, x = u ∨ Reach g x u := by
    intro n
    induction n with
    | zero => omega
    | succ n ih =>
        intro x hlt hr
        by_cases hbet : ∃ z, Reach g x z ∧ Reach g z v
        · obtain ⟨z, hz1, hz2⟩ := hbet
          have l2 := btw_lt_right hg hirr hz1 hz2
          obtain ⟨u, hu, hzu⟩ := ih z (by omega) hz2
          refine ⟨u, hu, Or.inr ?_⟩
          rcases hzu with rfl | hzu
          · exact hz1
          · exact hz1.trans hzu
        · have hedge : Edge g x v := by
            rcases hr.head_cases with he | ⟨y, hxy, hyv⟩
            · exact he
            · exact absurd ⟨y, Reach.single hxy, hyv⟩ hbet
          refine ⟨x, ?_, Or.inl rfl⟩
          rw [poset_parents_iff hg]
          exact ⟨hedge, hbet⟩
  exact main ((Btw g x v).ncard + 1) x (by omega) h

/-- Every element of a finite subset lies below (or is) a maximal element of
the subset. -/
theorem poset_le_maximal {g : Graph V} (hg : WF g) (ha : Acyclic g)
    {S : Finset V} {x : V} (hx : x ∈ S) :
    ∃ m ∈ (Poset.ofGraph g).maximal S, x = m ∨ Reach g x m := by
  have hirr := Acyclic.irrefl hg ha
  set p := Poset.ofGraph g
  have main : ∀ n x, x ∈ S → (S.filter (fun y => p.less x y)).card < n →
      ∃ m ∈ p.maximal S, x = m ∨ Reach g x m := by
    intro n
    induction n with
    | zero => omega
    | succ n ih =>
        intro x hx hcard
        by_cases hmax : ∃ y ∈ S, p.less x y
        · obtain ⟨y, hy, hxy⟩ := hmax
          have hsub : S.filter (fun z => p.less y z) ⊂ S.filter (fun z => p.less x z) := by
            constructor
            · intro z hz
              rw [Finset.mem_filter] at hz ⊢
              refine ⟨hz.1, ?_⟩
              rw [poset_less_iff hg] at hxy hz ⊢
              exact hxy.trans hz.2
            · intro hsub
              have hy' : y ∈ S.filter (fun z => p.less x z) :=
                Finset.mem_filter.2 ⟨hy, hxy⟩
              have := hsub hy'
              rw [Finset.mem_filter, poset_less_iff hg] at this
              exact hirr y this.2
          obtain ⟨m, hm, hym⟩ := ih y hy (by
            have := Finset.card_lt_card hsub
            omega)
          refine ⟨m, hm, Or.inr ?_⟩
          rw [poset_less_iff hg] at hxy
          rcases hym with rfl | hym
          · exact hxy
          · exact hxy.trans hym
        · refine ⟨x, ?_, Or.inl rfl⟩
          rw [Poset.maximal, Finset.mem_filter]
          exact ⟨hx, hmax⟩
  exact main ((S.filter (fun y => p.less x y)).card + 1) x hx (by omega)

/-- `maximal S` is nonempty whenever `S` is. -/
theorem poset_maximal_nonempty {g : Graph V} (hg : WF g) (ha : Acyclic g)
    {S : Finset V} (hS : S.Nonempty) : ((Poset.ofGraph g).maximal S).Nonempty := by
  obtain ⟨x, hx⟩ := hS
  obtain ⟨m, hm, -⟩ := poset_le_maximal hg ha hx
  exact ⟨m, hm⟩

/-! ### Down-closures of antichains -/

/-- The down-closure of a subset `A` of the poset: all vertices equal to or
strictly below some element of `A`. -/
def downcl (p : Poset V) (A : Finset V) : Finset V :=
  p.vertices.filter (fun x => ∃ a ∈ A, x = a ∨ p.less x a)

theorem downcl_subset_vertices (p : Poset V) (A : Finset V) :
    downcl p A ⊆ p.vertices := Finset.filter_subset _ _

theorem subset_downcl {g : Graph V} {A : Finset V}
    (hA : A ⊆ (Poset.ofGraph g).vertices) : A ⊆ downcl (Poset.ofGraph g) A := by
  intro a ha
  rw [downcl, Finset.mem_filter]
  exact ⟨hA ha, a, ha, Or.inl rfl⟩

theorem downcl_mono (p : Poset V) {A B : Finset V} (h : A ⊆ B) :
    downcl p A ⊆ downcl p B := by
  intro x hx
  rw [downcl, Finset.mem_filter] at hx ⊢
  obtain ⟨hv, a, ha, hxa⟩ := hx
  exact ⟨hv, a, h ha, hxa⟩

theorem mem_downcl_iff {g : Graph V} (hg : WF g) {A : Finset V} {x : V} :
    x ∈ downcl (Poset.ofGraph g) A ↔
      x ∈ g.vertices ∧ ∃ a ∈ A, x = a ∨ Reach g x a := by
  rw [downcl, Finset.mem_filter, poset_mem_vertices]
  constructor
  · rintro ⟨hv, a, ha, hxa⟩
    refine ⟨hv, a, ha, ?_⟩
    rwa [poset_less_iff hg] at hxa
  · rintro ⟨hv, a, ha, hxa⟩
    refine ⟨hv, a, ha, ?_⟩
    rwa [poset_less_iff hg]

/-- `maximal` does not change the down-closure. -/
theorem downcl_maximal {g : Graph V} (hg : WF g) (ha : Acyclic g) {S : Finset V} :
    downcl (Poset.ofGraph g) ((Poset.ofGraph g).maximal S) = downcl (Poset.ofGraph g) S := by
  apply Finset.Subset.antisymm
  · exact downcl_mono _ ((Poset.ofGraph g).maximal_subset S)
  · intro x hx
    rw [mem_downcl_iff hg] at hx ⊢
    obtain ⟨hv, a, haS, hxa⟩ := hx
    obtain ⟨m, hm, ham⟩ := poset_le_maximal hg ha haS
    refine ⟨hv, m, hm, ?_⟩
    rcases hxa with rfl | hxa
    · exact ham
    · rcases ham with rfl | ham
      · exact Or.inr hxa
      · exact Or.inr (hxa.trans ham)

theorem downcl_top {g : Graph V} (hg : WF g) (ha : Acyclic g) :
    downcl (Poset.ofGraph g) ((Poset.ofGraph g).maximal (Poset.ofGraph g).vertices) =
      (Poset.ofGraph g).vertices := by
  rw [downcl_maximal hg ha]
  apply Finset.Subset.antisymm (downcl_subset_vertices _ _)
  exact subset_downcl (fun a ha => ha)

/-- `intervalgraph.py` line 138: the candidate antichain
`poset.maximal(clique.difference([v]).union(poset.parents(v)))`. -/
def parentClique (p : Poset V) (clique : Finset V) (v : V) : Finset V :=
  p.maximal ((clique.erase v) ∪ (p.parents v).toFinset)

theorem parentClique_subset_vertices {g : Graph V} (hg : WF g) {A : Finset V}
    (hA : A ⊆ (Poset.ofGraph g).vertices) (v : V) :
    parentClique (Poset.ofGraph g) A v ⊆ (Poset.ofGraph g).vertices := by
  intro x hx
  have hx' := (Poset.ofGraph g).maximal_subset _ hx
  rcases Finset.mem_union.1 hx' with h | h
  · exact hA (Finset.mem_of_mem_erase h)
  · rw [List.mem_toFinset] at h
    rw [poset_mem_vertices]
    exact poset_parents_mem hg h

theorem parentClique_antichain {g : Graph V} {A : Finset V} {v : V} {a b : V}
    (ha : a ∈ parentClique (Poset.ofGraph g) A v)
    (hb : b ∈ parentClique (Poset.ofGraph g) A v) :
    ¬ (Poset.ofGraph g).less a b :=
  Poset.maximal_antichain _ _ ha hb

/-- The central combinatorial fact behind the pattern-graph construction:
replacing `v ∈ A` by its covering predecessors and re-maximising removes
exactly `v` from the down-closure. -/
theorem parentClique_downcl {g : Graph V} (hg : WF g) (ha : Acyclic g)
    {A : Finset V} (hA : A ⊆ (Poset.ofGraph g).vertices)
    (hAnti : ∀ a ∈ A, ∀ b ∈ A, ¬ (Poset.ofGraph g).less a b) {v : V} (hv : v ∈ A) :
    downcl (Poset.ofGraph g) (parentClique (Poset.ofGraph g) A v) =
      (downcl (Poset.ofGraph g) A).erase v := by
  set p := Poset.ofGraph g with hp
  rw [parentClique, downcl_maximal hg ha]
  apply Finset.Subset.antisymm
  · intro x hx
    rw [mem_downcl_iff hg] at hx
    obtain ⟨hxv, a, haS, hxa⟩ := hx
    rw [Finset.mem_erase, mem_downcl_iff hg]
    rcases Finset.mem_union.1 haS with hae | hap
    · have haA : a ∈ A := Finset.mem_of_mem_erase hae
      have hanv : a ≠ v := (Finset.mem_erase.1 hae).1
      constructor
      · rintro rfl
        rcases hxa with rfl | hxa
        · exact hanv rfl
        · exact hAnti x hv a haA ((poset_less_iff hg).2 hxa)
      · exact ⟨hxv, a, haA, hxa⟩
    · rw [List.mem_toFinset] at hap
      have hav : Reach g a v := poset_parents_less hg hap
      have hxlv : Reach g x v := by
        rcases hxa with rfl | hxa
        · exact hav
        · exact hxa.trans hav
      constructor
      · rintro rfl
        exact Acyclic.irrefl hg ha x hxlv
      · exact ⟨hxv, v, hv, Or.inr hxlv⟩
  · intro x hx
    rw [Finset.mem_erase] at hx
    obtain ⟨hxne, hx⟩ := hx
    rw [mem_downcl_iff hg] at hx
    obtain ⟨hxv, a, haA, hxa⟩ := hx
    rw [mem_downcl_iff hg]
    rcases eq_or_ne a v with rfl | hanv
    · have hxla : Reach g x a := by
        rcases hxa with rfl | hxa
        · exact absurd rfl hxne
        · exact hxa
      obtain ⟨u, hu, hxu⟩ := poset_cover hg ha hxla
      refine ⟨hxv, u, Finset.mem_union_right _ (List.mem_toFinset.2 hu), hxu⟩
    · exact ⟨hxv, a, Finset.mem_union_left _ (Finset.mem_erase.2 ⟨hanv, haA⟩), hxa⟩

theorem parentClique_downcl_card {g : Graph V} (hg : WF g) (ha : Acyclic g)
    {A : Finset V} (hA : A ⊆ (Poset.ofGraph g).vertices)
    (hAnti : ∀ a ∈ A, ∀ b ∈ A, ¬ (Poset.ofGraph g).less a b) {v : V} (hv : v ∈ A) :
    (downcl (Poset.ofGraph g) (parentClique (Poset.ofGraph g) A v)).card <
      (downcl (Poset.ofGraph g) A).card := by
  rw [parentClique_downcl hg ha hA hAnti hv]
  have hvd : v ∈ downcl (Poset.ofGraph g) A := subset_downcl hA hv
  rw [Finset.card_erase_of_mem hvd]
  have : 0 < (downcl (Poset.ofGraph g) A).card := Finset.card_pos.2 ⟨v, hvd⟩
  omega

theorem parentClique_ne_top {g : Graph V} (hg : WF g) (ha : Acyclic g)
    {A : Finset V} (hA : A ⊆ (Poset.ofGraph g).vertices)
    (hAnti : ∀ a ∈ A, ∀ b ∈ A, ¬ (Poset.ofGraph g).less a b) {v : V} (hv : v ∈ A) :
    parentClique (Poset.ofGraph g) A v ≠
      (Poset.ofGraph g).maximal (Poset.ofGraph g).vertices := by
  intro hEq
  have h1 := parentClique_downcl hg ha hA hAnti hv
  rw [hEq, downcl_top hg ha] at h1
  have hvV : v ∈ (Poset.ofGraph g).vertices := hA hv
  have : v ∈ (downcl (Poset.ofGraph g) A).erase v := h1 ▸ hvV
  exact (Finset.mem_erase.1 this).1 rfl

theorem Graph.add_vertex_adj_eq {g : Graph V} (hg : WF g) (v : V) (l : Chars) :
    (g.add_vertex v l).adj = g.adj := by
  unfold Graph.add_vertex
  split
  · rfl
  · show Function.update g.adj v [] = g.adj
    rw [show ([] : List V) = g.adj v from (hg.adj_empty v (by assumption)).symm]
    exact Function.update_eq_self _ _

theorem mem_add_edge_adj_wf {g : Graph V} (hg : WF g) {u v x y : V} (l : Chars) :
    Edge (g.add_edge u v l) x y ↔ (x = u ∧ y = v) ∨ Edge g x y := by
  have h := Graph.mem_add_edge_adj (g := g) (u := u) (v := v) l x y
  rw [Graph.add_vertex_adj_eq (hg.add_vertex u []) v [],
    Graph.add_vertex_adj_eq hg u []] at h
  exact h

/-! ### `PosetToPatternGraph` (`intervalgraph.py`, lines 131-142)

The Python loop iterates over the frozenset `clique`; an order on `V` is
assumed so the iteration order is definite (`Finset.sort`); none of the
verified properties depend on it.  The `while recursion_stack:` loop is
modelled with explicit fuel; `patternRun` also returns the chronological
list of popped cliques (ghost state used by claim C2). -/

section Pattern

variable {V : Type} [LinearOrder V]

/-- Insertion into a sorted list (kernel-computable; used to fix a definite
iteration order over a frozenset). -/
def insertSorted (x : V) : List V → List V
  | [] => [x]
  | y :: ys => if x ≤ y then x :: y :: ys else y :: insertSorted x ys

/-- Structural insertion sort. -/
def insSort : List V → List V
  | [] => []
  | x :: xs => insertSorted x (insSort xs)

theorem insertSorted_perm (x : V) (l : List V) : (insertSorted x l).Perm (x :: l) := by
  induction l with
  | nil => exact List.Perm.refl _
  | cons y ys ih =>
      rw [insertSorted]
      split
      · exact List.Perm.refl _
      · exact (List.Perm.cons y ih).trans (List.Perm.swap x y ys)

theorem insSort_perm (l : List V) : (insSort l).Perm l := by
  induction l with
  | nil => exact List.Perm.refl _
  | cons x xs ih =>
      exact (insertSorted_perm x (insSort xs)).trans (List.Perm.cons x ih)

theorem insertSorted_sorted {x : V} {l : List V} (h : l.Sorted (· ≤ ·)) :
    (insertSorted x l).Sorted (· ≤ ·) := by
  induction l with
  | nil => simp [insertSorted]
  | cons y ys ih =>
      rw [List.sorted_cons] at h
      rw [insertSorted]
      split
      · rename_i hxy
        rw [List.sorted_cons]
        refine ⟨?_, List.sorted_cons.2 h⟩
        intro b hb
        rcases List.mem_cons.1 hb with rfl | hb
        · exact hxy
        · exact le_trans hxy (h.1 b hb)
      · rename_i hxy
        rw [List.sorted_cons]
        refine ⟨?_, ih h.2⟩
        intro b hb
        rcases List.mem_cons.1 ((insertSorted_perm x ys).mem_iff.1 hb) with rfl | hb
        · exact le_of_not_le hxy
        · exact h.1 b hb

theorem insSort_sorted (l : List V) : (insSort l).Sorted (· ≤ ·) := by
  induction l with
  | nil => simp [insSort]
  | cons x xs ih => exact insertSorted_sorted ih

theorem insSort_eq_of_perm {l l' : List V} (h : l.Perm l') : insSort l = insSort l' :=
  List.eq_of_perm_of_sorted ((insSort_perm l).trans (h.trans (insSort_perm l').symm))
    (insSort_sorted l) (insSort_sorted l')

/-- A definite, kernel-computable enumeration of a frozenset: its elements
in increasing order. -/
def sortedList (A : Finset V) : List V :=
  Quotient.lift insSort (fun _ _ h => insSort_eq_of_perm h) A.val

theorem mem_sortedList {A : Finset V} {v : V} : v ∈ sortedList A ↔ v ∈ A := by
  rcases A with ⟨m, hm⟩
  induction m using Quotient.inductionOn with
  | h l =>
      show v ∈ insSort l ↔ _
      rw [(insSort_perm l).mem_iff]
      rfl

/-- One iteration of `for v in clique:` (lines 137-141): compute
`parent_clique`, push it if it is not yet a vertex of the pattern graph,
then `add_edge(parent_clique, clique, str(v))`. -/
def patternBodyStep (p : Poset V) (vstr : V → Chars) (clique : Finset V)
    (st : Graph (Finset V) × List (Finset V)) (v : V) :
    Graph (Finset V) × List (Finset V) :=
  let pc := parentClique p clique v
  let stack' := if pc ∈ st.1.vertices then st.2 else pc :: st.2
  (st.1.add_edge pc clique (vstr v), stack')

/-- The whole `for v in clique:` loop. -/
def patternBody (p : Poset V) (vstr : V → Chars) (clique : Finset V)
    (pg : Graph (Finset V)) (stack : List (Finset V)) :
    Graph (Finset V) × List (Finset V) :=
  (sortedList clique).foldl (patternBodyStep p vstr clique) (pg, stack)

/-- The `while recursion_stack:` loop (lines 135-141), with fuel.  The third
component accumulates the popped cliques (most recent first). -/
def patternRun (p : Poset V) (vstr : V → Chars) :
    ℕ → Graph (Finset V) → List (Finset V) → List (Finset V) →
      Option (Graph (Finset V) × List (Finset V))
  | 0, pg, stack, popped => if stack.isEmpty then some (pg, popped) else none
  | fuel + 1, pg, stack, popped =>
      match stack with
      | [] => some (pg, popped)
      | c :: rest =>
          let st := patternBody p vstr c pg rest
          patternRun p vstr fuel st.1 st.2 (c :: popped)

/-- `PosetToPatternGraph` (lines 131-142): seed the stack with
`poset.maximal(poset.vertices())` and run the loop.  The fuel
`2 ^ |vertices| + 1` is an upper bound on the number of iterations (proved
below); the loop itself has no fuel in the source. -/
def PosetToPatternGraph (p : Poset V) (vstr : V → Chars) :
    Option (Graph (Finset V)) :=
  (patternRun p vstr (2 ^ p.vertices.card + 1) (Graph.empty (Finset V))
    [p.maximal p.vertices] []).map Prod.fst

/-- One step of the exploration relation on antichains: `B` arises from `A`
by promoting some `v ∈ A` to its parents. -/
def stepRel (p : Poset V) (A B : Finset V) : Prop :=
  ∃ v ∈ A, B = parentClique p A v

/-- The antichains reachable by the exploration, starting from the top
antichain. -/
def ReachableAC (p : Poset V) (A : Finset V) : Prop :=
  Relation.ReflTransGen (stepRel p) (p.maximal p.vertices) A

end Pattern

section PatternProof

variable {V : Type} [LinearOrder V]

/-- The top antichain: the seed of the pattern-graph exploration. -/
def topOf (p : Poset V) : Finset V := p.maximal p.vertices

/-- Clique `C` has been fully processed for element `v`: its parent clique is
a vertex and the edge `parent_clique → C` is present. -/
def donePred (p : Poset V) (pg : Graph (Finset V)) (C : Finset V) (v : V) : Prop :=
  parentClique p C v ∈ pg.vertices ∧ Edge pg (parentClique p C v) C

theorem donePred_mono {p : Poset V} {pg pg' : Graph (Finset V)} {C : Finset V} {v : V}
    (hV : ∀ A ∈ pg.vertices, A ∈ pg'.vertices)
    (hE : ∀ x y, Edge pg x y → Edge pg' x y)
    (h : donePred p pg C v) : donePred p pg' C v :=
  ⟨hV _ h.1, hE _ _ h.2⟩

/-- Invariant of the `PosetToPatternGraph` loop, relating the pattern graph
built so far, the work stack, and the list of popped cliques.  (The `popDone`
obligation for the clique currently being processed is tracked separately by
the body lemmas.) -/
structure PatCore (g : Graph V) (vstr : V → Chars) (pg : Graph (Finset V))
    (stack popped : List (Finset V)) : Prop where
  wfp : WF pg
  stackSub : ∀ A ∈ stack, A ⊆ (Poset.ofGraph g).vertices
  popSub : ∀ A ∈ popped, A ⊆ (Poset.ofGraph g).vertices
  stackAnti : ∀ A ∈ stack, ∀ a ∈ A, ∀ b ∈ A, ¬ (Poset.ofGraph g).less a b
  popAnti : ∀ A ∈ popped, ∀ a ∈ A, ∀ b ∈ A, ¬ (Poset.ofGraph g).less a b
  stackReach : ∀ A ∈ stack, ReachableAC (Poset.ofGraph g) A
  popReach : ∀ A ∈ popped, ReachableAC (Poset.ofGraph g) A
  nodupStack : stack.Nodup
  nodupPop : popped.Nodup
  disj : ∀ A ∈ stack, A ∉ popped
  vSub : ∀ A ∈ pg.vertices, A ∈ stack ∨ A ∈ popped
  vSup : ∀ A, A ∈ stack ∨ A ∈ popped → A ∈ pg.vertices ∨ A = topOf (Poset.ofGraph g)
  topIn : topOf (Poset.ofGraph g) ∈ stack ∨ topOf (Poset.ofGraph g) ∈ popped
  edgeInv : ∀ a b, Edge pg a b → b ∈ popped ∧
    ∃ v ∈ b, a = parentClique (Poset.ofGraph g) b v ∧ pg.elabel a b = vstr v
  outInv : ∀ A ∈ pg.vertices, A = topOf (Poset.ofGraph g) ∨ ∃ b, Edge pg A b
  topNoOut : pg.adj (topOf (Poset.ofGraph g)) = []

/-- The full loop invariant: the core plus completeness of processing for
every popped clique. -/
structure PatInv (g : Graph V) (vstr : V → Chars) (pg : Graph (Finset V))
    (stack popped : List (Finset V)) : Prop where
  core : PatCore g vstr pg stack popped
  popDone : ∀ C ∈ popped, ∀ v ∈ C, donePred (Poset.ofGraph g) pg C v

theorem patInv_init {g : Graph V} (hg : WF g) (ha : Acyclic g) (vstr : V → Chars) :
    PatInv g vstr (Graph.empty (Finset V))
      [(Poset.ofGraph g).maximal (Poset.ofGraph g).vertices] [] := by
  have htop : ∀ A, A ∈ [(Poset.ofGraph g).maximal (Poset.ofGraph g).vertices] → A =
      (Poset.ofGraph g).maximal (Poset.ofGraph g).vertices := by simp
  refine ⟨⟨WF.empty, ?_, ?_, ?_, ?_, ?_, ?_, ?_, ?_, ?_, ?_, ?_, ?_, ?_, ?_, ?_⟩, ?_⟩
  · intro A hA
    rw [htop A hA]
    exact fun x hx => (Poset.ofGraph g).maximal_subset _ hx
  · simp
  · intro A hA
    rw [htop A hA]
    exact fun a haA b hbA => (Poset.ofGraph g).maximal_antichain _ haA hbA
  · simp
  · intro A hA
    rw [htop A hA]
    exact Relation.ReflTransGen.refl
  · simp
  · simp
  · simp
  · simp
  · intro A hA
    simp [Graph.empty] at hA
  · intro A hA
    rcases hA with hA | hA
    · exact Or.inr (htop A hA)
    · simp at hA
  · simp [topOf]
  · intro a b hab
    simp [Edge, Graph.empty] at hab
  · intro A hA
    simp [Graph.empty] at hA
  · rfl
  · simp

theorem add_edge_adj_of_ne {h : Graph (Finset V)} (hw : WF h)
    {u v x : Finset V} (l : Chars) (hne : x ≠ u) :
    (h.add_edge u v l).adj x = h.adj x := by
  rw [Graph.add_edge_adj, if_neg hne,
    Graph.add_vertex_adj_eq (hw.add_vertex u []) v [], Graph.add_vertex_adj_eq hw u []]

theorem patternBodyStep_eq (p : Poset V) (vstr : V → Chars) (clique : Finset V)
    (st : Graph (Finset V) × List (Finset V)) (v : V) :
    patternBodyStep p vstr clique st v =
      (st.1.add_edge (parentClique p clique v) clique (vstr v),
        if parentClique p clique v ∈ st.1.vertices then st.2
        else parentClique p clique v :: st.2) := rfl

theorem vcard_le_pow {g : Graph V} {vstr : V → Chars} {pg : Graph (Finset V)}
    {stack popped : List (Finset V)} (hcore : PatCore g vstr pg stack popped) :
    pg.vertices.toFinset.card ≤ 2 ^ (Poset.ofGraph g).vertices.card := by
  have hsub : pg.vertices.toFinset ⊆ (Poset.ofGraph g).vertices.powerset := by
    intro A hA
    rw [List.mem_toFinset] at hA
    rw [Finset.mem_powerset]
    rcases hcore.vSub A hA with h | h
    · exact hcore.stackSub A h
    · exact hcore.popSub A h
  have := Finset.card_le_card hsub
  rwa [Finset.card_powerset] at this

theorem patternBodyStep_spec {g : Graph V} (hg : WF g) (ha : Acyclic g)
    (vstr : V → Chars) {pg : Graph (Finset V)} {stack popped : List (Finset V)}
    {c : Finset V} (hcore : PatCore g vstr pg stack popped)
    (hcpop : c ∈ popped) {v : V} (hv : v ∈ c) :
    PatCore g vstr (patternBodyStep (Poset.ofGraph g) vstr c (pg, stack) v).1
        (patternBodyStep (Poset.ofGraph g) vstr c (pg, stack) v).2 popped ∧
      (∀ A ∈ pg.vertices, A ∈ (patternBodyStep (Poset.ofGraph g) vstr c (pg, stack) v).1.vertices) ∧
      (∀ x y, Edge pg x y →
        Edge (patternBodyStep (Poset.ofGraph g) vstr c (pg, stack) v).1 x y) ∧
      donePred (Poset.ofGraph g) (patternBodyStep (Poset.ofGraph g) vstr c (pg, stack) v).1 c v ∧
      (∀ A ∈ stack, A ∈ (patternBodyStep (Poset.ofGraph g) vstr c (pg, stack) v).2) ∧
      (patternBodyStep (Poset.ofGraph g) vstr c (pg, stack) v).2.length +
          (2 ^ (Poset.ofGraph g).vertices.card -
            (patternBodyStep (Poset.ofGraph g) vstr c (pg, stack) v).1.vertices.toFinset.card) ≤
        stack.length + (2 ^ (Poset.ofGraph g).vertices.card - pg.vertices.toFinset.card) := by
  rw [patternBodyStep_eq]
  set P := Poset.ofGraph g with hP
  set pc := parentClique P c v with hpc
  set st1 := pg.add_edge pc c (vstr v) with hst1
  have hcSub := hcore.popSub c hcpop
  have hcAnti := hcore.popAnti c hcpop
  have hcReach := hcore.popReach c hcpop
  have hpcSub : pc ⊆ P.vertices := parentClique_subset_vertices hg hcSub v
  have hpcAnti : ∀ a ∈ pc, ∀ b ∈ pc, ¬ P.less a b :=
    fun a haA b hbA => parentClique_antichain haA hbA
  have hpcReach : ReachableAC P pc :=
    Relation.ReflTransGen.tail hcReach ⟨v, hv, rfl⟩
  have hpcTop : pc ≠ topOf P := parentClique_ne_top hg ha hcSub hcAnti hv
  have hwf1 : WF st1 := hcore.wfp.add_edge pc c (vstr v)
  have hVmono : ∀ A ∈ pg.vertices, A ∈ st1.vertices := by
    intro A hA
    rw [hst1, Graph.mem_add_edge_vertices]
    tauto
  have hEmono : ∀ x y, Edge pg x y → Edge st1 x y :=
    fun x y h => add_edge_edge_mono hcore.wfp (vstr v) h
  have hmemV1 : ∀ A, A ∈ st1.vertices ↔ A = c ∨ A = pc ∨ A ∈ pg.vertices := by
    intro A
    rw [hst1, Graph.mem_add_edge_vertices]
  have hpcV1 : pc ∈ st1.vertices := (hmemV1 pc).2 (Or.inr (Or.inl rfl))
  have hcV1 : c ∈ st1.vertices := (hmemV1 c).2 (Or.inl rfl)
  have hedge1 : Edge st1 pc c := by
    rw [hst1, mem_add_edge_adj_wf hcore.wfp]
    exact Or.inl ⟨rfl, rfl⟩
  have hcValt : c = topOf P ∨ ∃ b, Edge pg c b := by
    rcases hcore.vSup c (Or.inr hcpop) with hcv | hct
    · exact hcore.outInv c hcv
    · exact Or.inl hct
  have hpush : ∀ A, (A ∈ (if pc ∈ pg.vertices then stack else pc :: stack)) ↔
      (¬ pc ∈ pg.vertices ∧ A = pc) ∨ A ∈ stack := by
    intro A
    split
    · rename_i hmem
      simp [hmem]
    · rename_i hmem
      simp [hmem, or_comm]
  have hpcNotStack : pc ∉ pg.vertices → pc ∉ stack := by
    intro hnp hmem
    rcases hcore.vSup pc (Or.inl hmem) with h | h
    · exact hnp h
    · exact hpcTop h
  have hpcNotPop : pc ∉ pg.vertices → pc ∉ popped := by
    intro hnp hmem
    rcases hcore.vSup pc (Or.inr hmem) with h | h
    · exact hnp h
    · exact hpcTop h
  refine ⟨⟨hwf1, ?_, hcore.popSub, ?_, hcore.popAnti, ?_, hcore.popReach,
      ?_, hcore.nodupPop, ?_, ?_, ?_, ?_, ?_, ?_, ?_⟩, hVmono, hEmono,
      ⟨hpcV1, hedge1⟩, ?_, ?_⟩
  · intro A hA
    rcases (hpush A).1 hA with ⟨-, rfl⟩ | hA
    · exact hpcSub
    · exact hcore.stackSub A hA
  · intro A hA
    rcases (hpush A).1 hA with ⟨-, rfl⟩ | hA
    · exact hpcAnti
    · exact hcore.stackAnti A hA
  · intro A hA
    rcases (hpush A).1 hA with ⟨-, rfl⟩ | hA
    · exact hpcReach
    · exact hcore.stackReach A hA
  · split
    · exact hcore.nodupStack
    · rename_i hmem
      exact List.nodup_cons.2 ⟨hpcNotStack hmem, hcore.nodupStack⟩
  · intro A hA
    rcases (hpush A).1 hA with ⟨hnp, rfl⟩ | hA
    · exact hpcNotPop hnp
    · exact hcore.disj A hA
  · intro A hA
    rcases (hmemV1 A).1 hA with rfl | (rfl | hA)
    · exact Or.inr hcpop
    · by_cases hmem : pc ∈ pg.vertices
      · rcases hcore.vSub pc hmem with h | h
        · exact Or.inl ((hpush pc).2 (Or.inr h))
        · exact Or.inr h
      · exact Or.inl ((hpush pc).2 (Or.inl ⟨hmem, rfl⟩))
    · rcases hcore.vSub A hA with h | h
      · exact Or.inl ((hpush A).2 (Or.inr h))
      · exact Or.inr h
  · intro A hA
    rcases hA with hA | hA
    · rcases (hpush A).1 hA with ⟨-, rfl⟩ | hA
      · exact Or.inl hpcV1
      · rcases hcore.vSup A (Or.inl hA) with h | h
        · exact Or.inl (hVmono A h)
        · exact Or.inr h
    · rcases hcore.vSup A (Or.inr hA) with h | h
      · exact Or.inl (hVmono A h)
      · exact Or.inr h
  · rcases hcore.topIn with h | h
    · exact Or.inl ((hpush _).2 (Or.inr h))
    · exact Or.inr h
  · intro a b hab
    rw [hst1, mem_add_edge_adj_wf hcore.wfp] at hab
    by_cases hcoin : a = pc ∧ b = c
    · obtain ⟨rfl, rfl⟩ := hcoin
      refine ⟨hcpop, v, hv, rfl, ?_⟩
      rw [hst1]
      exact Graph.add_edge_elabel_self _ _ _ _
    · rcases hab with hab | hab
      · exact absurd hab hcoin
      · obtain ⟨hbpop, v', hv', ha', hel⟩ := hcore.edgeInv a b hab
        refine ⟨hbpop, v', hv', ha', ?_⟩
        rw [hst1, Graph.add_edge_elabel_of_mem _ _ (edge_src_mem hcore.wfp hab) b,
          if_neg hcoin]
        exact hel
  · intro A hA
    rcases (hmemV1 A).1 hA with rfl | (rfl | hA)
    · rcases hcValt with h | ⟨b, hb⟩
      · exact Or.inl h
      · exact Or.inr ⟨b, hEmono _ _ hb⟩
    · exact Or.inr ⟨c, hedge1⟩
    · rcases hcore.outInv A hA with h | ⟨b, hb⟩
      · exact Or.inl h
      · exact Or.inr ⟨b, hEmono _ _ hb⟩
  · rw [hst1, add_edge_adj_of_ne hcore.wfp (vstr v) (Ne.symm hpcTop)]
    exact hcore.topNoOut
  · intro A hA
    exact (hpush A).2 (Or.inr hA)
  · have hmono : pg.vertices.toFinset ⊆ st1.vertices.toFinset := by
      intro A hA
      rw [List.mem_toFinset] at hA ⊢
      exact hVmono A hA
    have hmonoc := Finset.card_le_card hmono
    have hb1 : st1.vertices.toFinset ⊆ P.vertices.powerset := by
      intro A hA
      rw [List.mem_toFinset] at hA
      rw [Finset.mem_powerset]
      rcases (hmemV1 A).1 hA with rfl | (rfl | hA)
      · exact hcSub
      · exact hpcSub
      · rcases hcore.vSub A hA with h | h
        · exact hcore.stackSub A h
        · exact hcore.popSub A h
    have hb2 := Finset.card_le_card hb1
    rw [Finset.card_powerset] at hb2
    show (if pc ∈ pg.vertices then stack else pc :: stack).length +
        (2 ^ P.vertices.card - st1.vertices.toFinset.card) ≤
      stack.length + (2 ^ P.vertices.card - pg.vertices.toFinset.card)
    split
    · rename_i hmem
      omega
    · rename_i hmem
      have hins : insert pc pg.vertices.toFinset ⊆ st1.vertices.toFinset := by
        intro A hA
        rcases Finset.mem_insert.1 hA with rfl | hA
        · rw [List.mem_toFinset]
          exact hpcV1
        · exact hmono hA
      have hcard := Finset.card_le_card hins
      rw [Finset.card_insert_of_not_mem (by
        rw [List.mem_toFinset]
        exact hmem)] at hcard
      simp only [List.length_cons]
      omega

theorem patternBody_fold_spec {g : Graph V} (hg : WF g) (ha : Acyclic g)
    (vstr : V → Chars) {c : Finset V} (l : List V) :
    ∀ {pg : Graph (Finset V)} {stack popped : List (Finset V)},
      PatCore g vstr pg stack popped → c ∈ popped → (∀ v ∈ l, v ∈ c) →
      PatCore g vstr (l.foldl (patternBodyStep (Poset.ofGraph g) vstr c) (pg, stack)).1
          (l.foldl (patternBodyStep (Poset.ofGraph g) vstr c) (pg, stack)).2 popped ∧
        (∀ A ∈ pg.vertices,
          A ∈ (l.foldl (patternBodyStep (Poset.ofGraph g) vstr c) (pg, stack)).1.vertices) ∧
        (∀ x y, Edge pg x y →
          Edge (l.foldl (patternBodyStep (Poset.ofGraph g) vstr c) (pg, stack)).1 x y) ∧
        (∀ v ∈ l, donePred (Poset.ofGraph g)
          (l.foldl (patternBodyStep (Poset.ofGraph g) vstr c) (pg, stack)).1 c v) ∧
        (∀ A ∈ stack,
          A ∈ (l.foldl (patternBodyStep (Poset.ofGraph g) vstr c) (pg, stack)).2) ∧
        (l.foldl (patternBodyStep (Poset.ofGraph g) vstr c) (pg, stack)).2.length +
            (2 ^ (Poset.ofGraph g).vertices.card -
              (l.foldl (patternBodyStep (Poset.ofGraph g) vstr c)
                (pg, stack)).1.vertices.toFinset.card) ≤
          stack.length +
            (2 ^ (Poset.ofGraph g).vertices.card - pg.vertices.toFinset.card) := by
  induction l with
  | nil =>
      intro pg stack popped hcore hcpop hl
      exact ⟨hcore, fun A hA => hA, fun x y h => h, by simp, fun A hA => hA, le_refl _⟩
  | cons v vs ih =>
      intro pg stack popped hcore hcpop hl
      obtain ⟨hcore1, hV1, hE1, hdone1, hS1, hm1⟩ :=
        patternBodyStep_spec hg ha vstr hcore hcpop (hl v (by simp))
      obtain ⟨hcore2, hV2, hE2, hdone2, hS2, hm2⟩ :=
        ih hcore1 hcpop (fun w hw => hl w (by simp [hw]))
      refine ⟨hcore2, ?_, ?_, ?_, ?_, ?_⟩
      · exact fun A hA => hV2 A (hV1 A hA)
      · exact fun x y h => hE2 x y (hE1 x y h)
      · intro w hw
        rcases List.mem_cons.1 hw with rfl | hw
        · exact donePred_mono hV2 hE2 hdone1
        · exact hdone2 w hw
      · exact fun A hA => hS2 A (hS1 A hA)
      · exact le_trans hm2 hm1

theorem patternIter_spec {g : Graph V} (hg : WF g) (ha : Acyclic g)
    (vstr : V → Chars) {pg : Graph (Finset V)} {rest popped : List (Finset V)}
    {c : Finset V} (hinv : PatInv g vstr pg (c :: rest) popped) :
    PatInv g vstr (patternBody (Poset.ofGraph g) vstr c pg rest).1
        (patternBody (Poset.ofGraph g) vstr c pg rest).2 (c :: popped) ∧
      (patternBody (Poset.ofGraph g) vstr c pg rest).2.length +
          (2 ^ (Poset.ofGraph g).vertices.card -
            (patternBody (Poset.ofGraph g) vstr c pg rest).1.vertices.toFinset.card) <
        (c :: rest).length +
          (2 ^ (Poset.ofGraph g).vertices.card - pg.vertices.toFinset.card) := by
  have hcore := hinv.core
  have hcne : c ∉ rest := (List.nodup_cons.1 hcore.nodupStack).1
  have hcnp : c ∉ popped := hcore.disj c (by simp)
  have hcore' : PatCore g vstr pg rest (c :: popped) := by
    refine ⟨hcore.wfp, ?_, ?_, ?_, ?_, ?_, ?_, ?_, ?_, ?_, ?_, ?_, ?_, ?_, ?_, ?_⟩
    · exact fun A hA => hcore.stackSub A (by simp [hA])
    · intro A hA
      rcases List.mem_cons.1 hA with rfl | hA
      · exact hcore.stackSub A (by simp)
      · exact hcore.popSub A hA
    · exact fun A hA => hcore.stackAnti A (by simp [hA])
    · intro A hA
      rcases List.mem_cons.1 hA with rfl | hA
      · exact hcore.stackAnti A (by simp)
      · exact hcore.popAnti A hA
    · exact fun A hA => hcore.stackReach A (by simp [hA])
    · intro A hA
      rcases List.mem_cons.1 hA with rfl | hA
      · exact hcore.stackReach A (by simp)
      · exact hcore.popReach A hA
    · exact (List.nodup_cons.1 hcore.nodupStack).2
    · exact List.nodup_cons.2 ⟨hcnp, hcore.nodupPop⟩
    · intro A hA hAp
      rcases List.mem_cons.1 hAp with rfl | hAp
      · exact hcne hA
      · exact hcore.disj A (by simp [hA]) hAp
    · intro A hA
      rcases hcore.vSub A hA with h | h
      · rcases List.mem_cons.1 h with rfl | h
        · exact Or.inr (by simp)
        · exact Or.inl h
      · exact Or.inr (by simp [h])
    · intro A hA
      rcases hA with hA | hA
      · exact hcore.vSup A (Or.inl (by simp [hA]))
      · rcases List.mem_cons.1 hA with rfl | hA
        · exact hcore.vSup A (Or.inl (by simp))
        · exact hcore.vSup A (Or.inr hA)
    · rcases hcore.topIn with h | h
      · rcases List.mem_cons.1 h with heq | h
        · exact Or.inr (by simp [heq])
        · exact Or.inl h
      · exact Or.inr (by simp [h])
    · intro a b hab
      obtain ⟨hb, hrest⟩ := hcore.edgeInv a b hab
      exact ⟨by simp [hb], hrest⟩
    · exact hcore.outInv
    · exact hcore.topNoOut
  obtain ⟨hcore2, hV2, hE2, hdone2, hS2, hm2⟩ :=
    patternBody_fold_spec hg ha vstr (sortedList c) hcore' (by simp)
      (fun w hw => mem_sortedList.1 hw)
  refine ⟨⟨hcore2, ?_⟩, ?_⟩
  · intro C hC w hw
    rcases List.mem_cons.1 hC with rfl | hC
    · exact hdone2 w (mem_sortedList.2 hw)
    · exact donePred_mono hV2 hE2 (hinv.popDone C hC w hw)
  · show (patternBody (Poset.ofGraph g) vstr c pg rest).2.length + _ < _
    have : (c :: rest).length = rest.length + 1 := by simp
    rw [this]
    have hm2' : (patternBody (Poset.ofGraph g) vstr c pg rest).2.length +
        (2 ^ (Poset.ofGraph g).vertices.card -
          (patternBody (Poset.ofGraph g) vstr c pg rest).1.vertices.toFinset.card) ≤
        rest.length + (2 ^ (Poset.ofGraph g).vertices.card - pg.vertices.toFinset.card) :=
      hm2
    omega

theorem patternRun_spec {g : Graph V} (hg : WF g) (ha : Acyclic g)
    (vstr : V → Chars) :
    ∀ (fuel : ℕ) (pg : Graph (Finset V)) (stack popped : List (Finset V)),
      PatInv g vstr pg stack popped →
      stack.length +
          (2 ^ (Poset.ofGraph g).vertices.card - pg.vertices.toFinset.card) ≤ fuel →
      ∃ pgf poppedf,
        patternRun (Poset.ofGraph g) vstr fuel pg stack popped = some (pgf, poppedf) ∧
          PatInv g vstr pgf [] poppedf := by
  intro fuel
  induction fuel with
  | zero =>
      intro pg stack popped hinv hb
      have hlen : stack.length = 0 := by omega
      rw [List.length_eq_zero] at hlen
      subst hlen
      exact ⟨pg, popped, rfl, hinv⟩
  | succ n ih =>
      intro pg stack popped hinv hb
      match stack, hinv, hb with
      | [], hinv, hb => exact ⟨pg, popped, rfl, hinv⟩
      | c :: rest, hinv, hb =>
          obtain ⟨hinv', hlt⟩ := patternIter_spec hg ha vstr hinv
          have hb' : (patternBody (Poset.ofGraph g) vstr c pg rest).2.length +
              (2 ^ (Poset.ofGraph g).vertices.card -
                (patternBody (Poset.ofGraph g) vstr c pg
                  rest).1.vertices.toFinset.card) ≤ n := by
            have hlen : (c :: rest).length = rest.length + 1 := by simp
            omega
          obtain ⟨pgf, poppedf, hrun, hfin⟩ := ih
            (patternBody (Poset.ofGraph g) vstr c pg rest).1
            (patternBody (Poset.ofGraph g) vstr c pg rest).2 (c :: popped) hinv' hb'
          exact ⟨pgf, poppedf, hrun, hfin⟩

theorem pat_edge_card_lt {g : Graph V} (hg : WF g) (ha : Acyclic g)
    {vstr : V → Chars} {pg : Graph (Finset V)} {popped : List (Finset V)}
    (hfin : PatInv g vstr pg [] popped) {a b : Finset V} (hab : Edge pg a b) :
    (downcl (Poset.ofGraph g) a).card < (downcl (Poset.ofGraph g) b).card := by
  obtain ⟨hbpop, v, hv, rfl, -⟩ := hfin.core.edgeInv a b hab
  exact parentClique_downcl_card hg ha (hfin.core.popSub b hbpop)
    (hfin.core.popAnti b hbpop) hv

theorem pat_acyclic {g : Graph V} (hg : WF g) (ha : Acyclic g)
    {vstr : V → Chars} {pg : Graph (Finset V)} {popped : List (Finset V)}
    (hfin : PatInv g vstr pg [] popped) (A : Finset V) :
    ¬ Relation.TransGen (Edge pg) A A := by
  intro hcyc
  have hlt : ∀ X Y, Relation.TransGen (Edge pg) X Y →
      (downcl (Poset.ofGraph g) X).card < (downcl (Poset.ofGraph g) Y).card := by
    intro X Y h
    induction h with
    | single h => exact pat_edge_card_lt hg ha hfin h
    | tail _ h ih => exact lt_trans ih (pat_edge_card_lt hg ha hfin h)
  exact lt_irrefl _ (hlt A A hcyc)

theorem pat_popped_iff_reachable {g : Graph V} (hg : WF g) (ha : Acyclic g)
    {vstr : V → Chars} {pg : Graph (Finset V)} {popped : List (Finset V)}
    (hfin : PatInv g vstr pg [] popped) (A : Finset V) :
    A ∈ popped ↔ ReachableAC (Poset.ofGraph g) A := by
  constructor
  · exact hfin.core.popReach A
  · intro h
    induction h with
    | refl =>
        rcases hfin.core.topIn with h | h
        · simp at h
        · exact h
    | tail hBA hstep ih =>
        obtain ⟨v, hv, rfl⟩ := hstep
        have hdone := hfin.popDone _ ih v hv
        rcases hfin.core.vSub _ hdone.1 with h | h
        · simp at h
        · exact h

theorem pat_vertices_iff_popped {g : Graph V} (hg : WF g) (ha : Acyclic g)
    {vstr : V → Chars} {pg : Graph (Finset V)} {popped : List (Finset V)}
    (hfin : PatInv g vstr pg [] popped)
    (hne : (Poset.ofGraph g).vertices.Nonempty) (A : Finset V) :
    A ∈ pg.vertices ↔ A ∈ popped := by
  have htopne : (topOf (Poset.ofGraph g)).Nonempty :=
    poset_maximal_nonempty hg ha hne
  have htoppop : topOf (Poset.ofGraph g) ∈ popped := by
    rcases hfin.core.topIn with h | h
    · simp at h
    · exact h
  have htopV : topOf (Poset.ofGraph g) ∈ pg.vertices := by
    obtain ⟨v, hv⟩ := htopne
    have hdone := hfin.popDone _ htoppop v hv
    exact hfin.core.wfp.adj_subset _ _ hdone.2
  constructor
  · intro h
    rcases hfin.core.vSub A h with h | h
    · simp at h
    · exact h
  · intro h
    rcases hfin.core.vSup A (Or.inr h) with h | rfl
    · exact h
    · exact htopV

theorem pat_empty_mem {g : Graph V} (hg : WF g) (ha : Acyclic g)
    {vstr : V → Chars} {pg : Graph (Finset V)} {popped : List (Finset V)}
    (hfin : PatInv g vstr pg [] popped)
    (hne : (Poset.ofGraph g).vertices.Nonempty) :
    (∅ : Finset V) ∈ pg.vertices := by
  have htopne : (topOf (Poset.ofGraph g)).Nonempty :=
    poset_maximal_nonempty hg ha hne
  have htoppop : topOf (Poset.ofGraph g) ∈ popped := by
    rcases hfin.core.topIn with h | h
    · simp at h
    · exact h
  have htopV : topOf (Poset.ofGraph g) ∈ pg.vertices := by
    obtain ⟨v, hv⟩ := htopne
    have hdone := hfin.popDone _ htoppop v hv
    exact hfin.core.wfp.adj_subset _ _ hdone.2
  have hVne : pg.vertices.toFinset.Nonempty :=
    ⟨_, List.mem_toFinset.2 htopV⟩
  obtain ⟨M, hM, hmin⟩ := Finset.exists_min_image pg.vertices.toFinset
    (fun A => (downcl (Poset.ofGraph g) A).card) hVne
  rw [List.mem_toFinset] at hM
  rcases eq_or_ne M ∅ with rfl | hMne
  · exact hM
  · exfalso
    obtain ⟨v, hv⟩ := Finset.nonempty_iff_ne_empty.2 hMne
    have hMpop : M ∈ popped := (pat_vertices_iff_popped hg ha hfin hne M).1 hM
    have hdone := hfin.popDone M hMpop v hv
    have hlt := parentClique_downcl_card hg ha (hfin.core.popSub M hMpop)
      (hfin.core.popAnti M hMpop) hv
    have := hmin _ (List.mem_toFinset.2 hdone.1)
    omega

theorem patternRun_top_spec {g : Graph V} (hg : WF g) (ha : Acyclic g)
    (vstr : V → Chars) :
    ∃ pgf poppedf,
      patternRun (Poset.ofGraph g) vstr (2 ^ (Poset.ofGraph g).vertices.card + 1)
          (Graph.empty (Finset V)) [(Poset.ofGraph g).maximal (Poset.ofGraph g).vertices]
          [] = some (pgf, poppedf) ∧
        PatInv g vstr pgf [] poppedf := by
  apply patternRun_spec hg ha vstr
  · exact patInv_init hg ha vstr
  · have h0 : (Graph.empty (Finset V)).vertices.toFinset.card = 0 := rfl
    rw [h0]
    simp
    omega

/-- C1 (amended): for every well-formed acyclic digraph with at least one
vertex, `PosetToPatternGraph` of the derived poset terminates and returns a
pattern graph that is acyclic, has the *empty* antichain as its unique
source, the *top* antichain (the maximal elements) as its unique sink, and
labels each edge `parent_clique → clique` with the printed name of the poset
element consumed on that transition.  (The claim as stated has source and
sink interchanged; see the counterexample.) -/
theorem C1_pattern_graph_structure (g : Graph V) (hg : WF g) (ha : Acyclic g)
    (hne : g.vertices ≠ []) (vstr : V → Chars) :
    ∃ pg, PosetToPatternGraph (Poset.ofGraph g) vstr = some pg ∧
      (∀ A, ¬ Relation.TransGen (Edge pg) A A) ∧
      ((∅ : Finset V) ∈ pg.vertices ∧ (∀ a, ¬ Edge pg a ∅) ∧
        ∀ A ∈ pg.vertices, A ≠ ∅ → ∃ a, Edge pg a A) ∧
      (topOf (Poset.ofGraph g) ∈ pg.vertices ∧
        pg.adj (topOf (Poset.ofGraph g)) = [] ∧
        ∀ A ∈ pg.vertices, A ≠ topOf (Poset.ofGraph g) → ∃ b, Edge pg A b) ∧
      (∀ a b, Edge pg a b →
        ∃ v ∈ b, a = parentClique (Poset.ofGraph g) b v ∧ pg.elabel a b = vstr v) := by
  obtain ⟨pgf, poppedf, hrun, hfin⟩ := patternRun_top_spec hg ha vstr
  have hpne : (Poset.ofGraph g).vertices.Nonempty := by
    obtain ⟨x, hx⟩ := List.exists_mem_of_ne_nil g.vertices hne
    exact ⟨x, (poset_mem_vertices).2 hx⟩
  have htoppop : topOf (Poset.ofGraph g) ∈ poppedf := by
    rcases hfin.core.topIn with h | h
    · simp at h
    · exact h
  have htopV : topOf (Poset.ofGraph g) ∈ pgf.vertices := by
    obtain ⟨v, hv⟩ := poset_maximal_nonempty hg ha hpne
    have hdone := hfin.popDone _ htoppop v hv
    exact hfin.core.wfp.adj_subset _ _ hdone.2
  refine ⟨pgf, ?_, pat_acyclic hg ha hfin, ⟨?_, ?_, ?_⟩, ⟨htopV, hfin.core.topNoOut, ?_⟩, ?_⟩
  · rw [PosetToPatternGraph, hrun]
    rfl
  · exact pat_empty_mem hg ha hfin hpne
  · intro a hedge
    obtain ⟨-, v, hv, -, -⟩ := hfin.core.edgeInv a ∅ hedge
    simp at hv
  · intro A hA hAne
    have hApop := (pat_vertices_iff_popped hg ha hfin hpne A).1 hA
    obtain ⟨v, hv⟩ := Finset.nonempty_iff_ne_empty.2 hAne
    exact ⟨_, (hfin.popDone A hApop v hv).2⟩
  · intro A hA hAne
    rcases hfin.core.outInv A hA with h | h
    · exact absurd h hAne
    · exact h
  · intro a b hab
    exact (hfin.core.edgeInv a b hab).2

/-- C2 (amended): for every well-formed acyclic digraph with at least one
vertex, the work-stack loop of `PosetToPatternGraph` terminates, pops each
distinct reachable antichain exactly once, and the vertex set of the
returned pattern graph is exactly the set of reachable antichains, so the
vertex count equals the number of distinct reachable antichains.  (On the
empty digraph the loop still terminates and pops the empty top antichain
exactly once, but the returned graph has no vertices at all; see the
counterexample.) -/
theorem C2_pattern_run_pops (g : Graph V) (hg : WF g) (ha : Acyclic g)
    (hne : g.vertices ≠ []) (vstr : V → Chars) :
    ∃ pg popped,
      patternRun (Poset.ofGraph g) vstr (2 ^ (Poset.ofGraph g).vertices.card + 1)
          (Graph.empty (Finset V)) [(Poset.ofGraph g).maximal (Poset.ofGraph g).vertices]
          [] = some (pg, popped) ∧
        PosetToPatternGraph (Poset.ofGraph g) vstr = some pg ∧
        popped.Nodup ∧
        (∀ A, A ∈ popped ↔ ReachableAC (Poset.ofGraph g) A) ∧
        (∀ A, A ∈ pg.vertices ↔ ReachableAC (Poset.ofGraph g) A) ∧
        pg.vertices.toFinset.card = Set.ncard {A | ReachableAC (Poset.ofGraph g) A} := by
  obtain ⟨pgf, poppedf, hrun, hfin⟩ := patternRun_top_spec hg ha vstr
  have hpne : (Poset.ofGraph g).vertices.Nonempty := by
    obtain ⟨x, hx⟩ := List.exists_mem_of_ne_nil g.vertices hne
    exact ⟨x, (poset_mem_vertices).2 hx⟩
  have hmemiff : ∀ A, A ∈ pgf.vertices ↔ ReachableAC (Poset.ofGraph g) A := by
    intro A
    rw [pat_vertices_iff_popped hg ha hfin hpne A,
      pat_popped_iff_reachable hg ha hfin A]
  refine ⟨pgf, poppedf, hrun, ?_, hfin.core.nodupPop,
    fun A => pat_popped_iff_reachable hg ha hfin A, hmemiff, ?_⟩
  · rw [PosetToPatternGraph, hrun]
    rfl
  · have hset : {A | ReachableAC (Poset.ofGraph g) A} = ↑pgf.vertices.toFinset := by
      ext A
      rw [Set.mem_setOf_eq]
      simp only [Finset.mem_coe, List.mem_toFinset]
      exact (hmemiff A).symm
    rw [hset, Set.ncard_coe_Finset]

/-- Python `str(v)` for integer vertices. -/
def natStr (n : ℕ) : Chars := (toString n).data

/-- C1 counterexample: on the one-vertex digraph, the pattern graph has an
edge from the empty antichain into the top antichain `{0}`, so the top
antichain is not a source (it has an in-edge) and the empty antichain is not
a sink (it has an out-edge) — the claim's source/sink roles are reversed. -/
theorem C1_counterexample :
    ∃ pg, PosetToPatternGraph (Poset.ofGraph gV) natStr = some pg ∧
      topOf (Poset.ofGraph gV) = {0} ∧ Edge pg ∅ {0} :=
  ⟨(Graph.empty (Finset ℕ)).add_edge ∅ {0} (natStr 0), by rfl, by decide, by decide⟩

/-- Witness for the amended C1 at the one-vertex digraph. -/
theorem C1_witness :
    ∃ pg, PosetToPatternGraph (Poset.ofGraph gV) natStr = some pg ∧
      (∀ A, ¬ Relation.TransGen (Edge pg) A A) ∧
      ((∅ : Finset ℕ) ∈ pg.vertices ∧ (∀ a, ¬ Edge pg a ∅) ∧
        ∀ A ∈ pg.vertices, A ≠ ∅ → ∃ a, Edge pg a A) ∧
      (topOf (Poset.ofGraph gV) ∈ pg.vertices ∧
        pg.adj (topOf (Poset.ofGraph gV)) = [] ∧
        ∀ A ∈ pg.vertices, A ≠ topOf (Poset.ofGraph gV) → ∃ b, Edge pg A b) ∧
      (∀ a b, Edge pg a b →
        ∃ v ∈ b, a = parentClique (Poset.ofGraph gV) b v ∧ pg.elabel a b = natStr v) :=
  C1_pattern_graph_structure gV gV_wf (by decide) (by decide) natStr

/-- C2 counterexample: on the empty digraph the loop pops the (empty) top
antichain once and terminates, but the returned pattern graph has zero
vertices while exactly one antichain is reachable — the vertex count does
not equal the reachable-antichain count. -/
theorem C2_counterexample :
    ∃ pg, PosetToPatternGraph (Poset.ofGraph (Graph.empty ℕ)) natStr = some pg ∧
      pg.vertices.toFinset.card = 0 ∧
      Set.ncard {A | ReachableAC (Poset.ofGraph (Graph.empty ℕ)) A} = 1 := by
  refine ⟨Graph.empty (Finset ℕ), by rfl, by decide, ?_⟩
  have htop : (Poset.ofGraph (Graph.empty ℕ)).maximal
      (Poset.ofGraph (Graph.empty ℕ)).vertices = ∅ := by decide
  have hset : {A | ReachableAC (Poset.ofGraph (Graph.empty ℕ)) A} =
      {(∅ : Finset ℕ)} := by
    ext A
    rw [Set.mem_setOf_eq, Set.mem_singleton_iff]
    constructor
    · intro h
      induction h with
      | refl => exact htop
      | tail hBA hstep ih =>
          obtain ⟨v, hv, rfl⟩ := hstep
          rw [ih] at hv
          simp at hv
    · rintro rfl
      rw [show (∅ : Finset ℕ) = (Poset.ofGraph (Graph.empty ℕ)).maximal
          (Poset.ofGraph (Graph.empty ℕ)).vertices from htop.symm]
      exact Relation.ReflTransGen.refl
  rw [hset, Set.ncard_singleton]

/-- Witness for the amended C2 at the one-vertex digraph. -/
theorem C2_witness :
    ∃ pg popped,
      patternRun (Poset.ofGraph gV) natStr
          (2 ^ (Poset.ofGraph gV).vertices.card + 1) (Graph.empty (Finset ℕ))
          [(Poset.ofGraph gV).maximal (Poset.ofGraph gV).vertices] []
        = some (pg, popped) ∧
        PosetToPatternGraph (Poset.ofGraph gV) natStr = some pg ∧
        popped.Nodup ∧
        (∀ A, A ∈ popped ↔ ReachableAC (Poset.ofGraph gV) A) ∧
        (∀ A, A ∈ pg.vertices ↔ ReachableAC (Poset.ofGraph gV) A) ∧
        pg.vertices.toFinset.card =
          Set.ncard {A | ReachableAC (Poset.ofGraph gV) A} :=
  C2_pattern_run_pops gV gV_wf (by decide) (by decide) natStr

end PatternProof

/-! ### `IntervalGraph` (`intervalgraph.py`, lines 148-164) and claim C5 -/

/-- An event `[label, [start, end]]`; the float endpoints are modelled as
rationals (only order comparisons are performed on them). -/
abbrev Event := Chars × ℚ × ℚ

/-- `events[i]` (always in range where used). -/
def evAt (events : List Event) (i : ℕ) : Event := events.getD i ([], 0, 0)

/-- `IntervalGraph(events)` (lines 148-164): one labelled vertex per event,
then the double loop adding `i → j` whenever
`events[i][1][1] <= events[j][1][0] and i != j`. -/
def IntervalGraph (events : List Event) : Graph ℕ :=
  let N := events.length
  let G1 := (List.range N).foldl
    (fun G i => G.add_vertex i (evAt events i).1) (Graph.empty ℕ)
  (List.range N).foldl
    (fun G i => (List.range N).foldl
      (fun G j =>
        if (evAt events i).2.2 ≤ (evAt events j).2.1 ∧ i ≠ j
        then G.add_edge i j [] else G) G) G1

theorem ig_inner_spec (events : List Event) (i : ℕ) (l : List ℕ) :
    ∀ (G : Graph ℕ), WF G → i ∈ G.vertices → (∀ j ∈ l, j ∈ G.vertices) →
    WF (l.foldl (fun G j =>
        if (evAt events i).2.2 ≤ (evAt events j).2.1 ∧ i ≠ j
        then G.add_edge i j [] else G) G) ∧
      (l.foldl (fun G j =>
        if (evAt events i).2.2 ≤ (evAt events j).2.1 ∧ i ≠ j
        then G.add_edge i j [] else G) G).vertices = G.vertices ∧
      (l.foldl (fun G j =>
        if (evAt events i).2.2 ≤ (evAt events j).2.1 ∧ i ≠ j
        then G.add_edge i j [] else G) G).vlabel = G.vlabel ∧
      ∀ x y, Edge (l.foldl (fun G j =>
        if (evAt events i).2.2 ≤ (evAt events j).2.1 ∧ i ≠ j
        then G.add_edge i j [] else G) G) x y ↔
        (x = i ∧ y ∈ l ∧ (evAt events i).2.2 ≤ (evAt events y).2.1 ∧ i ≠ y) ∨
          Edge G x y := by
  induction l with
  | nil =>
      intro G hw hi hl
      exact ⟨hw, rfl, rfl, fun x y => by simp⟩
  | cons j js ih =>
      intro G hw hi hl
      by_cases hcond : (evAt events i).2.2 ≤ (evAt events j).2.1 ∧ i ≠ j
      · have hj : j ∈ G.vertices := hl j (by simp)
        have hstep : (if (evAt events i).2.2 ≤ (evAt events j).2.1 ∧ i ≠ j
            then G.add_edge i j [] else G) = G.add_edge i j [] := if_pos hcond
        have hv := Graph.add_edge_vertices_of_mem (g := G) ([] : Chars) hi hj
        obtain ⟨hw2, hv2, hl2, he2⟩ := ih (G.add_edge i j []) (hw.add_edge i j [])
          (by rw [hv]; exact hi) (by intro x hx; rw [hv]; exact hl x (by simp [hx]))
        rw [List.foldl_cons, hstep]
        refine ⟨hw2, by rw [hv2, hv], ?_, ?_⟩
        · rw [hl2, Graph.add_edge_vlabel_of_mems _ hi hj]
        · intro x y
          rw [he2 x y, mem_add_edge_adj_wf hw]
          constructor
          · rintro (⟨rfl, hy, hc⟩ | (⟨rfl, rfl⟩ | he))
            · exact Or.inl ⟨rfl, by simp [hy], hc⟩
            · exact Or.inl ⟨rfl, by simp, hcond⟩
            · exact Or.inr he
          · rintro (⟨rfl, hy, hc⟩ | he)
            · rcases List.mem_cons.1 hy with rfl | hy
              · exact Or.inr (Or.inl ⟨rfl, rfl⟩)
              · exact Or.inl ⟨rfl, hy, hc⟩
            · exact Or.inr (Or.inr he)
      · have hstep : (if (evAt events i).2.2 ≤ (evAt events j).2.1 ∧ i ≠ j
            then G.add_edge i j [] else G) = G := if_neg hcond
        obtain ⟨hw2, hv2, hl2, he2⟩ := ih G hw hi (fun x hx => hl x (by simp [hx]))
        rw [List.foldl_cons, hstep]
        refine ⟨hw2, hv2, hl2, ?_⟩
        intro x y
        rw [he2 x y]
        constructor
        · rintro (⟨rfl, hy, hc⟩ | he)
          · exact Or.inl ⟨rfl, by simp [hy], hc⟩
          · exact Or.inr he
        · rintro (⟨rfl, hy, hc⟩ | he)
          · rcases List.mem_cons.1 hy with rfl | hy
            · exact absurd hc hcond
            · exact Or.inl ⟨rfl, hy, hc⟩
          · exact Or.inr he

theorem ig_outer_spec (events : List Event) (l : List ℕ) (vs : List ℕ) :
    ∀ (G : Graph ℕ), WF G → (∀ j ∈ l, j ∈ G.vertices) → (∀ j ∈ vs, j ∈ G.vertices) →
    WF (l.foldl (fun G i => vs.foldl (fun G j =>
        if (evAt events i).2.2 ≤ (evAt events j).2.1 ∧ i ≠ j
        then G.add_edge i j [] else G) G) G) ∧
      (l.foldl (fun G i => vs.foldl (fun G j =>
        if (evAt events i).2.2 ≤ (evAt events j).2.1 ∧ i ≠ j
        then G.add_edge i j [] else G) G) G).vertices = G.vertices ∧
      (l.foldl (fun G i => vs.foldl (fun G j =>
        if (evAt events i).2.2 ≤ (evAt events j).2.1 ∧ i ≠ j
        then G.add_edge i j [] else G) G) G).vlabel = G.vlabel ∧
      ∀ x y, Edge (l.foldl (fun G i => vs.foldl (fun G j =>
        if (evAt events i).2.2 ≤ (evAt events j).2.1 ∧ i ≠ j
        then G.add_edge i j [] else G) G) G) x y ↔
        (x ∈ l ∧ y ∈ vs ∧ (evAt events x).2.2 ≤ (evAt events y).2.1 ∧ x ≠ y) ∨
          Edge G x y := by
  induction l with
  | nil =>
      intro G hw hl hvs
      exact ⟨hw, rfl, rfl, fun x y => by simp⟩
  | cons i is ih =>
      intro G hw hl hvs
      obtain ⟨hw1, hv1, hl1, he1⟩ := ig_inner_spec events i vs G hw (hl i (by simp)) hvs
      obtain ⟨hw2, hv2, hl2, he2⟩ := ih _ hw1 (by
          intro x hx
          rw [hv1]
          exact hl x (by simp [hx]))
        (by intro x hx; rw [hv1]; exact hvs x hx)
      rw [List.foldl_cons]
      refine ⟨hw2, by rw [hv2, hv1], by rw [hl2, hl1], ?_⟩
      intro x y
      rw [he2 x y, he1 x y]
      constructor
      · rintro (⟨hx, hy, hc⟩ | (⟨rfl, hy, hc⟩ | he))
        · exact Or.inl ⟨by simp [hx], hy, hc⟩
        · exact Or.inl ⟨by simp, hy, hc⟩
        · exact Or.inr he
      · rintro (⟨hx, hy, hc⟩ | he)
        · rcases List.mem_cons.1 hx with rfl | hx
          · exact Or.inr (Or.inl ⟨rfl, hy, hc⟩)
          · exact Or.inl ⟨hx, hy, hc⟩
        · exact Or.inr (Or.inr he)

/-- C5: for every list of events `(label, [start, end])` with `start ≤ end`,
`IntervalGraph` returns a graph with exactly one vertex per event (vertex id
= event index, vertex label = event label) and an edge `i → j` present if
and only if `end(i) ≤ start(j)` and `i ≠ j`. -/
theorem C5_interval_graph_spec (events : List Event)
    (hse : ∀ e ∈ events, e.2.1 ≤ e.2.2) :
    (∀ x, x ∈ (IntervalGraph events).vertices ↔ x < events.length) ∧
      (∀ i, i < events.length →
        (IntervalGraph events).vlabel i = (evAt events i).1) ∧
      ∀ i j, Edge (IntervalGraph events) i j ↔
        i < events.length ∧ j < events.length ∧
          (evAt events i).2.2 ≤ (evAt events j).2.1 ∧ i ≠ j := by
  have hG1 : IntervalGraph events =
      (List.range events.length).foldl
        (fun G i => (List.range events.length).foldl
          (fun G j =>
            if (evAt events i).2.2 ≤ (evAt events j).2.1 ∧ i ≠ j
            then G.add_edge i j [] else G) G)
        (vFold id (fun i => (evAt events i).1) (List.range events.length)
          (Graph.empty ℕ)) := rfl
  have hwf1 : WF (vFold id (fun i => (evAt events i).1) (List.range events.length)
      (Graph.empty ℕ)) := vFold_wf _ _ WF.empty _
  have hmem1 : ∀ x, x ∈ (vFold id (fun i => (evAt events i).1)
      (List.range events.length) (Graph.empty ℕ)).vertices ↔ x < events.length := by
    intro x
    rw [vFold_mem_vertices]
    simp [Graph.empty]
  obtain ⟨hw, hv, hlab, hedge⟩ := ig_outer_spec events (List.range events.length)
    (List.range events.length) _ hwf1
    (by intro x hx; rw [hmem1]; simpa using hx)
    (by intro x hx; rw [hmem1]; simpa using hx)
  refine ⟨?_, ?_, ?_⟩
  · intro x
    rw [hG1, hv, hmem1]
  · intro i hi
    rw [hG1, hlab]
    exact vFold_vlabel_first id (fun i => (evAt events i).1)
      (by simp [List.nodup_range]) (by simpa using hi) (by simp [Graph.empty])
  · intro i j
    rw [hG1, hedge i j]
    have hbase : ¬ Edge (vFold id (fun i => (evAt events i).1)
        (List.range events.length) (Graph.empty ℕ)) i j := by
      rw [show Edge _ i j = (j ∈ (vFold id (fun i => (evAt events i).1)
        (List.range events.length) (Graph.empty ℕ)).adj i) from rfl,
        vFold_adj _ _ WF.empty]
      simp [Graph.empty]
    simp only [List.mem_range]
    constructor
    · rintro (⟨hi, hj, hc⟩ | he)
      · exact ⟨hi, hj, hc⟩
      · exact absurd he hbase
    · rintro ⟨hi, hj, hc⟩
      exact Or.inl ⟨hi, hj, hc⟩

/-- Witness for C5 at the spec's three-event example
`[("A",[0,1]), ("B",[1,2]), ("C",[3,4])]`. -/
theorem C5_witness :
    (∀ x, x ∈ (IntervalGraph [(str "A", 0, 1), (str "B", 1, 2), (str "C", 3, 4)]).vertices ↔
      x < 3) ∧
      (∀ i, i < 3 → (IntervalGraph [(str "A", 0, 1), (str "B", 1, 2), (str "C", 3, 4)]).vlabel i =
        (evAt [(str "A", 0, 1), (str "B", 1, 2), (str "C", 3, 4)] i).1) ∧
      ∀ i j, Edge (IntervalGraph [(str "A", 0, 1), (str "B", 1, 2), (str "C", 3, 4)]) i j ↔
        i < 3 ∧ j < 3 ∧
          (evAt [(str "A", 0, 1), (str "B", 1, 2), (str "C", 3, 4)] i).2.2 ≤
            (evAt [(str "A", 0, 1), (str "B", 1, 2), (str "C", 3, 4)] j).2.1 ∧ i ≠ j :=
  C5_interval_graph_spec [(str "A", 0, 1), (str "B", 1, 2), (str "C", 3, 4)] (by decide)

/-! ### The network-spec codec (`intervalgraph.py`, lines 171-227)

Python string operations are modelled on `List Char`:
`s.split("\n")` → `splitOnNl`, `filter(bool, ·)` → `filter (!·.isEmpty)`,
`s.replace(c, " ")` → `replOne`, `s.split()` → `pyWords`,
`sep.join(·)` → `pyJoin`, `list.index` → `List.findIdx?` (raising
`ValueError`, here `unknownNodeReference`, when absent). -/

/-- `s.split("\n")`: split at every newline, keeping empty pieces
(`"".split("\n") == [""]`). -/
def splitOnNl : Chars → List Chars
  | [] => [[]]
  | c :: cs =>
      if c = '\n' then [] :: splitOnNl cs
      else
        match splitOnNl cs with
        | [] => [[c]]
        | p :: ps => (c :: p) :: ps

/-- The whitespace characters of Python `str.split()`. -/
def pyIsSpace (c : Char) : Bool :=
  c = ' ' ∨ c = '\t' ∨ c = '\n' ∨ c = '\r' ∨ c = '\x0b' ∨ c = '\x0c'

/-- Worker for `str.split()`: `acc` is the current word, reversed. -/
def pyWordsAux : Chars → Chars → List Chars
  | [], acc => if acc = [] then [] else [acc.reverse]
  | c :: cs, acc =>
      if pyIsSpace c then
        if acc = [] then pyWordsAux cs [] else acc.reverse :: pyWordsAux cs []
      else pyWordsAux cs (c :: acc)

/-- `s.split()`: split on whitespace runs, no empty words. -/
def pyWords (s : Chars) : List Chars := pyWordsAux s []

/-- `s.replace(a, " ")` for a single character. -/
def replOne (a : Char) (s : Chars) : Chars :=
  s.map (fun c => if c = a then ' ' else c)

/-- `l.replace('(',' ').replace(')',' ').replace('+',' ').replace('*',' ')`
(line 210). -/
def replSeps (s : Chars) : Chars :=
  replOne '*' (replOne '+' (replOne ')' (replOne '(' s)))

/-- `sep.join(words)`. -/
def pyJoin (sep : Chars) : List Chars → Chars
  | [] => []
  | [x] => x
  | x :: y :: ys => x ++ sep ++ pyJoin sep (y :: ys)

/-- The exceptions `getGraphFromNetworkSpec` can raise: `IndexError` from
`words[0]` / `ie[0]` on an empty sequence, and `ValueError` from
`nodelist.index(ie)` on an undeclared node reference. -/
inductive DecodeErr where
  | indexError : DecodeErr
  | unknownNodeReference : DecodeErr
deriving DecidableEq

/-- `if words[-2:] == [':', 'E']: words = words[:-2]` (lines 211-212). -/
def stripEssential (ws : List Chars) : List Chars :=
  if ws.reverse.take 2 = [str "E", str ":"] then (ws.reverse.drop 2).reverse else ws

/-- Lines 210-214 for a single line: tokenize, strip the essential marker,
take `words[0]` as the node name and `words[2:]` as the in-node tokens. -/
def parseLine (l : Chars) : Except DecodeErr (Chars × List Chars) :=
  match stripEssential (pyWords (replSeps l)) with
  | [] => .error .indexError
  | name :: rest => .ok (name, rest.drop 1)

/-- Lines 220-225 for a single in-node token: strip a leading `~` (giving a
repression edge `'r'`, otherwise activation `'a'`) and resolve the name to
its first index in `nodelist` (`list.index`, raising on absence). -/
def resolveToken (nodelist : List Chars) (ie : Chars) : Except DecodeErr (ℕ × Chars) :=
  match ie with
  | [] => .error .indexError
  | c :: cs =>
      if c = '~' then
        match nodelist.findIdx? (fun nm => decide (nm = cs)) with
        | some k => .ok (k, str "r")
        | none => .error .unknownNodeReference
      else
        match nodelist.findIdx? (fun nm => decide (nm = c :: cs)) with
        | some k => .ok (k, str "a")
        | none => .error .unknownNodeReference

/-- Lines 215-217: `for k,node in enumerate(nodelist): graph.add_vertex(k, node)`. -/
def buildVertices (nodelist : List Chars) : Graph ℕ :=
  nodelist.enum.foldl (fun h kv => h.add_vertex kv.1 kv.2) (Graph.empty ℕ)

/-- Lines 218-226: resolve every in-node token of every line and add the
corresponding edge. -/
def buildEdges (nodelist : List Chars) (innodes : List (List Chars)) :
    Except DecodeErr (Graph ℕ) :=
  innodes.enum.foldlM
    (fun h oies =>
      oies.2.foldlM
        (fun h ie => do
          let r ← resolveToken nodelist ie
          pure (h.add_edge r.1 oies.1 r.2))
        h)
    (buildVertices nodelist)

/-- Lines 215-227 given the parsed lines. -/
def buildGraph (parsed : List (Chars × List Chars)) : Except DecodeErr (Graph ℕ) :=
  buildEdges (parsed.map Prod.fst) (parsed.map Prod.snd)

/-- `getGraphFromNetworkSpec` (lines 204-227). -/
def getGraphFromNetworkSpec (network_spec : Chars) : Except DecodeErr (Graph ℕ) := do
  let eqns := (splitOnNl network_spec).filter (fun l => !l.isEmpty)
  let parsed ← eqns.mapM parseLine
  buildGraph parsed

/-- Lexicographic comparison of Python strings. -/
def charsLe : Chars → Chars → Bool
  | [], _ => true
  | _ :: _, [] => false
  | c :: cs, d :: ds => if c = d then charsLe cs ds else decide (c < d)

/-- Python tuple comparison `(i, s) <= (j, t)` for the pairs sorted by
`sort_by_list`. -/
def pairLe (a b : ℕ × Chars) : Bool :=
  if a.1 = b.1 then charsLe a.2 b.2 else decide (a.1 < b.1)

def insertPair (x : ℕ × Chars) : List (ℕ × Chars) → List (ℕ × Chars)
  | [] => [x]
  | y :: ys => if pairLe x y then x :: y :: ys else y :: insertPair x ys

/-- `sorted(...)` on a list of (index, name) tuples. -/
def sortPairs : List (ℕ × Chars) → List (ℕ × Chars)
  | [] => []
  | x :: xs => insertPair x (sortPairs xs)

/-- `sort_by_list` (lines 171-178), at the instantiation used by the codec:
`X` a list of vertex indices and `Y` the parallel list of names; both are
returned sorted by ascending `(index, name)` tuple order. -/
def sort_by_list (X : List ℕ) (Y : List Chars) : List ℕ × List Chars :=
  let sorted := sortPairs (X.zip Y)
  (sorted.map Prod.fst, sorted.map Prod.snd)

/-- `networknodenames` after the sort (lines 184-185). -/
def encNames (graph : Graph ℕ) : List Chars :=
  (sort_by_list graph.vertices (graph.vertices.map graph.vlabel)).2

/-- `graph_edges` (line 188): every `(v, a, label)` with `a` adjacent to `v`,
in the order of the Python comprehension. -/
def graphEdgesOf (graph : Graph ℕ) : List (ℕ × ℕ × Chars) :=
  graph.vertices.flatMap (fun v => (graph.adj v).map (fun a => (v, a, graph.elabel v a)))

/-- One step of `inedges[edge[1]].append((edge[0],edge[2]))` (lines 190-191);
`none` models the `IndexError` raised when the target id is out of range. -/
def distStep (acc : List (List (ℕ × Chars))) (e : ℕ × ℕ × Chars) :
    Option (List (List (ℕ × Chars))) :=
  match acc.get? e.2.1 with
  | some cur => some (acc.set e.2.1 (cur ++ [(e.1, e.2.2)]))
  | none => none

/-- One node line of the spec (lines 195-201); `none` models the
`IndexError` raised by `networknodenames[i]` on an out-of-range source id. -/
def encLine (names : List Chars) (nies : Chars × List (ℕ × Chars)) : Option Chars := do
  let actNames ← (nies.2.filter (fun ir => decide (ir.2 = str "a"))).mapM
    (fun ir => names.get? ir.1)
  let act := pyJoin (str " + ") actNames
  let act2 := if act = [] then act else str "(" ++ act ++ str ")"
  let repNames ← (nies.2.filter (fun ir => decide (ir.2 = str "r"))).mapM
    (fun ir => names.get? ir.1)
  let rep := (repNames.map (fun nm => str "(~" ++ nm ++ str ")")).flatten
  pure (nies.1 ++ str " : " ++ act2 ++ rep ++ str " : E\n")

/-- The body of `createEssentialNetworkSpecFromGraph` once the initial tuple
unpacking has succeeded (lines 184-202). -/
def encodeCore (graph : Graph ℕ) : Option Chars := do
  let names := encNames graph
  let inedges ← (graphEdgesOf graph).foldlM distStep (List.replicate names.length [])
  let lines ← (names.zip inedges).mapM (encLine names)
  pure lines.flatten

/-- `createEssentialNetworkSpecFromGraph` (lines 180-202).  The partial
Python operations are modelled by `Option`: the tuple unpacking
`networknodeindices,networknodenames = zip(*[...])` raises on a graph with
no vertices, and the list indexings `inedges[edge[1]]` /
`networknodenames[i]` raise `IndexError` when a vertex id is out of range. -/
def createEssentialNetworkSpecFromGraph (graph : Graph ℕ) : Option Chars :=
  match graph.vertices with
  | [] => none
  | _ :: _ => encodeCore graph

/-! ### Tokenization lemmas -/

theorem pyWordsAux_sep (b : Chars) :
    ∀ (a acc : Chars), pyWordsAux (a ++ ' ' :: b) acc = pyWordsAux a acc ++ pyWords b := by
  intro a
  induction a with
  | nil =>
      intro acc
      show pyWordsAux (' ' :: b) acc = pyWordsAux [] acc ++ pyWords b
      rw [pyWordsAux, pyWordsAux]
      rw [if_pos (by decide : pyIsSpace ' ' = true)]
      split
      · rfl
      · rfl
  | cons c cs ih =>
      intro acc
      show pyWordsAux (c :: (cs ++ ' ' :: b)) acc = pyWordsAux (c :: cs) acc ++ pyWords b
      rw [pyWordsAux, pyWordsAux]
      by_cases hsp : pyIsSpace c
      · rw [if_pos hsp, if_pos hsp]
        by_cases hacc : acc = ([] : Chars)
        · rw [if_pos hacc, if_pos hacc, ih]
        · rw [if_neg hacc, if_neg hacc, ih]
          rfl
      · rw [if_neg hsp, if_neg hsp, ih]

theorem pyWords_sep (a b : Chars) : pyWords (a ++ ' ' :: b) = pyWords a ++ pyWords b :=
  pyWordsAux_sep b a []

theorem pyWordsAux_token :
    ∀ (w acc : Chars), (∀ c ∈ w, ¬ (pyIsSpace c = true)) → ¬ (w = [] ∧ acc = []) →
      pyWordsAux w acc = [acc.reverse ++ w] := by
  intro w
  induction w with
  | nil =>
      intro acc hw hne
      have hacc : acc ≠ [] := fun h => hne ⟨rfl, h⟩
      rw [pyWordsAux, if_neg hacc]
      simp
  | cons c cs ih =>
      intro acc hw hne
      rw [pyWordsAux, if_neg (hw c (by simp))]
      rw [ih (c :: acc) (fun d hd => hw d (by simp [hd])) (by simp)]
      simp

theorem pyWords_token {w : Chars} (h : ∀ c ∈ w, ¬ (pyIsSpace c = true)) (hne : w ≠ []) :
    pyWords w = [w] := by
  rw [pyWords, pyWordsAux_token w [] h (fun hc => hne hc.1)]
  simp

theorem pyWordsAux_tokens (P : Char → Prop) :
    ∀ (s acc : Chars), (∀ c ∈ s, ¬ (pyIsSpace c = true) → P c) →
      (∀ c ∈ acc, P c ∧ ¬ (pyIsSpace c = true)) →
      ∀ t ∈ pyWordsAux s acc, t ≠ [] ∧ ∀ c ∈ t, P c ∧ ¬ (pyIsSpace c = true) := by
  intro s
  induction s with
  | nil =>
      intro acc hs hacc t ht
      rw [pyWordsAux] at ht
      split at ht
      · simp at ht
      · rename_i hne
        simp only [List.mem_singleton] at ht
        subst ht
        refine ⟨by simpa using hne, ?_⟩
        intro c hc
        exact hacc c (by simpa using hc)
  | cons c cs ih =>
      intro acc hs hacc t ht
      rw [pyWordsAux] at ht
      split at ht
      · split at ht
        · exact ih [] (fun d hd h => hs d (by simp [hd]) h) (by simp) t ht
        · rcases List.mem_cons.1 ht with rfl | ht
          · rename_i hne
            refine ⟨by simpa using hne, ?_⟩
            intro d hd
            exact hacc d (by simpa using hd)
          · exact ih [] (fun d hd h => hs d (by simp [hd]) h) (by simp) t ht
      · rename_i hnsp
        refine ih (c :: acc) (fun d hd h => hs d (by simp [hd]) h) ?_ t ht
        intro d hd
        rcases List.mem_cons.1 hd with rfl | hd
        · exact ⟨hs d (by simp) hnsp, hnsp⟩
        · exact hacc d hd

theorem pyWords_tokens {s : Chars} :
    ∀ t ∈ pyWords s, t ≠ [] ∧ ∀ c ∈ t, c ∈ s ∧ ¬ (pyIsSpace c = true) :=
  pyWordsAux_tokens (· ∈ s) s [] (fun c hc _ => hc) (by simp)

theorem mem_replOne {a : Char} {s : Chars} {c : Char} (h : c ∈ replOne a s) :
    c = ' ' ∨ (c ∈ s ∧ c ≠ a) := by
  rw [replOne, List.mem_map] at h
  obtain ⟨d, hd, hdc⟩ := h
  by_cases hda : d = a
  · rw [if_pos hda] at hdc
    exact Or.inl hdc.symm
  · rw [if_neg hda] at hdc
    subst hdc
    exact Or.inr ⟨hd, hda⟩

theorem mem_replSeps {s : Chars} {c : Char} (h : c ∈ replSeps s) :
    c = ' ' ∨ (c ∈ s ∧ c ≠ '(' ∧ c ≠ ')' ∧ c ≠ '+' ∧ c ≠ '*') := by
  rcases mem_replOne h with h1 | ⟨h1, hs⟩
  · exact Or.inl h1
  rcases mem_replOne h1 with h2 | ⟨h2, hp⟩
  · exact Or.inl h2
  rcases mem_replOne h2 with h3 | ⟨h3, hr⟩
  · exact Or.inl h3
  rcases mem_replOne h3 with h4 | ⟨h4, hl⟩
  · exact Or.inl h4
  · exact Or.inr ⟨h4, hl, hr, hp, hs⟩

theorem replOne_eq_self {a : Char} {s : Chars} (h : a ∉ s) : replOne a s = s := by
  rw [replOne]
  rw [show s.map (fun c => if c = a then ' ' else c) = s.map id from ?_, List.map_id]
  apply List.map_congr_left
  intro c hc
  rw [if_neg (show ¬ c = a from fun hca => h (by rw [← hca]; exact hc))]
  rfl

theorem replSeps_eq_self {s : Chars}
    (h : ∀ c ∈ s, c ≠ '(' ∧ c ≠ ')' ∧ c ≠ '+' ∧ c ≠ '*') : replSeps s = s := by
  rw [replSeps,
    replOne_eq_self (fun hc => ((h _ hc).1 rfl : False)),
    replOne_eq_self (fun hc => ((h _ hc).2.1 rfl : False)),
    replOne_eq_self (fun hc => ((h _ hc).2.2.1 rfl : False)),
    replOne_eq_self (fun hc => ((h _ hc).2.2.2 rfl : False))]

theorem replOne_append (a : Char) (s t : Chars) :
    replOne a (s ++ t) = replOne a s ++ replOne a t := List.map_append _ _ _

theorem replSeps_append (s t : Chars) :
    replSeps (s ++ t) = replSeps s ++ replSeps t := by
  rw [replSeps, replOne_append, replOne_append, replOne_append, replOne_append]
  rfl

theorem splitOnNl_no_nl {a : Chars} (ha : '\n' ∉ a) : splitOnNl a = [a] := by
  induction a with
  | nil => rfl
  | cons c cs ih =>
      rw [splitOnNl, if_neg (fun h => ha (by simp [h])),
        ih (fun h => ha (by simp [h]))]

theorem splitOnNl_sep {a : Chars} (b : Chars) (ha : '\n' ∉ a) :
    splitOnNl (a ++ '\n' :: b) = a :: splitOnNl b := by
  induction a with
  | nil =>
      show splitOnNl ('\n' :: b) = [] :: splitOnNl b
      rw [splitOnNl, if_pos rfl]
  | cons c cs ih =>
      show splitOnNl (c :: (cs ++ '\n' :: b)) = (c :: cs) :: splitOnNl b
      rw [splitOnNl, if_neg (fun h => ha (by simp [h])),
        ih (fun h => ha (by simp [h]))]

/-- Characters that survive tokenization intact: not whitespace and not one
of the separators replaced by `replSeps`. -/
def goodChar (c : Char) : Prop :=
  ¬ (pyIsSpace c = true) ∧ c ≠ '(' ∧ c ≠ ')' ∧ c ≠ '+' ∧ c ≠ '*'

instance (c : Char) : Decidable (goodChar c) := by
  unfold goodChar; infer_instance

/-- A usable node name: nonempty and made of good characters. -/
def goodName (nm : Chars) : Prop := nm ≠ [] ∧ ∀ c ∈ nm, goodChar c

theorem replSeps_good {nm : Chars} (h : ∀ c ∈ nm, goodChar c) : replSeps nm = nm :=
  replSeps_eq_self (fun c hc => (h c hc).2)

theorem pyWords_good {nm : Chars} (h : goodName nm) : pyWords nm = [nm] :=
  pyWords_token (fun c hc => (h.2 c hc).1) h.1

theorem pyWords_cons_space (x : Chars) : pyWords (' ' :: x) = pyWords x := by
  rw [pyWords, pyWordsAux, if_pos (by decide : pyIsSpace ' ' = true), if_pos rfl]
  rfl

theorem pyWords_token_sep {w : Chars} (hw : goodName w) (t : Chars) :
    pyWords (w ++ ' ' :: t) = w :: pyWords t := by
  rw [pyWords_sep, pyWords_good hw]
  rfl

theorem pyWords_join_sep :
    ∀ (as : List Chars), (∀ a ∈ as, goodName a) → as ≠ [] →
      ∀ t, pyWords (pyJoin (str "   ") as ++ ' ' :: t) = as ++ pyWords t := by
  intro as
  induction as with
  | nil => intro _ h; exact absurd rfl h
  | cons a as ih =>
      intro hgood _ t
      match as with
      | [] =>
          rw [show pyJoin (str "   ") [a] = a from rfl]
          rw [pyWords_token_sep (hgood a (by simp)) t]
          rfl
      | b :: bs =>
          rw [show pyJoin (str "   ") (a :: b :: bs) =
            a ++ str "   " ++ pyJoin (str "   ") (b :: bs) from rfl]
          have hassoc : a ++ str "   " ++ pyJoin (str "   ") (b :: bs) ++ ' ' :: t =
              a ++ ' ' :: (' ' :: ' ' :: (pyJoin (str "   ") (b :: bs) ++ ' ' :: t)) := by
            simp [str]
          rw [hassoc, pyWords_token_sep (hgood a (by simp)),
            pyWords_cons_space, pyWords_cons_space,
            ih (fun x hx => hgood x (by simp [hx])) (by simp) t]
          rfl

theorem pyWords_reps :
    ∀ (rs : List Chars), (∀ r ∈ rs, goodName r) →
      ∀ t, pyWords ((rs.map (fun r => str " ~" ++ r ++ str " ")).flatten ++ t) =
        rs.map (fun r => '~' :: r) ++ pyWords t := by
  intro rs
  induction rs with
  | nil => intro _ t; simp
  | cons r rs ih =>
      intro hgood t
      have hassoc : ((r :: rs).map (fun r => str " ~" ++ r ++ str " ")).flatten ++ t =
          ' ' :: (('~' :: r) ++ ' ' ::
            ((rs.map (fun r => str " ~" ++ r ++ str " ")).flatten ++ t)) := by
        simp [str]
      rw [hassoc, pyWords_cons_space]
      have hgr : goodName ('~' :: r) := by
        refine ⟨by simp, ?_⟩
        intro c hc
        rcases List.mem_cons.1 hc with rfl | hc
        · decide
        · exact (hgood r (by simp)).2 c hc
      rw [pyWords_token_sep hgr, ih (fun x hx => hgood x (by simp [hx])) t]
      rfl

theorem pyWords_colonE : pyWords (str " : E") = [str ":", str "E"] := rfl

/-- Tokenization of an encoder-produced line body: with good names
throughout, the tokens are exactly
`[name, ":"] ++ activators ++ map (~·) repressors ++ [":", "E"]`. -/
theorem encode_line_tokens (nm : Chars) (as rs : List Chars)
    (hnm : goodName nm) (has : ∀ a ∈ as, goodName a) (hrs : ∀ r ∈ rs, goodName r) :
    pyWords (replSeps (nm ++ str " : " ++
        (if pyJoin (str " + ") as = [] then pyJoin (str " + ") as
          else str "(" ++ pyJoin (str " + ") as ++ str ")") ++
        (rs.map (fun r => str "(~" ++ r ++ str ")")).flatten ++ str " : E")) =
      [nm, str ":"] ++ as ++ rs.map (fun r => '~' :: r) ++ [str ":", str "E"] := by
  have hjoin_ne : as ≠ [] → pyJoin (str " + ") as ≠ [] := by
    intro hne
    match as with
    | [a] =>
        have := (has a (by simp)).1
        simpa [pyJoin]
    | a :: b :: bs =>
        have := (has a (by simp)).1
        rw [show pyJoin (str " + ") (a :: b :: bs) =
          a ++ str " + " ++ pyJoin (str " + ") (b :: bs) from rfl]
        simp [this]
  have hjoin_repl : ∀ (l : List Chars), (∀ a ∈ l, goodName a) →
      replSeps (pyJoin (str " + ") l) = pyJoin (str "   ") l := by
    intro l
    induction l with
    | nil => intro _; rfl
    | cons a l ih =>
        intro hl
        match l with
        | [] =>
            show replSeps a = a
            exact replSeps_good (hl a (by simp)).2
        | b :: bs =>
            rw [show pyJoin (str " + ") (a :: b :: bs) =
                a ++ str " + " ++ pyJoin (str " + ") (b :: bs) from rfl,
              show pyJoin (str "   ") (a :: b :: bs) =
                a ++ str "   " ++ pyJoin (str "   ") (b :: bs) from rfl,
              replSeps_append, replSeps_append,
              replSeps_good (hl a (by simp)).2,
              ih (fun x hx => hl x (by simp [hx]))]
            rfl
  have hrep_repl : ∀ (l : List Chars), (∀ r ∈ l, goodName r) →
      replSeps ((l.map (fun r => str "(~" ++ r ++ str ")")).flatten) =
        (l.map (fun r => str " ~" ++ r ++ str " ")).flatten := by
    intro l
    induction l with
    | nil => intro _; rfl
    | cons r l ih =>
        intro hl
        rw [List.map_cons, List.map_cons, List.flatten_cons, List.flatten_cons,
          replSeps_append, replSeps_append, replSeps_append,
          replSeps_good (hl r (by simp)).2, ih (fun x hx => hl x (by simp [hx]))]
        rfl
  rw [replSeps_append, replSeps_append, replSeps_append, replSeps_append,
    replSeps_good hnm.2,
    show replSeps (str " : ") = str " : " from rfl,
    show replSeps (str " : E") = str " : E" from rfl,
    hrep_repl rs hrs]
  by_cases hase : as = []
  · subst hase
    rw [show replSeps (if pyJoin (str " + ") ([] : List Chars) = []
        then pyJoin (str " + ") ([] : List Chars)
        else str "(" ++ pyJoin (str " + ") ([] : List Chars) ++ str ")") = [] from rfl]
    rw [show nm ++ str " : " ++ ([] : Chars) ++
        (List.map (fun r => str " ~" ++ r ++ str " ") rs).flatten ++ str " : E" =
      nm ++ ' ' :: (str ":" ++ ' ' ::
        ((List.map (fun r => str " ~" ++ r ++ str " ") rs).flatten ++ str " : E")) from by
      simp [str]]
    rw [pyWords_token_sep hnm, pyWords_sep, pyWords_good (by exact ⟨by simp [str], by decide⟩),
      pyWords_reps rs hrs, pyWords_colonE]
    simp
  · rw [if_neg (hjoin_ne hase), replSeps_append, replSeps_append,
      hjoin_repl as has,
      show replSeps (str "(") = str " " from rfl,
      show replSeps (str ")") = str " " from rfl]
    rw [show nm ++ str " : " ++ (str " " ++ pyJoin (str "   ") as ++ str " ") ++
        (List.map (fun r => str " ~" ++ r ++ str " ") rs).flatten ++ str " : E" =
      nm ++ ' ' :: (str ":" ++ ' ' :: ' ' :: (pyJoin (str "   ") as ++ ' ' ::
        ((List.map (fun r => str " ~" ++ r ++ str " ") rs).flatten ++ str " : E"))) from by
      simp [str]]
    rw [pyWords_token_sep hnm, pyWords_sep, pyWords_good (by exact ⟨by simp [str], by decide⟩),
      pyWords_cons_space, pyWords_join_sep as has hase, pyWords_reps rs hrs, pyWords_colonE]
    simp

/-! ### Monadic fold and map helpers -/

theorem mapM_except_mem {α β ε : Type} (f : α → Except ε β) :
    ∀ {l : List α} {r : List β}, l.mapM f = .ok r → ∀ b ∈ r, ∃ a ∈ l, f a = .ok b := by
  intro l
  induction l with
  | nil =>
      intro r hr b hb
      rw [List.mapM_nil] at hr
      cases hr
      simp at hb
  | cons a l ih =>
      intro r hr b hb
      rw [List.mapM_cons] at hr
      cases hfa : f a with
      | error e => rw [hfa] at hr; exact Except.noConfusion hr
      | ok b1 =>
          rw [hfa] at hr
          cases hml : l.mapM f with
          | error e =>
              rw [show (Except.ok b1 >>= fun b => l.mapM f >>= fun bs =>
                pure (b :: bs) : Except ε (List β)) = l.mapM f >>= fun bs =>
                pure (b1 :: bs) from rfl, hml] at hr
              exact Except.noConfusion hr
          | ok bs =>
              rw [show (Except.ok b1 >>= fun b => l.mapM f >>= fun bs =>
                pure (b :: bs) : Except ε (List β)) = l.mapM f >>= fun bs =>
                pure (b1 :: bs) from rfl, hml] at hr
              cases hr
              rcases List.mem_cons.1 hb with rfl | hb
              · exact ⟨a, by simp, hfa⟩
              · obtain ⟨a2, ha2, hfa2⟩ := ih hml b hb
                exact ⟨a2, by simp [ha2], hfa2⟩

theorem mapM_except_error {α β ε : Type} (f : α → Except ε β) :
    ∀ {l : List α} {e : ε}, l.mapM f = .error e → ∃ a ∈ l, f a = .error e := by
  intro l
  induction l with
  | nil =>
      intro e he
      rw [List.mapM_nil] at he
      exact Except.noConfusion he
  | cons a l ih =>
      intro e he
      rw [List.mapM_cons] at he
      cases hfa : f a with
      | error e1 =>
          rw [hfa] at he
          cases he
          exact ⟨a, by simp, hfa⟩
      | ok b1 =>
          rw [hfa] at he
          cases hml : l.mapM f with
          | error e1 =>
              rw [show (Except.ok b1 >>= fun b => l.mapM f >>= fun bs =>
                pure (b :: bs) : Except ε (List β)) = l.mapM f >>= fun bs =>
                pure (b1 :: bs) from rfl, hml] at he
              cases he
              obtain ⟨a2, ha2, hfa2⟩ := ih hml
              exact ⟨a2, by simp [ha2], hfa2⟩
          | ok bs =>
              rw [show (Except.ok b1 >>= fun b => l.mapM f >>= fun bs =>
                pure (b :: bs) : Except ε (List β)) = l.mapM f >>= fun bs =>
                pure (b1 :: bs) from rfl, hml] at he
              exact Except.noConfusion he

theorem mapM_except_of_forall {α β ε : Type} (f : α → Except ε β) (g : α → β) :
    ∀ {l : List α}, (∀ a ∈ l, f a = .ok (g a)) → l.mapM f = .ok (l.map g) := by
  intro l
  induction l with
  | nil => intro _; rw [List.mapM_nil]; rfl
  | cons a l ih =>
      intro hl
      rw [List.mapM_cons, hl a (by simp),
        show (Except.ok (g a) >>= fun b => l.mapM f >>= fun bs =>
          pure (b :: bs) : Except ε (List β)) = l.mapM f >>= fun bs =>
          pure (g a :: bs) from rfl,
        ih (fun b hb => hl b (by simp [hb]))]
      rfl

theorem mapM_option_mem {α β : Type} (f : α → Option β) :
    ∀ {l : List α} {r : List β}, l.mapM f = some r → ∀ b ∈ r, ∃ a ∈ l, f a = some b := by
  intro l
  induction l with
  | nil =>
      intro r hr b hb
      rw [List.mapM_nil] at hr
      cases hr
      simp at hb
  | cons a l ih =>
      intro r hr b hb
      rw [List.mapM_cons] at hr
      cases hfa : f a with
      | none => rw [hfa] at hr; exact Option.noConfusion hr
      | some b1 =>
          rw [hfa] at hr
          cases hml : l.mapM f with
          | none =>
              rw [show (some b1 >>= fun b => l.mapM f >>= fun bs =>
                pure (b :: bs) : Option (List β)) = l.mapM f >>= fun bs =>
                pure (b1 :: bs) from rfl, hml] at hr
              exact Option.noConfusion hr
          | some bs =>
              rw [show (some b1 >>= fun b => l.mapM f >>= fun bs =>
                pure (b :: bs) : Option (List β)) = l.mapM f >>= fun bs =>
                pure (b1 :: bs) from rfl, hml] at hr
              cases hr
              rcases List.mem_cons.1 hb with rfl | hb
              · exact ⟨a, by simp, hfa⟩
              · obtain ⟨a2, ha2, hfa2⟩ := ih hml b hb
                exact ⟨a2, by simp [ha2], hfa2⟩

theorem mapM_option_of_forall {α β : Type} (f : α → Option β) (g : α → β) :
    ∀ {l : List α}, (∀ a ∈ l, f a = some (g a)) → l.mapM f = some (l.map g) := by
  intro l
  induction l with
  | nil => intro _; rw [List.mapM_nil]; rfl
  | cons a l ih =>
      intro hl
      rw [List.mapM_cons, hl a (by simp),
        show (some (g a) >>= fun b => l.mapM f >>= fun bs =>
          pure (b :: bs) : Option (List β)) = l.mapM f >>= fun bs =>
          pure (g a :: bs) from rfl,
        ih (fun b hb => hl b (by simp [hb]))]
      rfl

/-! ### `list.index` facts -/

theorem findIdx?_some_spec {α : Type} (p : α → Bool) (d : α) :
    ∀ (l : List α) (i k : ℕ), l.findIdx? p i = some k →
      i ≤ k ∧ k - i < l.length ∧ p (l.getD (k - i) d) = true := by
  intro l
  induction l with
  | nil => intro i k h; exact Option.noConfusion h
  | cons a l ih =>
      intro i k h
      rw [List.findIdx?_cons] at h
      by_cases hpa : p a = true
      · rw [if_pos hpa] at h
        cases h
        exact ⟨le_refl _, by simp, by simpa using hpa⟩
      · rw [if_neg hpa] at h
        obtain ⟨hik, hlen, hp⟩ := ih (i + 1) k h
        refine ⟨by omega, by simp; omega, ?_⟩
        rw [show k - i = (k - (i + 1)) + 1 from by omega]
        exact hp

theorem findIdx?_none_spec {α : Type} (p : α → Bool) :
    ∀ (l : List α) (i : ℕ), l.findIdx? p i = none → ∀ a ∈ l, ¬ p a = true := by
  intro l
  induction l with
  | nil => intro i _ a ha; simp at ha
  | cons b l ih =>
      intro i h a ha
      rw [List.findIdx?_cons] at h
      by_cases hpb : p b = true
      · rw [if_pos hpb] at h; exact Option.noConfusion h
      · rw [if_neg hpb] at h
        rcases List.mem_cons.1 ha with rfl | ha
        · exact hpb
        · exact ih (i + 1) h a ha

/-! ### `resolveToken` facts -/

/-- The node name a token refers to: the token itself, or the token with a
single leading `~` stripped (lines 220-222). -/
def refName : Chars → Chars
  | [] => []
  | c :: cs => if c = '~' then cs else c :: cs

theorem resolveToken_ok_spec {nl : List Chars} {ie : Chars} {k : ℕ} {reg : Chars}
    (h : resolveToken nl ie = .ok (k, reg)) :
    nl.findIdx? (fun nm => decide (nm = refName ie)) = some k ∧
      ((reg = str "a" ∧ refName ie = ie ∧ ¬ ie.head? = some '~') ∨ reg = str "r") := by
  match ie with
  | [] => exact Except.noConfusion h
  | c :: cs =>
      rw [resolveToken] at h
      by_cases hc : c = '~'
      · rw [if_pos hc] at h
        cases hf : nl.findIdx? (fun nm => decide (nm = cs)) with
        | none => rw [hf] at h; exact Except.noConfusion h
        | some j =>
            rw [hf] at h
            cases h
            rw [refName, if_pos hc]
            exact ⟨hf, Or.inr rfl⟩
      · rw [if_neg hc] at h
        cases hf : nl.findIdx? (fun nm => decide (nm = c :: cs)) with
        | none => rw [hf] at h; exact Except.noConfusion h
        | some j =>
            rw [hf] at h
            cases h
            rw [refName, if_neg hc]
            refine ⟨hf, Or.inl ⟨rfl, rfl, ?_⟩⟩
            simp only [List.head?_cons, Option.some.injEq]
            exact hc

theorem resolveToken_error_spec {nl : List Chars} {ie : Chars} {e : DecodeErr}
    (h : resolveToken nl ie = .error e) :
    (ie = [] ∧ e = .indexError) ∨
      (e = .unknownNodeReference ∧ ∀ nm ∈ nl, nm ≠ refName ie) := by
  match ie with
  | [] =>
      rw [resolveToken] at h
      cases h
      exact Or.inl ⟨rfl, rfl⟩
  | c :: cs =>
      rw [resolveToken] at h
      by_cases hc : c = '~'
      · rw [if_pos hc] at h
        cases hf : nl.findIdx? (fun nm => decide (nm = cs)) with
        | none =>
            rw [hf] at h
            cases h
            refine Or.inr ⟨rfl, ?_⟩
            intro nm hnm
            have := findIdx?_none_spec _ nl 0 hf nm hnm
            rw [refName, if_pos hc]
            simpa using this
        | some j => rw [hf] at h; exact Except.noConfusion h
      · rw [if_neg hc] at h
        cases hf : nl.findIdx? (fun nm => decide (nm = c :: cs)) with
        | none =>
            rw [hf] at h
            cases h
            refine Or.inr ⟨rfl, ?_⟩
            intro nm hnm
            have := findIdx?_none_spec _ nl 0 hf nm hnm
            rw [refName, if_neg hc]
            simpa using this
        | some j => rw [hf] at h; exact Except.noConfusion h

theorem resolveToken_ok_act {nl : List Chars} {nm : Chars} {k : ℕ}
    (hne : nm ≠ []) (hh : ¬ nm.head? = some '~')
    (hf : nl.findIdx? (fun x => decide (x = nm)) = some k) :
    resolveToken nl nm = .ok (k, str "a") := by
  match nm with
  | [] => exact absurd rfl hne
  | c :: cs =>
      have hc : ¬ c = '~' := by
        intro h
        exact hh (by simp [h])
      rw [resolveToken, if_neg hc, hf]

theorem resolveToken_ok_rep {nl : List Chars} {nm : Chars} {k : ℕ}
    (hf : nl.findIdx? (fun x => decide (x = nm)) = some k) :
    resolveToken nl ('~' :: nm) = .ok (k, str "r") := by
  rw [resolveToken, if_pos rfl, hf]

/-! ### `parseLine` facts -/

theorem stripEssential_subset {ws : List Chars} : ∀ w ∈ stripEssential ws, w ∈ ws := by
  intro w hw
  rw [stripEssential] at hw
  split at hw
  · have := List.mem_reverse.2 hw
    rw [List.reverse_reverse] at this
    exact List.mem_reverse.1 (List.mem_of_mem_drop this)
  · exact hw

theorem stripEssential_append (ws : List Chars) :
    stripEssential (ws ++ [str ":", str "E"]) = ws := by
  rw [stripEssential, if_pos (by simp)]
  simp

theorem replSeps_tokens_good {l : Chars} : ∀ t ∈ pyWords (replSeps l), goodName t := by
  intro t ht
  obtain ⟨hne, hchars⟩ := pyWords_tokens t ht
  refine ⟨hne, ?_⟩
  intro c hc
  obtain ⟨hmem, hnsp⟩ := hchars c hc
  rcases mem_replSeps hmem with rfl | ⟨_, h1, h2, h3, h4⟩
  · exact absurd (by decide) hnsp
  · exact ⟨hnsp, h1, h2, h3, h4⟩

theorem parseLine_good {l nm : Chars} {ies : List Chars}
    (h : parseLine l = .ok (nm, ies)) : goodName nm ∧ ∀ ie ∈ ies, goodName ie := by
  rw [parseLine] at h
  cases hs : stripEssential (pyWords (replSeps l)) with
  | nil => rw [hs] at h; exact Except.noConfusion h
  | cons name rest =>
      rw [hs] at h
      cases h
      constructor
      · exact replSeps_tokens_good nm (stripEssential_subset nm (by rw [hs]; simp))
      · intro ie hie
        refine replSeps_tokens_good (l := l) ie ?_
        apply stripEssential_subset
        rw [hs]
        exact List.mem_cons_of_mem _ (List.mem_of_mem_drop hie)

/-! ### `buildVertices` facts -/

theorem vFold_vertices_eq {A : Type} (vid : A → V) (vlab : A → Chars) :
    ∀ (l : List A) (h0 : Graph V), (∀ a ∈ l, vid a ∉ h0.vertices) →
      (l.map vid).Nodup →
      (vFold vid vlab l h0).vertices = (l.map vid).reverse ++ h0.vertices := by
  intro l
  induction l with
  | nil => intro h0 _ _; simp [vFold]
  | cons a l ih =>
      intro h0 hfresh hnd
      rw [List.map_cons, List.nodup_cons] at hnd
      have hva : (h0.add_vertex (vid a) (vlab a)).vertices = vid a :: h0.vertices := by
        rw [Graph.add_vertex, if_neg (hfresh a (by simp))]
      show (vFold vid vlab l (h0.add_vertex (vid a) (vlab a))).vertices = _
      rw [ih (h0.add_vertex (vid a) (vlab a)) ?_ hnd.2, hva]
      · simp
      · intro b hb
        rw [hva]
        simp only [List.mem_cons, not_or]
        refine ⟨?_, hfresh b (by simp [hb])⟩
        intro h
        exact hnd.1 (h ▸ List.mem_map_of_mem vid hb)

theorem buildVertices_wf (nl : List Chars) : WF (buildVertices nl) :=
  vFold_wf Prod.fst Prod.snd WF.empty nl.enum

theorem buildVertices_vertices (nl : List Chars) :
    (buildVertices nl).vertices = (List.range nl.length).reverse := by
  show (vFold Prod.fst Prod.snd nl.enum (Graph.empty ℕ)).vertices = _
  rw [vFold_vertices_eq Prod.fst Prod.snd nl.enum (Graph.empty ℕ)
    (by intro a _; simp [Graph.empty]) (by rw [List.enum_map_fst]; exact List.nodup_range _)]
  rw [List.enum_map_fst]
  simp [Graph.empty]

theorem buildVertices_mem (nl : List Chars) (x : ℕ) :
    x ∈ (buildVertices nl).vertices ↔ x < nl.length := by
  rw [buildVertices_vertices]
  simp

theorem buildVertices_adj (nl : List Chars) :
    (buildVertices nl).adj = fun _ => [] :=
  vFold_adj Prod.fst Prod.snd WF.empty nl.enum

theorem buildVertices_elabel (nl : List Chars) (x y : ℕ) :
    (buildVertices nl).elabel x y = [] :=
  vFold_elabel Prod.fst Prod.snd nl.enum (fun _ _ => rfl) x y

theorem buildVertices_vlabel {nl : List Chars} {k : ℕ} (hk : k < nl.length) :
    (buildVertices nl).vlabel k = nl.getD k [] := by
  have hk2 : k < nl.enum.length := by simpa [List.enum_length] using hk
  have ha : nl.enum.get ⟨k, hk2⟩ = (k, nl[k]) := by
    rw [List.get_eq_getElem]
    exact List.getElem_enum nl k hk2
  have hmem : ((k, nl[k]) : ℕ × Chars) ∈ nl.enum := ha ▸ List.get_mem nl.enum k hk2
  have hnd : (nl.enum.map Prod.fst).Nodup := by
    rw [List.enum_map_fst]
    exact List.nodup_range _
  have hv := vFold_vlabel_first Prod.fst Prod.snd hnd hmem
    (show ((k, nl[k]) : ℕ × Chars).1 ∉ (Graph.empty ℕ).vertices from by simp [Graph.empty])
  show (vFold Prod.fst Prod.snd nl.enum (Graph.empty ℕ)).vlabel k = nl.getD k []
  rw [List.getD_eq_getElem nl [] hk]
  exact hv

/-! ### `buildEdges` as a pure fold over resolved triples -/

def trSrc (e : ℕ × ℕ × Chars) : ℕ := e.1

def trDst (e : ℕ × ℕ × Chars) : ℕ := e.2.1

def trLbl (e : ℕ × ℕ × Chars) : Chars := e.2.2

/-- Resolution of all tokens of one line into `(source, target, label)`
triples. -/
def lineTriples (nl : List Chars) (t : ℕ) (ies : List Chars) :
    Except DecodeErr (List (ℕ × ℕ × Chars)) :=
  ies.mapM (fun ie => (resolveToken nl ie).map (fun r => (r.1, t, r.2)))

/-- Resolution of all tokens of all enumerated lines. -/
def resolveAll (nl : List Chars) (l : List (ℕ × List Chars)) :
    Except DecodeErr (List (List (ℕ × ℕ × Chars))) :=
  l.mapM (fun oies => lineTriples nl oies.1 oies.2)

theorem innerFold_eq (nl : List Chars) (t : ℕ) :
    ∀ (ies : List Chars) (h0 : Graph ℕ),
      ies.foldlM (fun h ie => do
          let r ← resolveToken nl ie
          pure (h.add_edge r.1 t r.2)) h0 =
        match lineTriples nl t ies with
        | .ok es => .ok (eFold trSrc trDst trLbl es h0)
        | .error e => .error e := by
  intro ies
  induction ies with
  | nil =>
      intro h0
      rw [show lineTriples nl t [] = .ok [] from rfl]
      rfl
  | cons ie ies ih =>
      intro h0
      have hL : (ie :: ies).foldlM (fun h ie => do
            let r ← resolveToken nl ie
            pure (h.add_edge r.1 t r.2)) h0 =
          (do let r ← resolveToken nl ie
              pure (h0.add_edge r.1 t r.2)) >>= fun h1 => ies.foldlM (fun h ie => do
            let r ← resolveToken nl ie
            pure (h.add_edge r.1 t r.2)) h1 := rfl
      rw [hL, lineTriples, List.mapM_cons]
      cases hres : resolveToken nl ie with
      | error e => rfl
      | ok r =>
          refine (ih (h0.add_edge r.1 t r.2)).trans ?_
          rw [show lineTriples nl t ies =
            ies.mapM (fun ie => (resolveToken nl ie).map (fun r => (r.1, t, r.2))) from rfl]
          cases hrest : ies.mapM (fun ie => (resolveToken nl ie).map (fun r => (r.1, t, r.2))) with
          | error e => rfl
          | ok es => rfl

theorem outerFold_eq (nl : List Chars) :
    ∀ (l : List (ℕ × List Chars)) (h0 : Graph ℕ),
      l.foldlM (fun h oies => oies.2.foldlM (fun h ie => do
          let r ← resolveToken nl ie
          pure (h.add_edge r.1 oies.1 r.2)) h) h0 =
        match resolveAll nl l with
        | .ok ess => .ok (eFold trSrc trDst trLbl ess.flatten h0)
        | .error e => .error e := by
  intro l
  induction l with
  | nil =>
      intro h0
      rw [show resolveAll nl [] = .ok [] from rfl]
      rfl
  | cons oies l ih =>
      intro h0
      have hL : (oies :: l).foldlM (fun h oies => oies.2.foldlM (fun h ie => do
            let r ← resolveToken nl ie
            pure (h.add_edge r.1 oies.1 r.2)) h) h0 =
          (oies.2.foldlM (fun h ie => do
            let r ← resolveToken nl ie
            pure (h.add_edge r.1 oies.1 r.2)) h0) >>= fun h1 =>
          l.foldlM (fun h oies => oies.2.foldlM (fun h ie => do
            let r ← resolveToken nl ie
            pure (h.add_edge r.1 oies.1 r.2)) h) h1 := rfl
      rw [hL, resolveAll, List.mapM_cons]
      rw [innerFold_eq nl oies.1 oies.2 h0]
      cases hline : lineTriples nl oies.1 oies.2 with
      | error e => rfl
      | ok es =>
          refine (ih (eFold trSrc trDst trLbl es h0)).trans ?_
          rw [show resolveAll nl l = l.mapM (fun oies => lineTriples nl oies.1 oies.2) from rfl]
          cases hrest : l.mapM (fun oies => lineTriples nl oies.1 oies.2) with
          | error e => rfl
          | ok ess =>
              show (Except.ok (eFold trSrc trDst trLbl ess.flatten
                  (eFold trSrc trDst trLbl es h0)) : Except DecodeErr (Graph ℕ)) =
                Except.ok (eFold trSrc trDst trLbl ((es :: ess).flatten) h0)
              exact congrArg Except.ok (List.foldl_append _ _ _ _).symm

theorem buildEdges_eq (nl : List Chars) (innodes : List (List Chars)) :
    buildEdges nl innodes =
      match resolveAll nl innodes.enum with
      | .ok ess => .ok (eFold trSrc trDst trLbl ess.flatten (buildVertices nl))
      | .error e => .error e :=
  outerFold_eq nl innodes.enum (buildVertices nl)

theorem mapM_except_ok_forall {α β ε : Type} (f : α → Except ε β) :
    ∀ {l : List α} {r : List β}, l.mapM f = .ok r → ∀ a ∈ l, ∃ b, f a = .ok b := by
  intro l
  induction l with
  | nil => intro r _ a ha; simp at ha
  | cons a l ih =>
      intro r hr b hb
      rw [List.mapM_cons] at hr
      cases hfa : f a with
      | error e => rw [hfa] at hr; exact Except.noConfusion hr
      | ok b1 =>
          rw [hfa] at hr
          cases hml : l.mapM f with
          | error e =>
              rw [show (Except.ok b1 >>= fun b => l.mapM f >>= fun bs =>
                pure (b :: bs) : Except ε (List β)) = l.mapM f >>= fun bs =>
                pure (b1 :: bs) from rfl, hml] at hr
              exact Except.noConfusion hr
          | ok bs =>
              rcases List.mem_cons.1 hb with rfl | hb
              · exact ⟨b1, hfa⟩
              · exact ih hml b hb

theorem mem_enum_of_mem {α : Type} {a : α} {l : List α} (h : a ∈ l) :
    ∃ i, (i, a) ∈ l.enum := by
  obtain ⟨i, hi, hg⟩ := List.getElem_of_mem h
  have hi2 : i < l.enum.length := by simpa [List.enum_length] using hi
  have ha : l.enum.get ⟨i, hi2⟩ = (i, l[i]) := by
    rw [List.get_eq_getElem]
    exact List.getElem_enum l i hi2
  refine ⟨i, ?_⟩
  rw [← hg, ← ha]
  exact List.get_mem l.enum i hi2

theorem decode_eq (text : Chars) :
    getGraphFromNetworkSpec text =
      ((splitOnNl text).filter (fun l => !l.isEmpty)).mapM parseLine >>= buildGraph := rfl

theorem resolveAll_ok_mem {nl : List Chars} {l : List (ℕ × List Chars)}
    {ess : List (List (ℕ × ℕ × Chars))} (h : resolveAll nl l = .ok ess) :
    ∀ oies ∈ l, ∀ ie ∈ oies.2, ∃ r, resolveToken nl ie = .ok r := by
  intro oies hoies ie hie
  obtain ⟨es, hes⟩ := mapM_except_ok_forall _ h oies hoies
  obtain ⟨b, hb⟩ := mapM_except_ok_forall _ hes ie hie
  cases hres : resolveToken nl ie with
  | error e => rw [hres] at hb; exact Except.noConfusion hb
  | ok r => exact ⟨r, rfl⟩

theorem resolveAll_error {nl : List Chars} {l : List (ℕ × List Chars)} {e : DecodeErr}
    (hne : ∀ oies ∈ l, ∀ ie ∈ oies.2, ie ≠ []) (h : resolveAll nl l = .error e) :
    e = .unknownNodeReference := by
  obtain ⟨oies, hoies, hline⟩ := mapM_except_error _ h
  obtain ⟨ie, hie, hres⟩ := mapM_except_error _ hline
  cases hrt : resolveToken nl ie with
  | ok r => rw [hrt] at hres; exact Except.noConfusion hres
  | error e1 =>
      rw [hrt] at hres
      cases hres
      rcases resolveToken_error_spec hrt with ⟨hnil, _⟩ | ⟨he, _⟩
      · exact absurd hnil (hne oies hoies ie hie)
      · exact he

/-- C6: when the parsing phase succeeds but some in-node token of some line
refers (after stripping a leading `~`) to a name that no line declared,
`getGraphFromNetworkSpec` fails with `unknownNodeReference` and returns no
graph. -/
theorem C6_unknown_node_reference (text : Chars) (parsed : List (Chars × List Chars))
    (hp : ((splitOnNl text).filter (fun l => !l.isEmpty)).mapM parseLine = .ok parsed)
    (hbad : ∃ p ∈ parsed, ∃ ie ∈ p.2, refName ie ∉ parsed.map Prod.fst) :
    getGraphFromNetworkSpec text = .error .unknownNodeReference := by
  have hdq : getGraphFromNetworkSpec text = buildGraph parsed := by
    rw [decode_eq, hp]
    rfl
  rw [hdq, show buildGraph parsed =
    buildEdges (parsed.map Prod.fst) (parsed.map Prod.snd) from rfl, buildEdges_eq]
  have hgood : ∀ oies ∈ (parsed.map Prod.snd).enum, ∀ ie ∈ oies.2, ie ≠ [] := by
    intro oies hoies ie hie
    have hsnd : oies.2 ∈ parsed.map Prod.snd := List.snd_mem_of_mem_enum hoies
    obtain ⟨p, hpmem, hpeq⟩ := List.mem_map.1 hsnd
    obtain ⟨line, _, hline⟩ := mapM_except_mem parseLine hp p hpmem
    obtain ⟨_, hies⟩ := parseLine_good
      (show parseLine line = .ok (p.1, p.2) from by rw [hline])
    exact (hies ie (by rw [hpeq]; exact hie)).1
  cases hra : resolveAll (parsed.map Prod.fst) (parsed.map Prod.snd).enum with
  | error e => rw [resolveAll_error hgood hra]
  | ok ess =>
      exfalso
      obtain ⟨p, hpmem, ie, hie, hnot⟩ := hbad
      obtain ⟨t, ht⟩ := mem_enum_of_mem (List.mem_map_of_mem Prod.snd hpmem)
      obtain ⟨r, hr⟩ := resolveAll_ok_mem hra (t, p.2) ht ie hie
      obtain ⟨k, reg⟩ := r
      obtain ⟨hf, _⟩ := resolveToken_ok_spec hr
      obtain ⟨_, hlt, hpk⟩ :=
        findIdx?_some_spec (fun nm => decide (nm = refName ie)) [] _ 0 _ hf
      have hk0 : k - 0 = k := by omega
      rw [hk0] at hlt hpk
      have heq : (parsed.map Prod.fst).getD k [] = refName ie := of_decide_eq_true hpk
      apply hnot
      rw [← heq, List.getD_eq_getElem _ [] hlt]
      exact List.getElem_mem hlt

theorem C6_witness :
    ((splitOnNl (str "X : (~Y)\n")).filter (fun l => !l.isEmpty)).mapM parseLine =
        .ok [(str "X", [str "~Y"])] ∧
      (∃ p ∈ [(str "X", [str "~Y"])], ∃ ie ∈ p.2,
        refName ie ∉ [(str "X", [str "~Y"])].map Prod.fst) ∧
      getGraphFromNetworkSpec (str "X : (~Y)\n") = .error .unknownNodeReference :=
  ⟨rfl, ⟨(str "X", [str "~Y"]), by simp, str "~Y", by simp, by decide⟩,
    C6_unknown_node_reference (str "X : (~Y)\n") [(str "X", [str "~Y"])] rfl
      ⟨(str "X", [str "~Y"]), by simp, str "~Y", by simp, by decide⟩⟩

/-- C7 counterexample: the empty network spec decodes without error to the
empty graph, and the empty event list yields the empty graph; neither
operation surfaces any error. -/
theorem C7_counterexample :
    getGraphFromNetworkSpec [] = .ok (Graph.empty ℕ) ∧
      IntervalGraph [] = Graph.empty ℕ := ⟨rfl, rfl⟩

/-- C7 (amended): decoding the empty network specification silently returns
the empty graph (never an error), and building an interval graph from the
empty event list silently returns the empty (vertex-free) graph; no
empty-input error exists in the code. -/
theorem C7_empty_inputs_silent :
    (∀ e : DecodeErr, getGraphFromNetworkSpec [] ≠ .error e) ∧
      (getGraphFromNetworkSpec []).isOk = true ∧
      (IntervalGraph []).vertices = [] := by
  refine ⟨?_, rfl, rfl⟩
  intro e h
  rw [show getGraphFromNetworkSpec [] = .ok (Graph.empty ℕ) from rfl] at h
  exact Except.noConfusion h

/-! ### Encoder facts and claim C9 -/

theorem encode_none_of_nil {g : Graph ℕ} (h : g.vertices = []) :
    createEssentialNetworkSpecFromGraph g = none := by
  rw [createEssentialNetworkSpecFromGraph]
  split
  · rfl
  · rename_i v vs heq
    rw [h] at heq
    exact List.noConfusion heq

theorem encode_eval {g : Graph ℕ} {v : ℕ} {vs : List ℕ} (h : g.vertices = v :: vs) :
    createEssentialNetworkSpecFromGraph g = encodeCore g := by
  rw [createEssentialNetworkSpecFromGraph]
  split
  · rename_i heq
    rw [h] at heq
    exact List.noConfusion heq
  · rfl

theorem encLine_shape {names : List Chars} {nies : Chars × List (ℕ × Chars)} {l : Chars}
    (h : encLine names nies = some l) : ∃ pre : Chars, l = pre ++ str " : E\n" := by
  rw [encLine] at h
  cases h1 : (nies.2.filter (fun ir => decide (ir.2 = str "a"))).mapM
      (fun ir => names.get? ir.1) with
  | none => rw [h1] at h; exact Option.noConfusion h
  | some actNames =>
      rw [h1] at h
      have h3 : ((nies.2.filter (fun ir => decide (ir.2 = str "r"))).mapM
          (fun ir => names.get? ir.1)) >>= (fun repNames =>
            (some (nies.1 ++ str " : " ++
              (if pyJoin (str " + ") actNames = [] then pyJoin (str " + ") actNames
                else str "(" ++ pyJoin (str " + ") actNames ++ str ")") ++
              (repNames.map (fun nm => str "(~" ++ nm ++ str ")")).flatten ++
              str " : E\n") : Option Chars)) = some l := h
      cases h2 : (nies.2.filter (fun ir => decide (ir.2 = str "r"))).mapM
          (fun ir => names.get? ir.1) with
      | none =>
          rw [h2] at h3
          exact Option.noConfusion h3
      | some repNames =>
          rw [h2] at h3
          cases h3
          exact ⟨_, rfl⟩

/-- C9: every line the encoder emits ends in the essential marker
`" : E\n"`; there is no code path producing a non-essential node line. -/
theorem C9_every_line_essential (g : Graph ℕ) (out : Chars)
    (h : createEssentialNetworkSpecFromGraph g = some out) :
    ∃ lines : List Chars, out = lines.flatten ∧
      ∀ l ∈ lines, ∃ pre : Chars, l = pre ++ str " : E\n" := by
  cases hv : g.vertices with
  | nil => rw [encode_none_of_nil hv] at h; exact Option.noConfusion h
  | cons v vs =>
      rw [encode_eval hv, encodeCore] at h
      cases hfold : (graphEdgesOf g).foldlM distStep
          (List.replicate (encNames g).length []) with
      | none => rw [hfold] at h; exact Option.noConfusion h
      | some inedges =>
          rw [hfold] at h
          have h3 : (((encNames g).zip inedges).mapM (encLine (encNames g))) >>=
              (fun lines => (some lines.flatten : Option Chars)) = some out := h
          cases hmap : ((encNames g).zip inedges).mapM (encLine (encNames g)) with
          | none =>
              rw [hmap] at h3
              exact Option.noConfusion h3
          | some lines =>
              rw [hmap] at h3
              cases h3
              refine ⟨lines, rfl, ?_⟩
              intro l hl
              obtain ⟨nies, _, hline⟩ := mapM_option_mem (encLine (encNames g)) hmap l hl
              exact encLine_shape hline

theorem C9_witness :
    createEssentialNetworkSpecFromGraph ((Graph.empty ℕ).add_vertex 0 (str "X")) =
        some (str "X :  : E\n") ∧
      ∃ lines : List Chars, str "X :  : E\n" = lines.flatten ∧
        ∀ l ∈ lines, ∃ pre : Chars, l = pre ++ str " : E\n" :=
  ⟨rfl, C9_every_line_essential ((Graph.empty ℕ).add_vertex 0 (str "X"))
    (str "X :  : E\n") rfl⟩

/-! ### Canonical form of the `(index, name)` sort -/

theorem charsLe_total : ∀ (a b : Chars), charsLe a b = true ∨ charsLe b a = true := by
  intro a
  induction a with
  | nil => intro b; exact Or.inl rfl
  | cons c cs ih =>
      intro b
      match b with
      | [] => exact Or.inr rfl
      | d :: ds =>
          by_cases hcd : c = d
          · subst hcd
            rw [charsLe, if_pos rfl, charsLe, if_pos rfl]
            exact ih ds
          · rw [charsLe, if_neg hcd, charsLe, if_neg (fun h => hcd h.symm)]
            rcases lt_or_gt_of_ne hcd with h | h
            · exact Or.inl (by simpa using h)
            · exact Or.inr (by simpa using h)

theorem charsLe_antisymm : ∀ {a b : Chars},
    charsLe a b = true → charsLe b a = true → a = b := by
  intro a
  induction a with
  | nil =>
      intro b _ hba
      match b with
      | [] => rfl
      | d :: ds => exact Bool.noConfusion hba
  | cons c cs ih =>
      intro b hab hba
      match b with
      | [] => exact Bool.noConfusion hab
      | d :: ds =>
          by_cases hcd : c = d
          · subst hcd
            rw [charsLe, if_pos rfl] at hab
            rw [charsLe, if_pos rfl] at hba
            rw [ih hab hba]
          · rw [charsLe, if_neg hcd] at hab
            rw [charsLe, if_neg (fun h => hcd h.symm)] at hba
            exact absurd (of_decide_eq_true hab) (not_lt.2 (le_of_lt (of_decide_eq_true hba)))

theorem charsLe_trans : ∀ {a b c : Chars},
    charsLe a b = true → charsLe b c = true → charsLe a c = true := by
  intro a
  induction a with
  | nil => intro b c _ _; rfl
  | cons x xs ih =>
      intro b c hab hbc
      match b, c with
      | [], _ => exact Bool.noConfusion hab
      | _ :: _, [] => exact Bool.noConfusion hbc
      | y :: ys, z :: zs =>
          by_cases hxy : x = y
          · subst hxy
            rw [charsLe, if_pos rfl] at hab
            by_cases hyz : x = z
            · subst hyz
              rw [charsLe, if_pos rfl] at hbc ⊢
              exact ih hab hbc
            · rw [charsLe, if_neg hyz] at hbc ⊢
              exact hbc
          · rw [charsLe, if_neg hxy] at hab
            by_cases hyz : y = z
            · subst hyz
              rw [charsLe, if_neg hxy]
              exact hab
            · rw [charsLe, if_neg hyz] at hbc
              have hxz : x < z := lt_trans (of_decide_eq_true hab) (of_decide_eq_true hbc)
              rw [charsLe, if_neg (ne_of_lt hxz)]
              simpa using hxz

theorem pairLe_total : ∀ (a b : ℕ × Chars), pairLe a b = true ∨ pairLe b a = true := by
  intro a b
  by_cases hab : a.1 = b.1
  · rw [pairLe, if_pos hab, pairLe, if_pos hab.symm]
    exact charsLe_total a.2 b.2
  · rw [pairLe, if_neg hab, pairLe, if_neg (fun h => hab h.symm)]
    rcases lt_or_gt_of_ne hab with h | h
    · exact Or.inl (by simpa using h)
    · exact Or.inr (by simpa using h)

theorem pairLe_antisymm : ∀ {a b : ℕ × Chars},
    pairLe a b = true → pairLe b a = true → a = b := by
  intro a b hab hba
  by_cases h1 : a.1 = b.1
  · rw [pairLe, if_pos h1] at hab
    rw [pairLe, if_pos h1.symm] at hba
    have h2 := charsLe_antisymm hab hba
    exact Prod.ext h1 h2
  · rw [pairLe, if_neg h1] at hab
    rw [pairLe, if_neg (fun h => h1 h.symm)] at hba
    exact absurd (of_decide_eq_true hab) (not_lt.2 (le_of_lt (of_decide_eq_true hba)))

theorem pairLe_trans : ∀ {a b c : ℕ × Chars},
    pairLe a b = true → pairLe b c = true → pairLe a c = true := by
  intro a b c hab hbc
  by_cases h1 : a.1 = b.1
  · rw [pairLe, if_pos h1] at hab
    by_cases h2 : b.1 = c.1
    · rw [pairLe, if_pos h2] at hbc
      rw [pairLe, if_pos (h1.trans h2)]
      exact charsLe_trans hab hbc
    · rw [pairLe, if_neg h2] at hbc
      rw [pairLe, if_neg (h1 ▸ h2)]
      exact h1 ▸ hbc
  · rw [pairLe, if_neg h1] at hab
    by_cases h2 : b.1 = c.1
    · rw [pairLe, if_neg (h2 ▸ h1)]
      exact h2 ▸ hab
    · rw [pairLe, if_neg h2] at hbc
      have h3 : a.1 < c.1 := lt_trans (of_decide_eq_true hab) (of_decide_eq_true hbc)
      rw [pairLe, if_neg (Nat.ne_of_lt h3)]
      simpa using h3

theorem insertPair_perm (x : ℕ × Chars) :
    ∀ (l : List (ℕ × Chars)), (insertPair x l).Perm (x :: l) := by
  intro l
  induction l with
  | nil => exact List.Perm.refl _
  | cons y ys ih =>
      rw [insertPair]
      split
      · exact List.Perm.refl _
      · exact (List.Perm.cons y ih).trans (List.Perm.swap x y ys)

theorem insertPair_sorted (x : ℕ × Chars) :
    ∀ {l : List (ℕ × Chars)}, l.Sorted (fun a b => pairLe a b = true) →
      (insertPair x l).Sorted (fun a b => pairLe a b = true) := by
  intro l
  induction l with
  | nil => intro _; simp [insertPair]
  | cons y ys ih =>
      intro hs
      rw [List.sorted_cons] at hs
      rw [insertPair]
      split
      · rename_i hxy
        rw [List.sorted_cons]
        refine ⟨?_, List.sorted_cons.2 hs⟩
        intro b hb
        rcases List.mem_cons.1 hb with rfl | hb
        · exact hxy
        · exact pairLe_trans hxy (hs.1 b hb)
      · rename_i hxy
        have hyx : pairLe y x = true := by
          rcases pairLe_total x y with h | h
          · exact absurd h hxy
          · exact h
        rw [List.sorted_cons]
        refine ⟨?_, ih hs.2⟩
        intro b hb
        have := (insertPair_perm x ys).mem_iff.1 hb
        rcases List.mem_cons.1 this with rfl | hb2
        · exact hyx
        · exact hs.1 b hb2

theorem sortPairs_perm : ∀ (l : List (ℕ × Chars)), (sortPairs l).Perm l := by
  intro l
  induction l with
  | nil => exact List.Perm.refl _
  | cons x xs ih =>
      rw [sortPairs]
      exact (insertPair_perm x (sortPairs xs)).trans (List.Perm.cons x ih)

theorem sortPairs_sorted :
    ∀ (l : List (ℕ × Chars)), (sortPairs l).Sorted (fun a b => pairLe a b = true) := by
  intro l
  induction l with
  | nil => simp [sortPairs]
  | cons x xs ih => exact insertPair_sorted x ih

theorem sorted_range_map_pair (n : ℕ) (f : ℕ → Chars) :
    ((List.range n).map (fun k => (k, f k))).Sorted (fun a b => pairLe a b = true) := by
  rw [List.Sorted, List.pairwise_map]
  apply List.Pairwise.imp ?_ (List.pairwise_lt_range n)
  intro a b hab
  rw [pairLe, if_neg (Nat.ne_of_lt hab)]
  simpa using hab

theorem sortPairs_canonical {n : ℕ} {f : ℕ → Chars} {xs : List (ℕ × Chars)}
    (hperm : xs.Perm ((List.range n).map (fun k => (k, f k)))) :
    sortPairs xs = (List.range n).map (fun k => (k, f k)) := by
  haveI : IsAntisymm (ℕ × Chars) (fun a b => pairLe a b = true) :=
    ⟨fun _ _ hab hba => pairLe_antisymm hab hba⟩
  exact List.eq_of_perm_of_sorted ((sortPairs_perm xs).trans hperm)
    (sortPairs_sorted xs) (sorted_range_map_pair n f)

theorem map_getD_range {α : Type} (d : α) :
    ∀ (l : List α), (List.range l.length).map (fun k => l.getD k d) = l := by
  intro l
  induction l with
  | nil => rfl
  | cons a l ih =>
      rw [List.length_cons, List.range_succ_eq_map, List.map_cons, List.map_map]
      rw [show ((fun k => (a :: l).getD k d) ∘ Nat.succ) = fun k => l.getD k d from rfl]
      rw [ih]
      rfl

theorem zip_self_map {α β : Type} (f : α → β) :
    ∀ (l : List α), l.zip (l.map f) = l.map (fun a => (a, f a)) := by
  intro l
  induction l with
  | nil => rfl
  | cons a l ih => rw [List.map_cons, List.zip_cons_cons, ih, List.map_cons]

/-! ### Encoder evaluation on decoded graphs -/

theorem eFold_elabel_cases {A : Type} (esrc edst : A → V) (elb : A → Chars) :
    ∀ (l : List A) (h0 : Graph V),
      (∀ a ∈ l, esrc a ∈ h0.vertices ∧ edst a ∈ h0.vertices) → ∀ (x y : V),
      (∃ a ∈ l, esrc a = x ∧ edst a = y ∧
        (eFold esrc edst elb l h0).elabel x y = elb a) ∨
      ((∀ a ∈ l, ¬(esrc a = x ∧ edst a = y)) ∧
        (eFold esrc edst elb l h0).elabel x y = h0.elabel x y) := by
  intro l
  induction l with
  | nil => intro h0 _ x y; exact Or.inr ⟨by simp, rfl⟩
  | cons a l ih =>
      intro h0 hl x y
      have hv := Graph.add_edge_vertices_of_mem (g := h0) (elb a)
        (hl a (by simp)).1 (hl a (by simp)).2
      have hl2 : ∀ b ∈ l, esrc b ∈ (h0.add_edge (esrc a) (edst a) (elb a)).vertices ∧
          edst b ∈ (h0.add_edge (esrc a) (edst a) (elb a)).vertices := by
        intro b hb
        rw [hv]
        exact hl b (by simp [hb])
      rcases ih (h0.add_edge (esrc a) (edst a) (elb a)) hl2 x y with
        ⟨b, hb, hbx, hby, hlb⟩ | ⟨hnone, heq⟩
      · exact Or.inl ⟨b, by simp [hb], hbx, hby, hlb⟩
      · by_cases hmatch : esrc a = x ∧ edst a = y
        · refine Or.inl ⟨a, by simp, hmatch.1, hmatch.2, ?_⟩
          show (eFold esrc edst elb l (h0.add_edge (esrc a) (edst a) (elb a))).elabel x y = _
          rw [heq, Graph.add_edge_elabel_of_mems _ (hl a (by simp)).1 (hl a (by simp)).2,
            if_pos ⟨hmatch.1.symm, hmatch.2.symm⟩]
        · refine Or.inr ⟨?_, ?_⟩
          · intro b hb
            rcases List.mem_cons.1 hb with rfl | hb
            · exact hmatch
            · exact hnone b hb
          · show (eFold esrc edst elb l (h0.add_edge (esrc a) (edst a) (elb a))).elabel x y = _
            rw [heq, Graph.add_edge_elabel_of_mems _ (hl a (by simp)).1 (hl a (by simp)).2,
              if_neg (fun h => hmatch ⟨h.1.symm, h.2.symm⟩)]

theorem nodup_flatMap_of {α β : Type} (f : α → List β) :
    ∀ {l : List α}, (∀ a ∈ l, (f a).Nodup) →
      l.Pairwise (fun a b => ∀ x ∈ f a, x ∉ f b) → (l.flatMap f).Nodup := by
  intro l
  induction l with
  | nil => intro _ _; simp
  | cons a l ih =>
      intro hnd hpw
      rw [List.pairwise_cons] at hpw
      rw [List.flatMap_cons]
      refine List.Nodup.append (hnd a (by simp)) (ih (fun b hb => hnd b (by simp [hb])) hpw.2) ?_
      intro x hxa hxl
      rw [List.mem_flatMap] at hxl
      obtain ⟨b, hb, hxb⟩ := hxl
      exact hpw.1 b hb x hxa hxb

theorem encNames_eq {g : Graph ℕ} {names : List Chars}
    (hv : g.vertices = (List.range names.length).reverse)
    (hl : ∀ k, k < names.length → g.vlabel k = names.getD k []) :
    encNames g = names := by
  have h1 : encNames g =
      (sortPairs (g.vertices.zip (g.vertices.map g.vlabel))).map Prod.snd := rfl
  rw [h1, zip_self_map, hv]
  have hperm : (((List.range names.length).reverse).map
      (fun v => (v, g.vlabel v))).Perm
      ((List.range names.length).map (fun k => (k, g.vlabel k))) :=
    (List.reverse_perm _).map _
  rw [sortPairs_canonical hperm, List.map_map,
    show (Prod.snd ∘ fun k => ((k : ℕ), g.vlabel k)) = fun k => g.vlabel k from rfl,
    List.map_congr_left (fun k hk => hl k (List.mem_range.1 hk)),
    map_getD_range [] names]

theorem graphEdgesOf_mem {g : Graph ℕ} (hw : WF g) (e : ℕ × ℕ × Chars) :
    e ∈ graphEdgesOf g ↔ Edge g e.1 e.2.1 ∧ e.2.2 = g.elabel e.1 e.2.1 := by
  rw [graphEdgesOf, List.mem_flatMap]
  constructor
  · rintro ⟨v, hv, he⟩
    rw [List.mem_map] at he
    obtain ⟨a, ha, rfl⟩ := he
    exact ⟨ha, rfl⟩
  · rintro ⟨hedge, hlbl⟩
    refine ⟨e.1, ?_, ?_⟩
    · by_contra hnv
      have hmem : e.2.1 ∈ g.adj e.1 := hedge
      rw [hw.adj_empty e.1 hnv] at hmem
      simp at hmem
    · rw [List.mem_map]
      exact ⟨e.2.1, hedge, Prod.ext rfl (Prod.ext rfl hlbl.symm)⟩

theorem graphEdgesOf_keys_nodup {g : Graph ℕ} (hw : WF g) :
    ((graphEdgesOf g).map (fun e => (e.1, e.2.1))).Nodup := by
  rw [graphEdgesOf, List.map_flatMap]
  rw [show (fun v => (((g.adj v).map (fun a => (v, a, g.elabel v a))).map
      (fun e : ℕ × ℕ × Chars => (e.1, e.2.1)))) =
    (fun v => (g.adj v).map (fun a => (v, a))) from
    funext (fun v => by rw [List.map_map]; rfl)]
  apply nodup_flatMap_of
  · intro v _
    exact List.Nodup.map_on
      (fun x _ y _ hxy => congrArg Prod.snd hxy) (hw.nodupA v)
  · apply List.Pairwise.imp ?_ hw.nodupV
    intro a b hab x hxa hxb
    rw [List.mem_map] at hxa hxb
    obtain ⟨p, _, hp⟩ := hxa
    obtain ⟨q, _, hq⟩ := hxb
    rw [← hp] at hq
    exact hab (congrArg Prod.fst hq).symm

theorem distribute_spec :
    ∀ (es : List (ℕ × ℕ × Chars)) (acc : List (List (ℕ × Chars))),
      (∀ e ∈ es, e.2.1 < acc.length) →
      ∃ r, es.foldlM distStep acc = some r ∧ r.length = acc.length ∧
        ∀ t, t < acc.length → r.getD t [] =
          acc.getD t [] ++
            (es.filter (fun e => decide (e.2.1 = t))).map (fun e => (e.1, e.2.2)) := by
  intro es
  induction es with
  | nil =>
      intro acc _
      exact ⟨acc, rfl, rfl, fun t _ => by simp⟩
  | cons e es ih =>
      intro acc hb
      have he : e.2.1 < acc.length := hb e (by simp)
      have hget : acc.get? e.2.1 = some (acc.getD e.2.1 []) := by
        rw [List.get?_eq_getElem?, List.getD_eq_getElem?_getD,
          List.getElem?_eq_getElem he]
        rfl
      have hstep : distStep acc e =
          some (acc.set e.2.1 (acc.getD e.2.1 [] ++ [(e.1, e.2.2)])) := by
        rw [distStep, hget]
      have hlen2 : (acc.set e.2.1 (acc.getD e.2.1 [] ++ [(e.1, e.2.2)])).length =
          acc.length := List.length_set acc _ _
      obtain ⟨r, hr, hrl, hrg⟩ := ih (acc.set e.2.1 (acc.getD e.2.1 [] ++ [(e.1, e.2.2)]))
        (by intro x hx; rw [hlen2]; exact hb x (by simp [hx]))
      refine ⟨r, ?_, by rw [hrl, hlen2], ?_⟩
      · show distStep acc e >>= (fun a => es.foldlM distStep a) = some r
        rw [hstep]
        exact hr
      · intro t ht
        rw [hrg t (by rw [hlen2]; exact ht)]
        by_cases hte : e.2.1 = t
        · subst hte
          have hset : (acc.set e.2.1 (acc.getD e.2.1 [] ++ [(e.1, e.2.2)])).getD e.2.1 [] =
              acc.getD e.2.1 [] ++ [(e.1, e.2.2)] := by
            rw [List.getD_eq_getElem?_getD, List.getElem?_set_self he]
            rfl
          rw [hset, List.filter_cons, if_pos (by simp), List.map_cons]
          simp
        · have hset : (acc.set e.2.1 (acc.getD e.2.1 [] ++ [(e.1, e.2.2)])).getD t [] =
              acc.getD t [] := by
            rw [List.getD_eq_getElem?_getD, List.getElem?_set_ne hte,
              List.getD_eq_getElem?_getD]
          rw [hset, List.filter_cons, if_neg (by simpa using hte)]

theorem encLine_eval {names : List Chars} {ies : List (ℕ × Chars)} (nm : Chars)
    (hs : ∀ ir ∈ ies, ir.1 < names.length) :
    encLine names (nm, ies) = some (nm ++ str " : " ++
      (if pyJoin (str " + ") ((ies.filter (fun ir => decide (ir.2 = str "a"))).map
            (fun ir => names.getD ir.1 [])) = []
        then pyJoin (str " + ") ((ies.filter (fun ir => decide (ir.2 = str "a"))).map
            (fun ir => names.getD ir.1 []))
        else str "(" ++ pyJoin (str " + ") ((ies.filter (fun ir => decide (ir.2 = str "a"))).map
            (fun ir => names.getD ir.1 [])) ++ str ")") ++
      ((((ies.filter (fun ir => decide (ir.2 = str "r"))).map (fun ir => names.getD ir.1 [])).map
        (fun x => str "(~" ++ x ++ str ")")).flatten) ++ str " : E\n") := by
  have hget : ∀ ir ∈ ies, names.get? ir.1 = some (names.getD ir.1 []) := by
    intro ir hir
    rw [List.get?_eq_getElem?, List.getD_eq_getElem?_getD,
      List.getElem?_eq_getElem (hs ir hir)]
    rfl
  rw [show encLine names (nm, ies) =
    ((ies.filter (fun ir => decide (ir.2 = str "a"))).mapM (fun ir => names.get? ir.1)) >>=
      (fun actNames =>
        ((ies.filter (fun ir => decide (ir.2 = str "r"))).mapM (fun ir => names.get? ir.1)) >>=
          (fun repNames =>
            some (nm ++ str " : " ++
              (if pyJoin (str " + ") actNames = [] then pyJoin (str " + ") actNames
                else str "(" ++ pyJoin (str " + ") actNames ++ str ")") ++
              ((repNames.map (fun x => str "(~" ++ x ++ str ")")).flatten) ++
              str " : E\n"))) from rfl]
  rw [mapM_option_of_forall (fun ir : ℕ × Chars => names.get? ir.1)
      (fun ir => names.getD ir.1 [])
      (fun ir hir => hget ir (List.mem_filter.1 hir).1),
    mapM_option_of_forall (fun ir : ℕ × Chars => names.get? ir.1)
      (fun ir => names.getD ir.1 [])
      (fun ir hir => hget ir (List.mem_filter.1 hir).1)]
  rfl

theorem mapM_except_ok_zip {α β ε : Type} (f : α → Except ε β) :
    ∀ {ps : List (α × β)}, (∀ p ∈ ps, f p.1 = .ok p.2) →
      (ps.map Prod.fst).mapM f = .ok (ps.map Prod.snd) := by
  intro ps
  induction ps with
  | nil => intro _; rw [List.map_nil, List.mapM_nil]; rfl
  | cons p ps ih =>
      intro h
      rw [List.map_cons, List.map_cons, List.mapM_cons, h p (by simp),
        show (Except.ok p.2 >>= fun b => (ps.map Prod.fst).mapM f >>= fun bs =>
          pure (b :: bs) : Except ε (List β)) = (ps.map Prod.fst).mapM f >>= fun bs =>
          pure (p.2 :: bs) from rfl,
        ih (fun q hq => h q (by simp [hq]))]
      rfl

theorem mem_pyJoin {c : Char} {sep : Chars} :
    ∀ {l : List Chars}, c ∈ pyJoin sep l → c ∈ sep ∨ ∃ a ∈ l, c ∈ a := by
  intro l
  induction l with
  | nil => intro h; simp [pyJoin] at h
  | cons a l ih =>
      intro h
      cases l with
      | nil => exact Or.inr ⟨a, by simp, h⟩
      | cons b bs =>
          rw [show pyJoin sep (a :: b :: bs) = a ++ sep ++ pyJoin sep (b :: bs) from rfl] at h
          simp only [List.mem_append] at h
          rcases h with (h | h) | h
          · exact Or.inr ⟨a, by simp, h⟩
          · exact Or.inl h
          · rcases ih h with h2 | ⟨x, hx, hcx⟩
            · exact Or.inl h2
            · exact Or.inr ⟨x, by simp [hx], hcx⟩

theorem body_no_nl {nm : Chars} {as rs : List Chars} (hnm : goodName nm)
    (has : ∀ a ∈ as, goodName a) (hrs : ∀ r ∈ rs, goodName r) :
    '\n' ∉ nm ++ str " : " ++
      (if pyJoin (str " + ") as = [] then pyJoin (str " + ") as
        else str "(" ++ pyJoin (str " + ") as ++ str ")") ++
      (rs.map (fun r => str "(~" ++ r ++ str ")")).flatten ++ str " : E" := by
  intro hmem
  have hgc : ∀ {s : Chars}, goodName s → '\n' ∉ s := by
    intro s hgs hns
    exact (hgs.2 '\n' hns).1 (by decide)
  simp only [List.mem_append] at hmem
  rcases hmem with (((h | h) | h) | h) | h
  · exact hgc hnm h
  · exact absurd h (by decide)
  · by_cases hc : pyJoin (str " + ") as = []
    · rw [if_pos hc, hc] at h
      simp at h
    · rw [if_neg hc] at h
      simp only [List.mem_append] at h
      rcases h with (h | h) | h
      · exact absurd h (by decide)
      · rcases mem_pyJoin h with h2 | ⟨a, ha, hca⟩
        · exact absurd h2 (by decide)
        · exact hgc (has a ha) hca
      · exact absurd h (by decide)
  · rw [List.mem_flatten] at h
    obtain ⟨piece, hp, hcp⟩ := h
    rw [List.mem_map] at hp
    obtain ⟨r, hr, rfl⟩ := hp
    simp only [List.mem_append] at hcp
    rcases hcp with (h | h) | h
    · exact absurd h (by decide)
    · exact hgc (hrs r hr) h
    · exact absurd h (by decide)
  · exact absurd h (by decide)

theorem splitOnNl_flatten :
    ∀ {bs : List Chars}, (∀ b ∈ bs, '\n' ∉ b) →
      splitOnNl ((bs.map (fun b => b ++ ['\n'])).flatten) = bs ++ [[]] := by
  intro bs
  induction bs with
  | nil => intro _; rfl
  | cons b bs ih =>
      intro h
      rw [List.map_cons, List.flatten_cons,
        show b ++ ['\n'] ++ ((bs.map (fun b => b ++ ['\n'])).flatten) =
          b ++ '\n' :: ((bs.map (fun b => b ++ ['\n'])).flatten) from by simp,
        splitOnNl_sep _ (h b (by simp)), ih (fun x hx => h x (by simp [hx]))]
      rfl

theorem filter_bodies {bs : List Chars} (h : ∀ b ∈ bs, b ≠ []) :
    (bs ++ [[]]).filter (fun l => !l.isEmpty) = bs := by
  rw [List.filter_append,
    List.filter_eq_self.mpr ?_,
    show List.filter (fun l : Chars => !l.isEmpty) [[]] = [] from rfl,
    List.append_nil]
  intro b hb
  match b, h b hb with
  | [], hh => exact absurd rfl hh
  | c :: cs, _ => rfl

theorem parse_body {nm : Chars} {as rs : List Chars} (hnm : goodName nm)
    (has : ∀ a ∈ as, goodName a) (hrs : ∀ r ∈ rs, goodName r) :
    parseLine (nm ++ str " : " ++
      (if pyJoin (str " + ") as = [] then pyJoin (str " + ") as
        else str "(" ++ pyJoin (str " + ") as ++ str ")") ++
      (rs.map (fun r => str "(~" ++ r ++ str ")")).flatten ++ str " : E") =
      .ok (nm, as ++ rs.map (fun r => '~' :: r)) := by
  have hws : stripEssential (pyWords (replSeps (nm ++ str " : " ++
      (if pyJoin (str " + ") as = [] then pyJoin (str " + ") as
        else str "(" ++ pyJoin (str " + ") as ++ str ")") ++
      (rs.map (fun r => str "(~" ++ r ++ str ")")).flatten ++ str " : E"))) =
      nm :: str ":" :: (as ++ rs.map (fun r => '~' :: r)) := by
    rw [encode_line_tokens nm as rs hnm has hrs,
      show [nm, str ":"] ++ as ++ rs.map (fun r => '~' :: r) ++ [str ":", str "E"] =
        (nm :: str ":" :: (as ++ rs.map (fun r => '~' :: r))) ++ [str ":", str "E"] from by
        simp,
      stripEssential_append]
  rw [parseLine, hws]
  rfl

/-- The `(source, label)` in-edge list the encoder collects for target `t`
(lines 189-191), in `graph_edges` order. -/
def iesOf (g : Graph ℕ) (t : ℕ) : List (ℕ × Chars) :=
  ((graphEdgesOf g).filter (fun e => decide (e.2.1 = t))).map (fun e => (e.1, e.2.2))

/-- The activator names of line `t` (line 196). -/
def actNOf (names : List Chars) (g : Graph ℕ) (t : ℕ) : List Chars :=
  ((iesOf g t).filter (fun ir => decide (ir.2 = str "a"))).map (fun ir => names.getD ir.1 [])

/-- The repressor names of line `t` (line 199). -/
def repNOf (names : List Chars) (g : Graph ℕ) (t : ℕ) : List Chars :=
  ((iesOf g t).filter (fun ir => decide (ir.2 = str "r"))).map (fun ir => names.getD ir.1 [])

/-- The body (without the trailing newline) of the node line the encoder
emits for target `t` (line 200). -/
def bodyOf (names : List Chars) (g : Graph ℕ) (t : ℕ) : Chars :=
  names.getD t [] ++ str " : " ++
    (if pyJoin (str " + ") (actNOf names g t) = [] then pyJoin (str " + ") (actNOf names g t)
      else str "(" ++ pyJoin (str " + ") (actNOf names g t) ++ str ")") ++
    ((repNOf names g t).map (fun r => str "(~" ++ r ++ str ")")).flatten ++ str " : E"

theorem encode_decoded {g : Graph ℕ} {names : List Chars} (hwf : WF g)
    (hv : g.vertices = (List.range names.length).reverse)
    (hvl : ∀ k, k < names.length → g.vlabel k = names.getD k [])
    (hsrc : ∀ x y, Edge g x y → x < names.length ∧ y < names.length)
    (hne : names ≠ []) :
    createEssentialNetworkSpecFromGraph g =
      some (((List.range names.length).map
        (fun t => bodyOf names g t ++ ['\n'])).flatten) := by
  have hennames : encNames g = names := encNames_eq hv hvl
  have hbound : ∀ e ∈ graphEdgesOf g,
      e.2.1 < (List.replicate names.length ([] : List (ℕ × Chars))).length := by
    intro e he
    rw [List.length_replicate]
    exact (hsrc e.1 e.2.1 ((graphEdgesOf_mem hwf e).1 he).1).2
  obtain ⟨inedges, hfold, hilen, hig⟩ := distribute_spec (graphEdgesOf g) _ hbound
  rw [List.length_replicate] at hilen
  have higet : ∀ t, t < names.length → inedges.getD t [] = iesOf g t := by
    intro t ht
    rw [hig t (by rw [List.length_replicate]; exact ht),
      show (List.replicate names.length ([] : List (ℕ × Chars))).getD t [] = [] from by
        simp [List.getD_eq_getElem?_getD, List.getElem?_replicate, ht],
      List.nil_append]
    rfl
  have h1 : names = (List.range names.length).map (fun k => names.getD k []) :=
    (map_getD_range [] names).symm
  have h2 : inedges = (List.range names.length).map (fun t => inedges.getD t []) := by
    have h3 := (map_getD_range [] inedges).symm
    rw [hilen] at h3
    exact h3
  have hzip : names.zip inedges =
      (List.range names.length).map (fun t => (names.getD t [], inedges.getD t [])) := by
    conv_lhs => rw [h1, h2]
    exact List.zip_map' _ _ _
  have hsrcN : ∀ t, ∀ ir ∈ iesOf g t, ir.1 < names.length := by
    intro t ir hir
    rw [iesOf, List.mem_map] at hir
    obtain ⟨e, hef, rfl⟩ := hir
    exact (hsrc _ _ ((graphEdgesOf_mem hwf e).1 (List.mem_filter.1 hef).1).1).1
  have hmapM : (names.zip inedges).mapM (encLine names) =
      some ((names.zip inedges).map (fun p =>
        p.1 ++ str " : " ++
        (if pyJoin (str " + ") ((p.2.filter (fun ir => decide (ir.2 = str "a"))).map
              (fun ir => names.getD ir.1 [])) = []
          then pyJoin (str " + ") ((p.2.filter (fun ir => decide (ir.2 = str "a"))).map
              (fun ir => names.getD ir.1 []))
          else str "(" ++ pyJoin (str " + ") ((p.2.filter (fun ir => decide (ir.2 = str "a"))).map
              (fun ir => names.getD ir.1 [])) ++ str ")") ++
        (((p.2.filter (fun ir => decide (ir.2 = str "r"))).map (fun ir => names.getD ir.1 [])).map
          (fun x => str "(~" ++ x ++ str ")")).flatten ++ str " : E\n")) := by
    apply mapM_option_of_forall
    intro p hp
    have hp2 : ∀ ir ∈ p.2, ir.1 < names.length := by
      rw [hzip, List.mem_map] at hp
      obtain ⟨t, htm, rfl⟩ := hp
      intro ir hir
      rw [higet t (List.mem_range.1 htm)] at hir
      exact hsrcN t ir hir
    exact encLine_eval p.1 hp2
  have hlineval : (names.zip inedges).map (fun p =>
        p.1 ++ str " : " ++
        (if pyJoin (str " + ") ((p.2.filter (fun ir => decide (ir.2 = str "a"))).map
              (fun ir => names.getD ir.1 [])) = []
          then pyJoin (str " + ") ((p.2.filter (fun ir => decide (ir.2 = str "a"))).map
              (fun ir => names.getD ir.1 []))
          else str "(" ++ pyJoin (str " + ") ((p.2.filter (fun ir => decide (ir.2 = str "a"))).map
              (fun ir => names.getD ir.1 [])) ++ str ")") ++
        (((p.2.filter (fun ir => decide (ir.2 = str "r"))).map (fun ir => names.getD ir.1 [])).map
          (fun x => str "(~" ++ x ++ str ")")).flatten ++ str " : E\n") =
      (List.range names.length).map (fun t => bodyOf names g t ++ ['\n']) := by
    rw [hzip, List.map_map]
    apply List.map_congr_left
    intro t htm
    show (fun p : Chars × List (ℕ × Chars) =>
        p.1 ++ str " : " ++
        (if pyJoin (str " + ") ((p.2.filter (fun ir => decide (ir.2 = str "a"))).map
              (fun ir => names.getD ir.1 [])) = []
          then pyJoin (str " + ") ((p.2.filter (fun ir => decide (ir.2 = str "a"))).map
              (fun ir => names.getD ir.1 []))
          else str "(" ++ pyJoin (str " + ") ((p.2.filter (fun ir => decide (ir.2 = str "a"))).map
              (fun ir => names.getD ir.1 [])) ++ str ")") ++
        (((p.2.filter (fun ir => decide (ir.2 = str "r"))).map (fun ir => names.getD ir.1 [])).map
          (fun x => str "(~" ++ x ++ str ")")).flatten ++ str " : E\n")
        (names.getD t [], inedges.getD t []) = bodyOf names g t ++ ['\n']
    simp only
    rw [higet t (List.mem_range.1 htm), bodyOf,
      show str " : E\n" = str " : E" ++ ['\n'] from rfl]
    simp only [actNOf, repNOf, List.append_assoc]
  have hvcons : ∃ v vs, g.vertices = v :: vs := by
    rw [hv]
    cases hr : (List.range names.length).reverse with
    | nil =>
        exfalso
        apply hne
        have hlen0 : names.length = 0 := by simpa using congrArg List.length hr
        exact List.length_eq_zero.1 hlen0
    | cons v vs => exact ⟨v, vs, rfl⟩
  obtain ⟨v0, vs0, hvc⟩ := hvcons
  have hcore : createEssentialNetworkSpecFromGraph g =
      (names.zip inedges).mapM (encLine names) >>= fun lines => some lines.flatten := by
    rw [encode_eval hvc, encodeCore, hennames, hfold]
    rfl
  rw [hcore, hmapM]
  show some ((names.zip inedges).map _).flatten = _
  rw [hlineval]

/-- The `(source, target, label)` triples the re-decode of line `t` resolves
from the activator tokens. -/
def aTrips (g : Graph ℕ) (t : ℕ) : List (ℕ × ℕ × Chars) :=
  ((iesOf g t).filter (fun ir => decide (ir.2 = str "a"))).map (fun ir => (ir.1, t, str "a"))

/-- The `(source, target, label)` triples the re-decode of line `t` resolves
from the repressor tokens. -/
def rTrips (g : Graph ℕ) (t : ℕ) : List (ℕ × ℕ × Chars) :=
  ((iesOf g t).filter (fun ir => decide (ir.2 = str "r"))).map (fun ir => (ir.1, t, str "r"))

theorem iesOf_mem {g : Graph ℕ} (hwf : WF g) (t : ℕ) :
    ∀ ir ∈ iesOf g t, Edge g ir.1 t ∧ ir.2 = g.elabel ir.1 t := by
  intro ir hir
  rw [iesOf, List.mem_map] at hir
  obtain ⟨e, hef, rfl⟩ := hir
  obtain ⟨he1, he2⟩ := List.mem_filter.1 hef
  have hEd := (graphEdgesOf_mem hwf e).1 he1
  have ht : e.2.1 = t := of_decide_eq_true he2
  rw [← ht]
  exact hEd

theorem iesOf_of_edge {g : Graph ℕ} (hwf : WF g) {x y : ℕ} (h : Edge g x y) :
    (x, g.elabel x y) ∈ iesOf g y := by
  rw [iesOf, List.mem_map]
  refine ⟨(x, y, g.elabel x y), ?_, rfl⟩
  rw [List.mem_filter]
  exact ⟨(graphEdgesOf_mem hwf _).2 ⟨h, rfl⟩, by simp⟩

theorem decode_encoded {g : Graph ℕ} {names : List Chars} (hwf : WF g)
    (hgd : ∀ k, k < names.length → goodName (names.getD k []))
    (hsrc : ∀ x y, Edge g x y → x < names.length ∧ y < names.length)
    (hfind : ∀ x y, Edge g x y →
      names.findIdx? (fun nm => decide (nm = names.getD x [])) = some x)
    (hlbl : ∀ x y, Edge g x y →
      (g.elabel x y = str "a" ∧ ¬ (names.getD x []).head? = some '~') ∨
        g.elabel x y = str "r") :
    getGraphFromNetworkSpec
        (((List.range names.length).map (fun t => bodyOf names g t ++ ['\n'])).flatten) =
      .ok (eFold trSrc trDst trLbl
        (((List.range names.length).map (fun t => aTrips g t ++ rTrips g t)).flatten)
        (buildVertices names)) := by
  have hgoodact : ∀ t, ∀ a ∈ actNOf names g t, goodName a := by
    intro t a ha
    rw [actNOf, List.mem_map] at ha
    obtain ⟨ir, hirf, rfl⟩ := ha
    have hEd := (iesOf_mem hwf t ir (List.mem_filter.1 hirf).1).1
    exact hgd ir.1 (hsrc ir.1 t hEd).1
  have hgoodrep : ∀ t, ∀ r ∈ repNOf names g t, goodName r := by
    intro t r hr
    rw [repNOf, List.mem_map] at hr
    obtain ⟨ir, hirf, rfl⟩ := hr
    have hEd := (iesOf_mem hwf t ir (List.mem_filter.1 hirf).1).1
    exact hgd ir.1 (hsrc ir.1 t hEd).1
  have hbody_nonnil : ∀ t, t < names.length → bodyOf names g t ≠ [] := by
    intro t ht h
    have hg := (hgd t ht).1
    rw [bodyOf] at h
    cases hnm : names.getD t [] with
    | nil => exact hg hnm
    | cons c cs =>
        rw [hnm] at h
        simp at h
  have hno : ∀ b ∈ (List.range names.length).map (fun t => bodyOf names g t), '\n' ∉ b := by
    intro b hb
    rw [List.mem_map] at hb
    obtain ⟨t, htm, rfl⟩ := hb
    exact body_no_nl (hgd t (List.mem_range.1 htm)) (hgoodact t) (hgoodrep t)
  have hsplit : splitOnNl
      (((List.range names.length).map (fun t => bodyOf names g t ++ ['\n'])).flatten) =
      ((List.range names.length).map (fun t => bodyOf names g t)) ++ [[]] := by
    have hm := splitOnNl_flatten hno
    rw [List.map_map] at hm
    exact hm
  have hfilter : (splitOnNl
      (((List.range names.length).map (fun t => bodyOf names g t ++ ['\n'])).flatten)).filter
        (fun l => !l.isEmpty) =
      (List.range names.length).map (fun t => bodyOf names g t) := by
    rw [hsplit]
    apply filter_bodies
    intro b hb
    rw [List.mem_map] at hb
    obtain ⟨t, htm, rfl⟩ := hb
    exact hbody_nonnil t (List.mem_range.1 htm)
  have hparse : ((List.range names.length).map (fun t => bodyOf names g t)).mapM parseLine =
      .ok ((List.range names.length).map (fun t =>
        (names.getD t [], actNOf names g t ++ (repNOf names g t).map (fun r => '~' :: r)))) := by
    have hcond : ∀ p ∈ (List.range names.length).map (fun t => (bodyOf names g t,
        ((names.getD t [] : Chars),
          actNOf names g t ++ (repNOf names g t).map (fun r => '~' :: r)))),
        parseLine p.1 = .ok p.2 := by
      intro p hp
      rw [List.mem_map] at hp
      obtain ⟨t, htm, rfl⟩ := hp
      exact parse_body (hgd t (List.mem_range.1 htm)) (hgoodact t) (hgoodrep t)
    have hz := mapM_except_ok_zip parseLine hcond
    rw [List.map_map, List.map_map] at hz
    exact hz
  have hstep1 : getGraphFromNetworkSpec
      (((List.range names.length).map (fun t => bodyOf names g t ++ ['\n'])).flatten) =
      buildGraph ((List.range names.length).map (fun t =>
        (names.getD t [], actNOf names g t ++ (repNOf names g t).map (fun r => '~' :: r)))) := by
    rw [decode_eq, hfilter, hparse]
    rfl
  have hinns : (((List.range names.length).map (fun t =>
      ((names.getD t [] : Chars),
        actNOf names g t ++ (repNOf names g t).map (fun r => '~' :: r)))).map Prod.snd).enum =
      (List.range names.length).map (fun t =>
        (t, actNOf names g t ++ (repNOf names g t).map (fun r => '~' :: r))) := by
    rw [List.map_map, List.enum_eq_zip_range, List.length_map, List.length_range]
    exact zip_self_map _ _
  have hline : ∀ t, t < names.length →
      lineTriples names t (actNOf names g t ++ (repNOf names g t).map (fun r => '~' :: r)) =
        .ok (aTrips g t ++ rTrips g t) := by
    intro t ht
    have hcond : ∀ q ∈ (((iesOf g t).filter (fun ir => decide (ir.2 = str "a"))).map
          (fun ir => ((names.getD ir.1 [] : Chars), ((ir.1, t, str "a") : ℕ × ℕ × Chars)))) ++
        (((iesOf g t).filter (fun ir => decide (ir.2 = str "r"))).map
          (fun ir => (('~' :: names.getD ir.1 [] : Chars), ((ir.1, t, str "r") : ℕ × ℕ × Chars)))),
        (fun ie => (resolveToken names ie).map (fun r => (r.1, t, r.2))) q.1 = .ok q.2 := by
      intro q hq
      rw [List.mem_append] at hq
      rcases hq with hq | hq
      · rw [List.mem_map] at hq
        obtain ⟨ir, hirf, rfl⟩ := hq
        obtain ⟨hirm, hira⟩ := List.mem_filter.1 hirf
        have hira2 : ir.2 = str "a" := of_decide_eq_true hira
        obtain ⟨hEd, hlb⟩ := iesOf_mem hwf t ir hirm
        have hel : g.elabel ir.1 t = str "a" := by
          rw [← hlb]
          exact hira2
        have hhead : ¬ (names.getD ir.1 []).head? = some '~' := by
          rcases hlbl ir.1 t hEd with ⟨_, hh⟩ | hr
          · exact hh
          · rw [hel] at hr
            exact absurd hr (by decide)
        have hok := resolveToken_ok_act ((hgd ir.1 (hsrc ir.1 t hEd).1).1) hhead
          (hfind ir.1 t hEd)
        show (resolveToken names (names.getD ir.1 [])).map (fun r => (r.1, t, r.2)) = _
        rw [hok]
        rfl
      · rw [List.mem_map] at hq
        obtain ⟨ir, hirf, rfl⟩ := hq
        obtain ⟨hirm, _⟩ := List.mem_filter.1 hirf
        have hEd := (iesOf_mem hwf t ir hirm).1
        have hok := resolveToken_ok_rep (hfind ir.1 t hEd)
        show (resolveToken names ('~' :: names.getD ir.1 [])).map (fun r => (r.1, t, r.2)) = _
        rw [hok]
        rfl
    have hz := mapM_except_ok_zip
      (fun ie => (resolveToken names ie).map (fun r => (r.1, t, r.2))) hcond
    rw [List.map_append, List.map_append, List.map_map, List.map_map,
      List.map_map, List.map_map] at hz
    rw [lineTriples,
      show (repNOf names g t).map (fun r => '~' :: r) =
        ((iesOf g t).filter (fun ir => decide (ir.2 = str "r"))).map
          (fun ir => '~' :: names.getD ir.1 []) from by
        rw [repNOf, List.map_map]
        rfl]
    exact hz
  have hra : resolveAll names ((List.range names.length).map (fun t =>
      (t, actNOf names g t ++ (repNOf names g t).map (fun r => '~' :: r)))) =
      .ok ((List.range names.length).map (fun t => aTrips g t ++ rTrips g t)) := by
    rw [resolveAll]
    have hcond : ∀ p ∈ (List.range names.length).map (fun t =>
        (((t, actNOf names g t ++ (repNOf names g t).map (fun r => '~' :: r)) :
            ℕ × List Chars),
          aTrips g t ++ rTrips g t)),
        (fun oies : ℕ × List Chars => lineTriples names oies.1 oies.2) p.1 = .ok p.2 := by
      intro p hp
      rw [List.mem_map] at hp
      obtain ⟨t, htm, rfl⟩ := hp
      exact hline t (List.mem_range.1 htm)
    have hz := mapM_except_ok_zip
      (fun oies : ℕ × List Chars => lineTriples names oies.1 oies.2) hcond
    rw [List.map_map, List.map_map] at hz
    exact hz
  rw [hstep1,
    show buildGraph ((List.range names.length).map (fun t =>
      (names.getD t [], actNOf names g t ++ (repNOf names g t).map (fun r => '~' :: r)))) =
    buildEdges (((List.range names.length).map (fun t =>
      ((names.getD t [] : Chars),
        actNOf names g t ++ (repNOf names g t).map (fun r => '~' :: r)))).map Prod.fst)
      (((List.range names.length).map (fun t =>
      ((names.getD t [] : Chars),
        actNOf names g t ++ (repNOf names g t).map (fun r => '~' :: r)))).map Prod.snd)
      from rfl,
    buildEdges_eq, hinns,
    show ((List.range names.length).map (fun t =>
      ((names.getD t [] : Chars),
        actNOf names g t ++ (repNOf names g t).map (fun r => '~' :: r)))).map Prod.fst =
      names from by
      rw [List.map_map]
      exact map_getD_range [] names,
    hra]

theorem buildGraph_spec {parsed : List (Chars × List Chars)} {g : Graph ℕ}
    (hb : buildGraph parsed = .ok g) :
    ∃ E : List (ℕ × ℕ × Chars),
      g = eFold trSrc trDst trLbl E (buildVertices (parsed.map Prod.fst)) ∧
      ∀ e ∈ E, e.1 < parsed.length ∧ e.2.1 < parsed.length ∧
        (parsed.map Prod.fst).findIdx?
          (fun nm => decide (nm = (parsed.map Prod.fst).getD e.1 [])) = some e.1 ∧
        (e.2.2 = str "a" ∧
            ¬ ((parsed.map Prod.fst).getD e.1 []).head? = some '~' ∨
          e.2.2 = str "r") := by
  rw [show buildGraph parsed = buildEdges (parsed.map Prod.fst) (parsed.map Prod.snd) from rfl,
    buildEdges_eq] at hb
  cases hra : resolveAll (parsed.map Prod.fst) (parsed.map Prod.snd).enum with
  | error e => rw [hra] at hb; exact Except.noConfusion hb
  | ok ess =>
      rw [hra] at hb
      cases hb
      refine ⟨ess.flatten, rfl, ?_⟩
      intro e he
      rw [List.mem_flatten] at he
      obtain ⟨es, hes, he2⟩ := he
      obtain ⟨oies, hoies, hline⟩ := mapM_except_mem _ hra es hes
      obtain ⟨ie, hie, hres⟩ := mapM_except_mem _ hline e he2
      cases hrt : resolveToken (parsed.map Prod.fst) ie with
      | error e1 => rw [hrt] at hres; exact Except.noConfusion hres
      | ok r =>
          rw [hrt] at hres
          obtain ⟨k, reg⟩ := r
          have h4 : (Except.ok ((k, oies.1, reg)) : Except DecodeErr (ℕ × ℕ × Chars)) =
              .ok e := hres
          cases h4
          obtain ⟨hf, hcase⟩ := resolveToken_ok_spec hrt
          obtain ⟨_, hlt, hpk⟩ :=
            findIdx?_some_spec (fun nm => decide (nm = refName ie)) [] _ 0 _ hf
          rw [Nat.sub_zero] at hlt hpk
          rw [List.length_map] at hlt
          have heq : (parsed.map Prod.fst).getD k [] = refName ie := of_decide_eq_true hpk
          have hfun : (fun nm => decide (nm = refName ie)) =
              (fun nm => decide (nm = (parsed.map Prod.fst).getD k [])) := by
            funext x
            rw [heq]
          refine ⟨hlt, ?_, ?_, ?_⟩
          · have := List.fst_lt_of_mem_enum hoies
            simpa using this
          · rw [← hfun]
            exact hf
          · rcases hcase with ⟨ha1, ha2, ha3⟩ | hr1
            · left
              refine ⟨ha1, ?_⟩
              rw [heq, ha2]
              exact ha3
            · right
              exact hr1

theorem decoded_facts {parsed : List (Chars × List Chars)} {g : Graph ℕ}
    (hb : buildGraph parsed = .ok g) :
    WF g ∧
    g.vertices = (List.range parsed.length).reverse ∧
    g.vlabel = (buildVertices (parsed.map Prod.fst)).vlabel ∧
    (∀ k, k < parsed.length → g.vlabel k = (parsed.map Prod.fst).getD k []) ∧
    (∀ x y, Edge g x y → x < parsed.length ∧ y < parsed.length ∧
      (parsed.map Prod.fst).findIdx?
        (fun nm => decide (nm = (parsed.map Prod.fst).getD x [])) = some x ∧
      (g.elabel x y = str "a" ∧
          ¬ ((parsed.map Prod.fst).getD x []).head? = some '~' ∨
        g.elabel x y = str "r")) := by
  obtain ⟨E, hg, hE⟩ := buildGraph_spec hb
  have hlen : (parsed.map Prod.fst).length = parsed.length := List.length_map _ _
  have hl : ∀ e ∈ E, trSrc e ∈ (buildVertices (parsed.map Prod.fst)).vertices ∧
      trDst e ∈ (buildVertices (parsed.map Prod.fst)).vertices := by
    intro e he
    rw [buildVertices_mem, buildVertices_mem, hlen]
    exact ⟨(hE e he).1, (hE e he).2.1⟩
  have hnoedge : ∀ x y : ℕ, ¬ Edge (buildVertices (parsed.map Prod.fst)) x y := by
    intro x y h
    have h2 : y ∈ (buildVertices (parsed.map Prod.fst)).adj x := h
    rw [buildVertices_adj] at h2
    simp at h2
  have hedge_iff : ∀ x y, Edge g x y ↔ ∃ e ∈ E, trSrc e = x ∧ trDst e = y := by
    intro x y
    rw [hg, eFold_edge_iff trSrc trDst trLbl E hl]
    constructor
    · rintro (h | h)
      · exact h
      · exact absurd h (hnoedge x y)
    · exact Or.inl
  refine ⟨?_, ?_, ?_, ?_, ?_⟩
  · rw [hg]
    exact eFold_wf trSrc trDst trLbl (buildVertices_wf _) E
  · rw [hg, eFold_vertices trSrc trDst trLbl E hl, buildVertices_vertices, hlen]
  · rw [hg, eFold_vlabel trSrc trDst trLbl E hl]
  · intro k hk
    rw [hg, eFold_vlabel trSrc trDst trLbl E hl,
      buildVertices_vlabel (by rw [hlen]; exact hk)]
  · intro x y hxy
    obtain ⟨e, he, hex, hey⟩ := (hedge_iff x y).1 hxy
    have hex1 : e.1 = x := hex
    have hey1 : e.2.1 = y := hey
    subst hex1
    subst hey1
    obtain ⟨h1, h2, h3, h4⟩ := hE e he
    refine ⟨h1, h2, h3, ?_⟩
    rcases eFold_elabel_cases trSrc trDst trLbl E (buildVertices (parsed.map Prod.fst))
        hl e.1 e.2.1 with ⟨a, ha, hax, hay, hlb⟩ | ⟨hnone, _⟩
    · obtain ⟨_, _, _, h4a⟩ := hE a ha
      rw [← hg] at hlb
      rw [hlb]
      have hax1 : a.1 = e.1 := hax
      rcases h4a with ⟨hl1, hl2⟩ | hr1
      · left
        refine ⟨hl1, ?_⟩
        rw [← hax1]
        exact hl2
      · right
        exact hr1
    · exact absurd ⟨rfl, rfl⟩ (hnone e he)

theorem round_core {parsed : List (Chars × List Chars)} {g : Graph ℕ}
    (hb : buildGraph parsed = .ok g)
    (hgood : ∀ p ∈ parsed, goodName p.1)
    (hne : parsed ≠ []) :
    ∃ out g2, createEssentialNetworkSpecFromGraph g = some out ∧
      getGraphFromNetworkSpec out = .ok g2 ∧
      g2.vertices = g.vertices ∧ g2.vlabel = g.vlabel ∧
      (∀ u v, Edge g2 u v ↔ Edge g u v) ∧
      (∀ u v, g2.elabel u v = g.elabel u v) := by
  obtain ⟨hwf, hverts, hvlabF, hvlabk, hedgeP⟩ := decoded_facts hb
  have hgd : ∀ k, k < (parsed.map Prod.fst).length →
      goodName ((parsed.map Prod.fst).getD k []) := by
    intro k hk
    have hk1 : k < parsed.length := by rw [List.length_map] at hk; exact hk
    rw [List.getD_eq_getElem _ [] hk, List.getElem_map]
    exact hgood _ (List.getElem_mem hk1)
  have hv2 : g.vertices = (List.range (parsed.map Prod.fst).length).reverse := by
    rw [List.length_map]
    exact hverts
  have hvl2 : ∀ k, k < (parsed.map Prod.fst).length →
      g.vlabel k = (parsed.map Prod.fst).getD k [] := by
    intro k hk
    rw [List.length_map] at hk
    exact hvlabk k hk
  have hsrc2 : ∀ x y, Edge g x y →
      x < (parsed.map Prod.fst).length ∧ y < (parsed.map Prod.fst).length := by
    intro x y h
    rw [List.length_map]
    exact ⟨(hedgeP x y h).1, (hedgeP x y h).2.1⟩
  have hnames_ne : parsed.map Prod.fst ≠ [] := by
    intro h
    exact hne (List.map_eq_nil_iff.1 h)
  have henc := encode_decoded hwf hv2 hvl2 hsrc2 hnames_ne
  have hfind2 : ∀ x y, Edge g x y → (parsed.map Prod.fst).findIdx?
      (fun nm => decide (nm = (parsed.map Prod.fst).getD x [])) = some x :=
    fun x y h => (hedgeP x y h).2.2.1
  have hlbl2 : ∀ x y, Edge g x y →
      (g.elabel x y = str "a" ∧ ¬ ((parsed.map Prod.fst).getD x []).head? = some '~') ∨
        g.elabel x y = str "r" :=
    fun x y h => (hedgeP x y h).2.2.2
  have hdec2 := decode_encoded hwf hgd hsrc2 hfind2 hlbl2
  have hE2mem : ∀ e : ℕ × ℕ × Chars,
      e ∈ ((List.range (parsed.map Prod.fst).length).map
        (fun t => aTrips g t ++ rTrips g t)).flatten ↔
      ∃ t, t < (parsed.map Prod.fst).length ∧ e ∈ aTrips g t ++ rTrips g t := by
    intro e
    rw [List.mem_flatten]
    constructor
    · rintro ⟨es, hes, he⟩
      rw [List.mem_map] at hes
      obtain ⟨t, htm, rfl⟩ := hes
      exact ⟨t, List.mem_range.1 htm, he⟩
    · rintro ⟨t, ht, he⟩
      exact ⟨aTrips g t ++ rTrips g t, List.mem_map.2 ⟨t, List.mem_range.2 ht, rfl⟩, he⟩
  have htrip : ∀ e ∈ ((List.range (parsed.map Prod.fst).length).map
      (fun t => aTrips g t ++ rTrips g t)).flatten,
      Edge g e.1 e.2.1 ∧ e.2.2 = g.elabel e.1 e.2.1 := by
    intro e he
    rw [hE2mem] at he
    obtain ⟨t, ht, he⟩ := he
    rw [List.mem_append] at he
    rcases he with he | he
    · rw [aTrips, List.mem_map] at he
      obtain ⟨ir, hirf, rfl⟩ := he
      obtain ⟨hirm, hira⟩ := List.mem_filter.1 hirf
      obtain ⟨hEd, hlb⟩ := iesOf_mem hwf t ir hirm
      refine ⟨hEd, ?_⟩
      rw [← hlb]
      exact (of_decide_eq_true hira).symm
    · rw [rTrips, List.mem_map] at he
      obtain ⟨ir, hirf, rfl⟩ := he
      obtain ⟨hirm, hira⟩ := List.mem_filter.1 hirf
      obtain ⟨hEd, hlb⟩ := iesOf_mem hwf t ir hirm
      refine ⟨hEd, ?_⟩
      rw [← hlb]
      exact (of_decide_eq_true hira).symm
  have hsrcE2 : ∀ e ∈ ((List.range (parsed.map Prod.fst).length).map
      (fun t => aTrips g t ++ rTrips g t)).flatten,
      trSrc e ∈ (buildVertices (parsed.map Prod.fst)).vertices ∧
      trDst e ∈ (buildVertices (parsed.map Prod.fst)).vertices := by
    intro e he
    have hEd := (htrip e he).1
    rw [buildVertices_mem, buildVertices_mem]
    exact hsrc2 e.1 e.2.1 hEd
  have hmk : ∀ x y, Edge g x y →
      ((x, y, g.elabel x y) : ℕ × ℕ × Chars) ∈
        ((List.range (parsed.map Prod.fst).length).map
          (fun t => aTrips g t ++ rTrips g t)).flatten := by
    intro x y h
    rw [hE2mem]
    refine ⟨y, (hsrc2 x y h).2, ?_⟩
    have hen := iesOf_of_edge hwf h
    rcases hlbl2 x y h with ⟨ha, _⟩ | hr
    · rw [List.mem_append]
      left
      rw [aTrips, List.mem_map]
      refine ⟨(x, g.elabel x y), ?_, ?_⟩
      · rw [List.mem_filter]
        exact ⟨hen, by simp [ha]⟩
      · rw [ha]
    · rw [List.mem_append]
      right
      rw [rTrips, List.mem_map]
      refine ⟨(x, g.elabel x y), ?_, ?_⟩
      · rw [List.mem_filter]
        exact ⟨hen, by simp [hr]⟩
      · rw [hr]
  have hnoedge : ∀ x y : ℕ, ¬ Edge (buildVertices (parsed.map Prod.fst)) x y := by
    intro x y h
    have h2 : y ∈ (buildVertices (parsed.map Prod.fst)).adj x := h
    rw [buildVertices_adj] at h2
    simp at h2
  have hedges : ∀ u v, Edge (eFold trSrc trDst trLbl
      (((List.range (parsed.map Prod.fst).length).map
        (fun t => aTrips g t ++ rTrips g t)).flatten)
      (buildVertices (parsed.map Prod.fst))) u v ↔ Edge g u v := by
    intro u v
    rw [eFold_edge_iff trSrc trDst trLbl _ hsrcE2]
    constructor
    · rintro (⟨e, he, hex, hey⟩ | h)
      · have hex1 : e.1 = u := hex
        have hey1 : e.2.1 = v := hey
        rw [← hex1, ← hey1]
        exact (htrip e he).1
      · exact absurd h (hnoedge u v)
    · intro h
      exact Or.inl ⟨(u, v, g.elabel u v), hmk u v h, rfl, rfl⟩
  refine ⟨_, _, henc, hdec2, ?_, ?_, hedges, ?_⟩
  · rw [eFold_vertices trSrc trDst trLbl _ hsrcE2, buildVertices_vertices, hv2]
  · rw [eFold_vlabel trSrc trDst trLbl _ hsrcE2]
    exact hvlabF.symm
  · intro u v
    by_cases h : Edge g u v
    · rcases eFold_elabel_cases trSrc trDst trLbl
          (((List.range (parsed.map Prod.fst).length).map
            (fun t => aTrips g t ++ rTrips g t)).flatten)
          (buildVertices (parsed.map Prod.fst)) hsrcE2 u v with
        ⟨a, ha, hax, hay, hlb⟩ | ⟨hnone, _⟩
      · rw [hlb]
        have hax1 : a.1 = u := hax
        have hay1 : a.2.1 = v := hay
        have h2 := (htrip a ha).2
        rw [hax1, hay1] at h2
        exact h2
      · exact absurd ⟨rfl, rfl⟩ (hnone (u, v, g.elabel u v) (hmk u v h))
    · have h2 : ¬ Edge (eFold trSrc trDst trLbl
          (((List.range (parsed.map Prod.fst).length).map
            (fun t => aTrips g t ++ rTrips g t)).flatten)
          (buildVertices (parsed.map Prod.fst))) u v := fun hcon => h ((hedges u v).1 hcon)
      rw [(eFold_wf trSrc trDst trLbl (buildVertices_wf _) _).elabel_empty u v h2,
        hwf.elabel_empty u v h]

/-- C4: a successfully decoded, nonempty network spec survives the round
trip: re-encoding the decoded graph succeeds, and decoding the re-encoded
text yields a graph with the same vertex set, the same vertex labels, the
same edges and the same `a`/`r` edge labels. -/
theorem C4_round_trip (text : Chars) (g : Graph ℕ)
    (hdec : getGraphFromNetworkSpec text = .ok g) (hne : g.vertices ≠ []) :
    ∃ out g2, createEssentialNetworkSpecFromGraph g = some out ∧
      getGraphFromNetworkSpec out = .ok g2 ∧
      g2.vertices = g.vertices ∧ g2.vlabel = g.vlabel ∧
      (∀ u v, Edge g2 u v ↔ Edge g u v) ∧
      (∀ u v, g2.elabel u v = g.elabel u v) := by
  rw [decode_eq] at hdec
  cases hp : ((splitOnNl text).filter (fun l => !l.isEmpty)).mapM parseLine with
  | error e => rw [hp] at hdec; exact Except.noConfusion hdec
  | ok parsed =>
      rw [hp] at hdec
      have hb : buildGraph parsed = .ok g := hdec
      have hgood : ∀ p ∈ parsed, goodName p.1 := by
        intro p hpm
        obtain ⟨line, _, hline⟩ := mapM_except_mem parseLine hp p hpm
        exact (parseLine_good (show parseLine line = .ok (p.1, p.2) from by rw [hline])).1
      have hpne : parsed ≠ [] := by
        intro h
        subst h
        have h2 := (decoded_facts hb).2.1
        simp at h2
        exact hne h2
      exact round_core hb hgood hpne

/-- The decode of the sample network spec used to witness the round trip. -/
def decodedW : Graph ℕ :=
  match getGraphFromNetworkSpec (str "X : (A + B)(~C) : E\nA :\nB :\nC : : E\n") with
  | .ok h => h
  | .error _ => Graph.empty ℕ

set_option maxRecDepth 8000 in
theorem C4_witness :
    getGraphFromNetworkSpec (str "X : (A + B)(~C) : E\nA :\nB :\nC : : E\n") =
        .ok decodedW ∧
      decodedW.vertices ≠ [] ∧
      ∃ out g2, createEssentialNetworkSpecFromGraph decodedW = some out ∧
        getGraphFromNetworkSpec out = .ok g2 ∧
        g2.vertices = decodedW.vertices ∧ g2.vlabel = decodedW.vlabel ∧
        (∀ u v, Edge g2 u v ↔ Edge decodedW u v) ∧
        (∀ u v, g2.elabel u v = decodedW.elabel u v) :=
  ⟨rfl, by decide,
    C4_round_trip (str "X : (A + B)(~C) : E\nA :\nB :\nC : : E\n") decodedW rfl (by decide)⟩

end IntervalGraph
